import Mathlib

/-!
# Signature codec utilities of the remote signer (`src/tools.go`)

A shallow embedding of the helpers of `tools.go` that translate between
ASCII-armored OpenPGP signatures and the single-line "Quanto" form
(`Quanto2GPG`, `GPG2Quanto`, `brokenMacOSXArrayFix`, `SignatureFix`), of the
checksum `CRC24` and of `CompareFingerPrint`.

Conventions of the embedding:

* a Go `string` is a sequence of bytes; it is represented by a `List Char`
  holding one character per byte (`Str`);
* a Go `[]byte` produced by the base64 decoder is a `List Nat`; a consumer
  reads an element `b` as the byte `b % 256`;
* `uint32` arithmetic is arithmetic on `Nat` reduced modulo `2 ^ 32`;
* a function that can panic returns an `Option`; `none` is the panic;
* `encoding/base64`, `strings` and `regexp` are not part of the repository:
  the calls the code makes are embedded from the Go standard library, the
  pattern `pgpsig` by the text it captures.
-/

namespace Chevron

/-- A Go string: one character per byte. -/
abbrev Str := List Char

/-! ## Library functions used by `tools.go` -/

/-- The alphabet of `base64.StdEncoding` (`encodeStd` of `encoding/base64`). -/
def encodeStd : Str :=
  "ABCDEFGHIJKLMNOPQRSTUVWXYZabcdefghijklmnopqrstuvwxyz0123456789+/".toList

/-- The table `decodeMap` of `base64.StdEncoding`: the position of a character
in the alphabet, `none` standing for the entry `0xFF`. -/
def decodeMap (c : Char) : Option Nat :=
  if encodeStd.indexOf c < 64 then some (encodeStd.indexOf c) else none

/-- The table `encode` of `base64.StdEncoding`, indexed by a 6-bit value. -/
def encodeChar (v : Nat) : Char := encodeStd.getD (v % 64) 'A'

/-- The loop `for si < len(src) && (src[si] == '\n' || src[si] == '\r') { si++ }`
of the base64 decoder. -/
def skipNewlines (s : Str) : Str := s.dropWhile (fun c => c == '\n' || c == '\r')

/-- The bytes a quantum of `buf.length` sextets decodes to
(`val := dbuf[0]<<18 | dbuf[1]<<12 | dbuf[2]<<6 | dbuf[3]`, of which
`buf.length - 1` bytes are written). -/
def quantumBytes (buf : List Nat) : List Nat :=
  let val := (buf.getD 0 0) <<< 18 ||| (buf.getD 1 0) <<< 12 ||| (buf.getD 2 0) <<< 6
    ||| (buf.getD 3 0)
  ([(val >>> 16) % 256, (val >>> 8) % 256, val % 256]).take (buf.length - 1)

/-- The decoding loop of `base64.StdEncoding` (padded, not strict): `buf` holds
the sextets read so far in the current quantum. Line feeds and carriage returns
are skipped, padding must complete the quantum and may only be followed by line
breaks, and input that ends inside a quantum is corrupt. `none` is
`CorruptInputError`. -/
def decodeLoop : Str → List Nat → Option (List Nat)
  | [], buf => if buf.length = 0 then some [] else none
  | c :: rest, buf =>
    match decodeMap c with
    | some v =>
      if buf.length = 3 then (decodeLoop rest []).map (quantumBytes (buf ++ [v]) ++ ·)
      else decodeLoop rest (buf ++ [v])
    | none =>
      if c = '\n' ∨ c = '\r' then decodeLoop rest buf
      else if c ≠ '=' then none
      else if buf.length < 2 then none
      else if buf.length = 2 then
        match skipNewlines rest with
        | [] => none
        | p :: rest2 =>
          if p ≠ '=' then none
          else if skipNewlines rest2 = [] then some (quantumBytes buf) else none
      else if skipNewlines rest = [] then some (quantumBytes buf) else none

/-- The call `base64.StdEncoding.DecodeString`; `none` when it returns an error. -/
def DecodeString (s : Str) : Option (List Nat) := decodeLoop s []

/-- The call `base64.StdEncoding.EncodeToString`. -/
def EncodeToString : List Nat → Str
  | [] => []
  | [a] =>
    let val := (a % 256) <<< 16
    [encodeChar (val >>> 18), encodeChar (val >>> 12), '=', '=']
  | [a, b] =>
    let val := (a % 256) <<< 16 ||| (b % 256) <<< 8
    [encodeChar (val >>> 18), encodeChar (val >>> 12), encodeChar (val >>> 6), '=']
  | a :: b :: c :: rest =>
    let val := (a % 256) <<< 16 ||| (b % 256) <<< 8 ||| (c % 256)
    encodeChar (val >>> 18) :: encodeChar (val >>> 12) :: encodeChar (val >>> 6)
      :: encodeChar val :: EncodeToString rest

/-- The call `strings.Split(s, sep)` for a one-byte separator. -/
def Split (s : Str) (sep : Char) : List Str := s.splitOn sep

/-- The call `strings.Trim(s, cutset)` for a cutset of ASCII bytes: the leading
and trailing bytes that belong to the cutset are removed. -/
def Trim (s cutset : Str) : Str :=
  (s.dropWhile (fun c => cutset.contains c)).rdropWhile (fun c => cutset.contains c)

/-- The call `strings.ToUpper` on a string of ASCII bytes: the letters `a` to
`z` are replaced by `A` to `Z`. On a string with a byte from `0x80` on the
library decodes UTF-8 and maps every letter, which is not embedded: the theorems
whose result holds the upper-cased text take the text to be ASCII. -/
def ToUpper (s : Str) : Str := s.map Char.toUpper

/-- First position at which `pat` occurs in the text. -/
def findFirst (pat : Str) : Str → Option Nat
  | [] => if pat.isPrefixOf [] then some 0 else none
  | c :: cs =>
    if pat.isPrefixOf (c :: cs) then some 0 else (findFirst pat cs).map (· + 1)

/-- Last position at which `pat` occurs in the text. -/
def findLast (pat : Str) : Str → Option Nat
  | [] => if pat.isPrefixOf [] then some 0 else none
  | c :: cs =>
    match findLast pat cs with
    | some j => some (j + 1)
    | none => if pat.isPrefixOf (c :: cs) then some 0 else none

/-! ## `tools.go` -/

/-- The first line of a signature armor. -/
def beginLine : Str := "-----BEGIN PGP SIGNATURE-----".toList

/-- The last line of a signature armor. -/
def endLine : Str := "-----END PGP SIGNATURE-----".toList

/-- The first submatch of
`pgpsig = "(?s)-----BEGIN PGP SIGNATURE-----\n(.*)-----END PGP SIGNATURE-----"`
(`pgpsig.FindStringSubmatch(sig)[1]`), `none` when `pgpsig.MatchString(sig)` is
false. The match is the leftmost one, so it starts at the first BEGIN line
that is followed by an END marker, which is the first BEGIN line of the text
when there is a match at all; `(.*)` is greedy and, under `(?s)`, runs over
line breaks, so the group ends where the last END marker starts. -/
def pgpsigSubmatch (sig : Str) : Option Str :=
  match findFirst (beginLine ++ ['\n']) sig with
  | none => none
  | some i =>
    let rest := sig.drop (i + (beginLine ++ ['\n']).length)
    match findLast endLine rest with
    | none => none
    | some j => some (rest.take j)

/-- The loop `for i := 0; i < len(b64data); i++ { if i%64 == 0 { sig += "\n" };
sig += string(b64data[i]) }` shared by `Quanto2GPG` and `SignatureFix`, started
at index `i`. It runs on text the base64 decoder has accepted, hence on ASCII
bytes, for which `string(b)` is the byte itself. -/
def wrapLoop : Nat → Str → Str
  | _, [] => []
  | i, c :: cs => (if i % 64 = 0 then ['\n'] else []) ++ c :: wrapLoop (i + 1) cs

/-- Source `Quanto2GPG`. `none` is the run-time panic "slice bounds out of
range" of `gpgSig[:len(gpgSig)-5]` on a third field of fewer than 5 bytes. -/
def Quanto2GPG (signature : Str) : Option Str :=
  let s := Split signature '$'
  let s := if s.length ≠ 3 then Split signature '_' else s
  if s.length ≠ 3 then some []
  else
    let gpgSig := s.getD 2 []
    if gpgSig.length < 5 then none
    else
      match DecodeString (gpgSig.take (gpgSig.length - 5)) with
      | none =>
        match DecodeString (gpgSig.take (gpgSig.length - 4)) with
        | none => some []
        | some _ =>
          some ("-----BEGIN PGP SIGNATURE-----\nVersion: Quanto\n".toList
            ++ wrapLoop 0 (gpgSig.take (gpgSig.length - 4)) ++ ['\n']
            ++ gpgSig.drop (gpgSig.length - 4) ++ "\n-----END PGP SIGNATURE-----".toList)
      | some _ =>
        some ("-----BEGIN PGP SIGNATURE-----\nVersion: Quanto\n".toList
          ++ wrapLoop 0 (gpgSig.take (gpgSig.length - 5)) ++ ['\n']
          ++ gpgSig.drop (gpgSig.length - 5) ++ "\n-----END PGP SIGNATURE-----".toList)

/-- Source `brokenMacOSXArrayFix`. With `includeHead` the lines `s[1]` to
`s[len(s)-2]` are searched for an empty line and, when there is none, an empty
line is inserted after `s[0]`; without it the lines `s[0]` to `s[len(s)-2]` are
searched and the empty line is put in front. Both callers pass the result of
`strings.Split`, which is never empty. -/
def brokenMacOSXArrayFix (s : List Str) (includeHead : Bool) : List Str :=
  if includeHead then
    if ((s.take (s.length - 1)).drop 1).any (fun l => l.length == 0) then s
    else
      match s with
      | [] => []
      | s0 :: tail => s0 :: [] :: tail
  else
    if (s.take (s.length - 1)).any (fun l => l.length == 0) then s
    else [] :: s

/-- The loop of `GPG2Quanto` over the lines `s[1]` to `s[len(s)-2]`: once an
empty line has been seen (`save`), every further line is appended to `cutSig`. -/
def cutLoop : Bool → List Str → Str
  | _, [] => []
  | false, l :: ls => if l.length = 0 then cutLoop true ls else cutLoop false ls
  | true, l :: ls => l ++ cutLoop true ls

/-- Source `GPG2Quanto`. -/
def GPG2Quanto (signature fingerPrint hash : Str) : Str :=
  let hashName := ToUpper hash
  let s := brokenMacOSXArrayFix (Split (Trim signature " \r".toList) '\n') true
  let cutSig := cutLoop false ((s.take (s.length - 1)).drop 1)
  fingerPrint ++ "_".toList ++ hashName ++ "_".toList ++ cutSig

/-- The loop of `SignatureFix` over `data`: lines are skipped up to the first
empty one; afterwards a line is appended to the body when it is not empty, does
not start with `=` and does not have 5 bytes, and a line of 4 bytes
sets `embeddedCrc`. The result is the body and the flag. -/
def bodyLoop : Bool → List Str → Str × Bool
  | _, [] => ([], false)
  | false, v :: vs => if v.length = 0 then bodyLoop true vs else bodyLoop false vs
  | true, v :: vs =>
    if 0 < v.length ∧ v.head? ≠ some '=' ∧ v.length ≠ 5 then
      (v ++ (bodyLoop true vs).1, (v.length == 4) || (bodyLoop true vs).2)
    else bodyLoop true vs

/-- The body text `SignatureFix` collects from the submatch `g` of `pgpsig`,
with the flag `embeddedCrc`. -/
def collectBody (g : Str) : Str × Bool :=
  let data := brokenMacOSXArrayFix (Split (Trim g " ".toList) '\n') false
  if data.length = 1 then (data.headD [], false) else bodyLoop false data

/-- Source `CRC24`: the inner step `crc <<= 1; if crc&0x1000000 != 0
{ crc ^= crc24Poly }` on a `uint32`. -/
def crc24Shift (crc : Nat) : Nat :=
  let c := (crc <<< 1) % 2 ^ 32
  if c &&& 0x1000000 ≠ 0 then c ^^^ 0x1864cfb else c

/-- Source `CRC24`: the body of the loop over the bytes,
`crc ^= uint32(b) << 16` followed by eight inner steps. -/
def crc24Byte (crc b : Nat) : Nat :=
  crc24Shift^[8] (crc ^^^ (((b % 256) <<< 16) % 2 ^ 32))

/-- Source `CRC24`. -/
def CRC24 (d : List Nat) : Nat := d.foldl crc24Byte 0xb704ce

/-- Source `SignatureFix`. `none` is the panic "error decoding base64". -/
def SignatureFix (sig : Str) : Option Str :=
  match pgpsigSubmatch sig with
  | none => some sig
  | some g =>
    let body := (collectBody g).1
    let embeddedCrc := (collectBody g).2
    match DecodeString body with
    | none => none
    | some d =>
      let crc := CRC24 d
      let crcU := if !embeddedCrc then [(crc >>> 16) &&& 0xFF, (crc >>> 8) &&& 0xFF, crc &&& 0xFF]
        else [0, 0, 0]
      some ("-----BEGIN PGP SIGNATURE-----\n".toList ++ wrapLoop 0 body ++ ['\n']
        ++ (if !embeddedCrc then '=' :: EncodeToString crcU else [])
        ++ "\n-----END PGP SIGNATURE-----".toList)

/-- Source `CompareFingerPrint`. -/
def CompareFingerPrint (fpA fpB : Str) : Bool :=
  if fpA = [] ∨ fpB = [] then false
  else if fpA.length = fpB.length then fpA == fpB
  else if fpA.length > fpB.length then fpA.drop (fpA.length - fpB.length) == fpB
  else fpB.drop (fpB.length - fpA.length) == fpA

/-! ## Notions of the specification -/

/-- A character of the base64 alphabet (a sextet character). -/
def isB64Char (c : Char) : Bool := (decodeMap c).isSome

/-- A valid standard-base64 text: alphabet characters followed by no, one or two
`=`, on a length that is a multiple of four. -/
def validBase64 (s : Str) : Bool :=
  s.length % 4 == 0 &&
    (s.dropWhile isB64Char == [] || s.dropWhile isB64Char == ['=']
      || s.dropWhile isB64Char == ['=', '='])

/-- A 5-character checksum field `=XXXX`. -/
def isCrc5 (C : Str) : Bool :=
  C.length == 5 && C.head? == some '=' && (C.drop 1).all isB64Char

/-- A bare 4-character checksum field `XXXX`. -/
def isCrc4 (C : Str) : Bool := C.length == 4 && C.all isB64Char

/-- The first `n` lines of a text cut every 64 characters. -/
def chunkFuel : Nat → Str → List Str
  | 0, _ => []
  | n + 1, s => if s = [] then [] else s.take 64 :: chunkFuel n (s.drop 64)

/-- A text wrapped in lines of 64 characters (the last one may be shorter). -/
def lines64 (s : Str) : List Str := chunkFuel s.length s

/-- The canonical armored signature with body `B` and checksum line `C`: the
BEGIN line, the line `Version: Quanto`, an empty line, the body in lines of 64
characters, the checksum line and the END line, joined by line feeds. -/
def canonicalArmor (B C : Str) : Str :=
  ['\n'].intercalate
    ([beginLine, "Version: Quanto".toList, []] ++ lines64 B ++ [C, endLine])

/-- An armored signature without header fields: the BEGIN line, the empty
header line when `hdr` is set, the body lines `ls`, the checksum line when there
is one, and the END line, joined by line feeds. -/
def armorText (hdr : Bool) (ls : List Str) (crc : Option Str) : Str :=
  ['\n'].intercalate
    (beginLine :: (((if hdr then [[]] else []) ++ ls ++ crc.toList) ++ [endLine]))

/-- The checksum line of the decoded body `d`: `=` followed by the base64
encoding of the three big-endian bytes of `CRC24 d`. -/
def crcLine (d : List Nat) : Str :=
  '=' :: EncodeToString [CRC24 d / 65536 % 256, CRC24 d / 256 % 256, CRC24 d % 256]

/-- The lines of a text `L₀, …, Lₙ` that lie strictly after the first empty line
among `L₁, …, Lₙ₋₁` and strictly before `Lₙ`. -/
def payloadLines (L : List Str) : List Str :=
  (((L.drop 1).dropLast).dropWhile (fun l => !l.isEmpty)).drop 1

/-- RFC 4880, section 6.1: one shift of the CRC-24 register, `crc <<= 1`
followed by `crc ^= 0x1864CFB` when bit 24 is set. -/
def rfcShift (crc : Nat) : Nat :=
  if (crc <<< 1).testBit 24 then (crc <<< 1) ^^^ 0x1864CFB else crc <<< 1

/-- RFC 4880, section 6.1: the CRC-24 of a byte sequence. The register starts at
`0xB704CE`, each byte is XORed into bits 16 to 23 and followed by eight shifts,
and the result is masked to 24 bits. -/
def crc24RFC (d : List Nat) : Nat :=
  (d.foldl (fun crc b => rfcShift^[8] (crc ^^^ ((b % 256) <<< 16))) 0xB704CE) &&& 0xFFFFFF

/-- A body line `SignatureFix` keeps without taking it for a checksum: it is
not empty, has neither 4 nor 5 characters and does not start with `=`. -/
def keptLine (l : Str) : Prop :=
  l ≠ [] ∧ l.length ≠ 4 ∧ l.length ≠ 5 ∧ l.head? ≠ some '='

instance (l : Str) : Decidable (keptLine l) := by
  unfold keptLine
  infer_instance

/-- The text contains a signature armor block: a BEGIN line followed, anywhere
later, by an END marker. -/
def containsBlock (s : Str) : Prop :=
  ∃ u v w, s = u ++ beginLine ++ ['\n'] ++ v ++ endLine ++ w

/-- The text without its line feeds and carriage returns. -/
def stripBreaks (s : Str) : Str := s.filter (fun c => !(c == '\n' || c == '\r'))

/-! ## Test data of `tools_test.go` -/

/-- The constant `sigConvertQuanto` of `tools_test.go`. -/
def sigConvertQuanto : Str :=
  "0ADF79401F28C569_SHA512_iQIzBAEBCgAdFiEEab8JRxWM7/xGsOGsRxsIMMDGp/EFAlw3bgwACgkQRxsIMMDGp/Gq+hAAooiGdBZl0z1+uZs6voUEPloIl0qYxSuDdgI2QAdTiALcbasuzhYge04exIgpXf6Exik3TH4Qop5RqpvbDRK5J5AYvWdst377NSIL/m00X44hU3Mq3oJ52LyTCj3qShMDkviXtm7GynoXNFaloPwxs3hXze3E+ddWVn17Nw9tIAJbdeWOMRbWSdpijAsOZP6qGvrjejNCA3eQSTb2G15zB69yS///mgeRVLNGC7YHzbgX3VROXix6pcdc8LOgZolloey7VkrOkvBg7t9n2VpqMti1qUQ3qGVLx27YyKjjI+mykUnoO2i5KzsMfZVCB9iQC3FgVmaGElLUxVJGGToByw4QNuTsLNeVchd+nA20dhQmmZ2dmaMpUIOl0TbL3wxPxa7eJ72fx3+6EQIqQw0t6ScauPfEQ7Ad0ORIEhGvRXhNYykNUVgdoH09FoF1eEZv2yvJK5UDQNDUifTnhJ+7A1r7jgykE3vqcrcegbJahC0Qjn66316+D1O/6I5E/ZZtx3zuzJQT9kTawDTslnmgg5XhQ9LmsrjBYpSKNspAvlhonue07XVyekO1u6UaKTOmGG060dInWby5Xf+YAK7W8a7Iucoq3zPM0Y6eMVDMNcGcLWhcyCnnFRhOrGJSIfo/sifdCmZyXLG0VQHljkLcKhYsWgAn9br9YTWrpEQPIRs==55cZ".toList

/-- The constant `sigConvertGPG` of `tools_test.go`. -/
def sigConvertGPG : Str :=
  "-----BEGIN PGP SIGNATURE-----\n".toList
    ++ "Version: Quanto\n".toList
    ++ "\n".toList
    ++ "iQIzBAEBCgAdFiEEab8JRxWM7/xGsOGsRxsIMMDGp/EFAlw3bgwACgkQRxsIMMDG\n".toList
    ++ "p/Gq+hAAooiGdBZl0z1+uZs6voUEPloIl0qYxSuDdgI2QAdTiALcbasuzhYge04e\n".toList
    ++ "xIgpXf6Exik3TH4Qop5RqpvbDRK5J5AYvWdst377NSIL/m00X44hU3Mq3oJ52LyT\n".toList
    ++ "Cj3qShMDkviXtm7GynoXNFaloPwxs3hXze3E+ddWVn17Nw9tIAJbdeWOMRbWSdpi\n".toList
    ++ "jAsOZP6qGvrjejNCA3eQSTb2G15zB69yS///mgeRVLNGC7YHzbgX3VROXix6pcdc\n".toList
    ++ "8LOgZolloey7VkrOkvBg7t9n2VpqMti1qUQ3qGVLx27YyKjjI+mykUnoO2i5KzsM\n".toList
    ++ "fZVCB9iQC3FgVmaGElLUxVJGGToByw4QNuTsLNeVchd+nA20dhQmmZ2dmaMpUIOl\n".toList
    ++ "0TbL3wxPxa7eJ72fx3+6EQIqQw0t6ScauPfEQ7Ad0ORIEhGvRXhNYykNUVgdoH09\n".toList
    ++ "FoF1eEZv2yvJK5UDQNDUifTnhJ+7A1r7jgykE3vqcrcegbJahC0Qjn66316+D1O/\n".toList
    ++ "6I5E/ZZtx3zuzJQT9kTawDTslnmgg5XhQ9LmsrjBYpSKNspAvlhonue07XVyekO1\n".toList
    ++ "u6UaKTOmGG060dInWby5Xf+YAK7W8a7Iucoq3zPM0Y6eMVDMNcGcLWhcyCnnFRhO\n".toList
    ++ "rGJSIfo/sifdCmZyXLG0VQHljkLcKhYsWgAn9br9YTWrpEQPIRs=\n".toList
    ++ "=55cZ\n".toList
    ++ "-----END PGP SIGNATURE-----".toList

/-! ## `IssuerKeyIdToFP16` -/

/-- The digit table `ldigits` of package `fmt`. -/
def ldigits : Str := "0123456789abcdefx".toList

/-- The table lookup `ldigits[d]`. -/
def ldigit (d : Nat) : Char := ldigits.getD d '0'

/-- The base-16 loop of `fmt`'s integer formatting, writing in front of `buf`:
`for u >= 16 { buf[i] = digits[u&0xF]; u >>= 4 }; buf[i] = digits[u]`. The
first argument bounds the number of turns of the loop; 15 turns are enough for
a `uint64`. -/
def fmtHexLoop : Nat → Nat → Str → Str
  | 0, u, buf => ldigit u :: buf
  | f + 1, u, buf =>
    if u ≥ 16 then fmtHexLoop f (u >>> 4) (ldigit (u &&& 0xF) :: buf) else ldigit u :: buf

/-- The call `fmt.Sprintf("%016x", u)` on a `uint64`: the digits in base 16,
padded with zeros in front to at least 16 characters. -/
def Sprintf016x (u : Nat) : Str :=
  List.replicate (16 - (fmtHexLoop 15 (u % 2 ^ 64) []).length) '0'
    ++ fmtHexLoop 15 (u % 2 ^ 64) []

/-- Source `IssuerKeyIdToFP16`. -/
def IssuerKeyIdToFP16 (issuerKeyId : Nat) : Str := ToUpper (Sprintf016x issuerKeyId)

/-- The value of an upper-case hexadecimal digit. -/
def hexValue (c : Char) : Nat := "0123456789ABCDEF".toList.indexOf c

/-- The number a text of upper-case hexadecimal digits denotes, most
significant digit first. -/
def readHex (s : Str) : Nat := s.foldl (fun a c => a * 16 + hexValue c) 0

/-- An upper-case hexadecimal digit. -/
def isUpperHex (c : Char) : Bool := "0123456789ABCDEF".toList.contains c

/-! ## The agent proxy (`internal/server/agentProxy.go`)

The collaborators of the handler (token manager, PGP manager, HTTP client,
`encoding/json`, `uuid.NewRandom`, the clock) are fields of an environment; the
handler returns the calls it made to them, in order, and the answer it gave. -/

/-- A value of `uuid.UUID` (package `github.com/google/uuid`): 16 bytes, read by
index. -/
abbrev UUID := List Nat

/-- The two lower-case hexadecimal digits `hex.Encode` writes for a byte. -/
def hexByte (b : Nat) : Str := [ldigit ((b % 256) >>> 4), ldigit ((b % 256) &&& 0x0f)]

/-- The call `hex.Encode(dst, uuid[i:i+n])`. -/
def hexBytes (u : UUID) (i n : Nat) : Str :=
  ((List.range n).map (fun j => hexByte (u.getD (i + j) 0))).flatten

/-- The method `UUID.String`: the form `xxxxxxxx-xxxx-xxxx-xxxx-xxxxxxxxxxxx`. -/
def uuidString (u : UUID) : Str :=
  hexBytes u 0 4 ++ ['-'] ++ hexBytes u 4 2 ++ ['-'] ++ hexBytes u 6 2 ++ ['-']
    ++ hexBytes u 8 2 ++ ['-'] ++ hexBytes u 10 6

/-- Source `maxUUIDTries`. -/
def maxUUIDTries : Nat := 5

/-- The loop of `generateUUID`, with `n` turns left after `tries` turns:
`newRandom i` is the outcome of the call number `i` of `uuid.NewRandom`, `none`
when it fails. The result is `uniqueString` and the number of calls made. -/
def uuidLoop (newRandom : Nat → Option UUID) : Nat → Nat → Str × Nat
  | 0, tries => ([], tries)
  | n + 1, tries =>
    match newRandom tries with
    | some u => (uuidString u, tries + 1)
    | none => uuidLoop newRandom n (tries + 1)

/-- Source `generateUUID`: the string and the error it returns (`none` for
`nil`), and the number of calls of `uuid.NewRandom` it made. -/
def generateUUID (newRandom : Nat → Option UUID) : (Str × Option Str) × Nat :=
  if (uuidLoop newRandom maxUUIDTries 0).1.length = 0 then
    (([], some "cannot generate uuid. max tries reached".toList),
      (uuidLoop newRandom maxUUIDTries 0).2)
  else (((uuidLoop newRandom maxUUIDTries 0).1, none), (uuidLoop newRandom maxUUIDTries 0).2)

/-- A value held by a `map[string]interface{}`: a string, an `int64`, or any
other value `json.Unmarshal` has decoded, known by a code. -/
inductive JVal where
  | string (s : Str)
  | int64 (n : Int)
  | decoded (code : Nat)
deriving DecidableEq

/-- A non-nil `map[string]interface{}`. -/
abbrev JObj := Str → Option JVal

/-- The assignment `m[key] = value`. -/
def JObj.set (m : JObj) (key : Str) (value : JVal) : JObj :=
  fun k => if k = key then some value else m k

/-- Source `injectUniquenessFields`, on a map that may be nil (`none`), at the
clock reading `now` (nanoseconds since the epoch). The result is the map
afterwards and the error returned; `none` is the panic "assignment to entry in
nil map". -/
def injectUniquenessFields (newRandom : Nat → Option UUID) (now : Int)
    (json : Option JObj) : Option (Option JObj × Option Str) :=
  match (generateUUID newRandom).1 with
  | (_, some err) => some (json, some err)
  | (uniqueString, none) =>
    match json with
    | none => none
    | some m =>
      some (some ((m.set "_timeUniqueId".toList (JVal.string uniqueString)).set
        "_timestamp".toList (JVal.int64 (Int.tdiv now 1000000))), none)

/-- The table `isTokenTable` of `net/textproto`: the bytes allowed in a header
field name. -/
def validHeaderFieldByte (c : Char) : Bool :=
  c.toNat == 33 || (35 ≤ c.toNat && c.toNat ≤ 39) || c.toNat == 42 || c.toNat == 43
    || c.toNat == 45 || c.toNat == 46 || (48 ≤ c.toNat && c.toNat ≤ 57)
    || (65 ≤ c.toNat && c.toNat ≤ 90) || (94 ≤ c.toNat && c.toNat ≤ 122)
    || c.toNat == 124 || c.toNat == 126

/-- The loop of `canonicalMIMEHeaderKey`: upper case for the first letter and
after each dash, lower case elsewhere. -/
def canonLoop : Bool → Str → Str
  | _, [] => []
  | upper, c :: cs =>
    (if upper && ('a' ≤ c && c ≤ 'z') then c.toUpper
      else if !upper && ('A' ≤ c && c ≤ 'Z') then c.toLower else c)
    :: canonLoop ((if upper && ('a' ≤ c && c ≤ 'z') then c.toUpper
      else if !upper && ('A' ≤ c && c ≤ 'Z') then c.toLower else c) == '-') cs

/-- The call `textproto.CanonicalMIMEHeaderKey`: a key with a byte that is not
allowed in a field name is returned unchanged. -/
def CanonicalMIMEHeaderKey (s : Str) : Str :=
  if s.all validHeaderFieldByte then canonLoop true s else s

/-- A value of `http.Header`, a `map[string][]string`: the keys present, each
with its values. A key occurs once. -/
abbrev Header := List (Str × List Str)

/-- The method `Header.Get`: the first value of the canonical key, or `""`. -/
def Header.Get (h : Header) (key : Str) : Str :=
  match h.lookup (CanonicalMIMEHeaderKey key) with
  | some (v :: _) => v
  | _ => []

/-- The method `Header.Del`. -/
def Header.Del (h : Header) (key : Str) : Header :=
  h.filter (fun e => e.1 != CanonicalMIMEHeaderKey key)

/-- The method `Header.Set`: the canonical key gets the one value. -/
def Header.Set (h : Header) (key value : Str) : Header :=
  match h.lookup (CanonicalMIMEHeaderKey key) with
  | some _ => h.map (fun e => if e.1 = CanonicalMIMEHeaderKey key then (e.1, [value]) else e)
  | none => h ++ [(CanonicalMIMEHeaderKey key, [value])]

/-- The method `Header.Add`: the value is appended to those of the canonical
key. -/
def Header.Add (h : Header) (key value : Str) : Header :=
  match h.lookup (CanonicalMIMEHeaderKey key) with
  | some _ =>
    h.map (fun e => if e.1 = CanonicalMIMEHeaderKey key then (e.1, e.2 ++ [value]) else e)
  | none => h ++ [(CanonicalMIMEHeaderKey key, [value])]

/-- The loop `for k, v := range src { if len(v) > 1 { for _, t := range v
{ dst.Add(k, t) } } else { dst.Set(k, v[0]) } }` of `defaultHandler`; `none` is
the panic of `v[0]` on a key without value. -/
def copyHeaders : List (Str × List Str) → Header → Option Header
  | [], dst => some dst
  | (k, v) :: rest, dst =>
    if v.length > 1 then copyHeaders rest (v.foldl (fun d t => Header.Add d k t) dst)
    else
      match v with
      | [] => none
      | v0 :: _ => copyHeaders rest (Header.Set dst k v0)

/-- The request the handler receives: `r.Method`, `r.Header` and what
`ioutil.ReadAll(r.Body)` gives (`none` for an error). -/
structure InRequest where
  method : Str
  header : Header
  body : Option (List Nat)

/-- The request built by `http.NewRequest` and sent by `client.Do`. -/
structure OutRequest where
  method : Str
  url : Str
  body : Option (List Nat)
  header : Header
deriving DecidableEq

/-- The response of the downstream service. -/
structure Response where
  statusCode : Nat
  header : Header
  body : List Nat

/-- The constant `crypto.SHA512`. -/
def cryptoSHA512 : Nat := 7

/-- Configuration and collaborators of the handler. `verify token` tells whether
`proxy.tm.Verify(token)` returns `nil`; `userFingerPrint token` is
`proxy.tm.GetUserData(token).GetFingerPrint()`, `none` when there is no user
data; `unmarshal` is `json.Unmarshal` into a `map[string]interface{}`, giving
`none` for an error and `some none` for the nil map left by the JSON `null`;
`marshal` is `json.Marshal`; `newRequest method url` tells whether
`http.NewRequest` accepts the method and the URL; `signData` and `roundTrip`
(`client.Do`) give `none` for an error. -/
structure AgentEnv where
  agentTargetURL : Str
  agentBypassLogin : Bool
  agentKeyFingerPrint : Str
  verify : Str → Bool
  userFingerPrint : Str → Option Str
  unmarshal : List Nat → Option (Option JObj)
  marshal : Option JObj → List Nat
  newRandom : Nat → Option UUID
  now : Int
  newRequest : Str → Str → Bool
  signData : Str → List Nat → Nat → Option Str
  roundTrip : OutRequest → Option Response

/-- A call of the handler to a collaborator: `proxy.tm.Verify`,
`proxy.tm.GetUserData`, `ioutil.ReadAll(r.Body)`, `proxy.gpg.SignData` and
`client.Do`. -/
inductive Event where
  | verify (token : Str)
  | getUserData (token : Str)
  | readBody
  | signData (fingerPrint : Str) (data : List Nat) (hash : Nat)
  | send (req : OutRequest)
deriving DecidableEq

/-- The answer of the handler: one of the helpers `PermissionDenied` and
`InternalServerError` with its first arguments, `CatchAllError` after a panic,
or the headers and the body of the downstream response written back. -/
inductive Outcome where
  | permissionDenied (field message : Str)
  | internalServerError (message : Str)
  | catchAllError
  | proxied (header : Header) (body : List Nat)
deriving DecidableEq

/-- The end of `defaultHandler`: the incoming headers `h` are copied to the
request, the request is sent and the response is written back. -/
def sendRequest (env : AgentEnv) (h : Header) (req : OutRequest) (evs : List Event) :
    List Event × Outcome :=
  match copyHeaders h req.header with
  | none => (evs, Outcome.catchAllError)
  | some hd =>
    match env.roundTrip { req with header := hd } with
    | none =>
      (evs ++ [Event.send { req with header := hd }],
        Outcome.internalServerError "There was an error processing your request".toList)
    | some res =>
      match copyHeaders res.header [] with
      | none => (evs ++ [Event.send { req with header := hd }], Outcome.catchAllError)
      | some wh =>
        (evs ++ [Event.send { req with header := hd }],
          Outcome.proxied wh res.body)

/-- The branch of `defaultHandler` for a method other than OPTIONS, from the
reading of the body on: `h` is the header map after the token check, `evs` the
calls made so far. -/
def signAndSend (env : AgentEnv) (r : InRequest) (h : Header) (targetURL fingerPrint : Str)
    (evs : List Event) : List Event × Outcome :=
  match r.body with
  | none =>
    (evs ++ [Event.readBody],
      Outcome.internalServerError "There was an error processing your request".toList)
  | some bodyData =>
    match env.unmarshal bodyData with
    | none =>
      (evs ++ [Event.readBody],
        Outcome.internalServerError "There was an error processing your request".toList)
    | some jsondata =>
      match injectUniquenessFields env.newRandom env.now jsondata with
      | none => (evs ++ [Event.readBody], Outcome.catchAllError)
      | some (_, some _) =>
        (evs ++ [Event.readBody],
          Outcome.internalServerError
            "There was an error ensuring request uniqueness".toList)
      | some (jsondata', none) =>
        if env.newRequest r.method targetURL = false then
          (evs ++ [Event.readBody],
            Outcome.internalServerError "There was an error processing your request".toList)
        else
          match env.signData fingerPrint (env.marshal jsondata') cryptoSHA512 with
          | none =>
            (evs ++ [Event.readBody,
                Event.signData fingerPrint (env.marshal jsondata') cryptoSHA512],
              Outcome.internalServerError "There was an error signing your request".toList)
          | some signature =>
            sendRequest env h
              { method := r.method, url := targetURL, body := some (env.marshal jsondata'),
                header := Header.Add
                  (Header.Add [] "signature".toList
                    (GPG2Quanto signature fingerPrint "SHA512".toList))
                  "X-Powered-By".toList "RemoteSigner Agent".toList }
              (evs ++ [Event.readBody,
                Event.signData fingerPrint (env.marshal jsondata') cryptoSHA512])

/-- The variable `targetURL` of `defaultHandler`: the header `serverUrl` of the
request when it is not empty, else `config.AgentTargetURL`. -/
def targetURL (env : AgentEnv) (r : InRequest) : Str :=
  if Header.Get r.header "serverUrl".toList ≠ [] then Header.Get r.header "serverUrl".toList
  else env.agentTargetURL

/-- Source `AgentProxy.defaultHandler`: the calls made to the collaborators and
the answer. -/
def defaultHandler (env : AgentEnv) (r : InRequest) : List Event × Outcome :=
  if r.method = "OPTIONS".toList then
    if env.newRequest r.method (targetURL env r) = false then
      ([], Outcome.internalServerError "There was an error processing your request".toList)
    else
      sendRequest env r.header
        { method := r.method, url := targetURL env r, body := none,
          header := Header.Add [] "X-Powered-By".toList "RemoteSigner Agent".toList } []
  else if env.agentBypassLogin then
    signAndSend env r r.header (targetURL env r) env.agentKeyFingerPrint []
  else if Header.Get r.header "proxyToken".toList = [] then
    ([], Outcome.permissionDenied "proxyToken".toList
      "Please check if your proxyToken is valid".toList)
  else if env.verify (Header.Get r.header "proxyToken".toList) = false then
    ([Event.verify (Header.Get r.header "proxyToken".toList)],
      Outcome.permissionDenied "proxyToken".toList
        "Please check if your proxyToken is valid".toList)
  else
    match env.userFingerPrint (Header.Get r.header "proxyToken".toList) with
    | none =>
      ([Event.verify (Header.Get r.header "proxyToken".toList),
          Event.getUserData (Header.Get r.header "proxyToken".toList)],
        Outcome.catchAllError)
    | some fingerPrint =>
      signAndSend env r (Header.Del r.header "proxyToken".toList) (targetURL env r) fingerPrint
        [Event.verify (Header.Get r.header "proxyToken".toList),
          Event.getUserData (Header.Get r.header "proxyToken".toList)]

/-- A header map as `net/http` builds it for an incoming request: every key is
in canonical form and occurs once. -/
def Header.wellFormed (h : Header) : Prop :=
  (∀ e ∈ h, CanonicalMIMEHeaderKey e.1 = e.1) ∧ (h.map Prod.fst).Nodup

instance (h : Header) : Decidable (Header.wellFormed h) := by
  unfold Header.wellFormed
  infer_instance

/-- The requests sent downstream among the calls of the handler. -/
def forwarded : List Event → List OutRequest
  | [] => []
  | Event.send q :: evs => q :: forwarded evs
  | _ :: evs => forwarded evs

/-! ### Example data for the agent proxy -/

/-- The bytes of a text. -/
def bytesOf (s : String) : List Nat := s.toList.map Char.toNat

/-- A random UUID (version 4). -/
def exampleUUID : UUID :=
  [0x12, 0x3e, 0x45, 0x67, 0xe8, 0x9b, 0x42, 0xd3, 0xa4, 0x56, 0x42, 0x66, 0x14, 0x17, 0x40, 0x00]

/-- The outcome of `json.Unmarshal` on the bodies of the examples: the empty
object, the JSON `null`, which leaves the map nil, and a malformed text. -/
def exampleUnmarshal (b : List Nat) : Option (Option JObj) :=
  if b = bytesOf "\x7b\x7d" then some (some (fun _ => none))
  else if b = bytesOf "null" then some none
  else none

/-- The outcome of `json.Marshal` on the empty object after the uniqueness
fields were set: the keys come in sorted order. -/
def exampleMarshal (m : Option JObj) : List Nat :=
  match m with
  | none => bytesOf "null"
  | some f =>
    match f "_timeUniqueId".toList, f "_timestamp".toList with
    | some (JVal.string s), some (JVal.int64 n) =>
      bytesOf "\x7b\"_timeUniqueId\":\"" ++ s.map Char.toNat ++ bytesOf "\",\"_timestamp\":"
        ++ bytesOf (toString n) ++ bytesOf "\x7d"
    | _, _ => bytesOf "\x7b\x7d"

/-- An environment: the token `secret` is valid and belongs to the user of the
key `0123456789ABCDEF`; `http.NewRequest` refuses the URL `:`; the second call
of `uuid.NewRandom` succeeds. -/
def exampleEnv (bypass : Bool) : AgentEnv where
  agentTargetURL := "http://downstream/".toList
  agentBypassLogin := bypass
  agentKeyFingerPrint := "0123456789ABCDEF".toList
  verify := fun t => t == "secret".toList
  userFingerPrint := fun t => if t = "secret".toList then some "0123456789ABCDEF".toList else none
  unmarshal := exampleUnmarshal
  marshal := exampleMarshal
  newRandom := fun i => if i = 1 then some exampleUUID else none
  now := 1700000000123456789
  newRequest := fun _ url => url != ":".toList
  signData := fun _ _ _ => some sigConvertGPG
  roundTrip := fun _ => some { statusCode := 200, header := [], body := [] }

/-- A request with the body `{}`, the token `secret` and a `Signature` header of
the client. -/
def forgedRequest (method : String) : InRequest where
  method := method.toList
  header := [("Proxytoken".toList, ["secret".toList]), ("Signature".toList, ["forged".toList])]
  body := some (bytesOf "\x7b\x7d")

/-- The request sent downstream for `forgedRequest "POST"` when login is not
bypassed. -/
def forgedForwarded : OutRequest where
  method := "POST".toList
  url := "http://downstream/".toList
  body := some (bytesOf
    "\x7b\"_timeUniqueId\":\"123e4567-e89b-42d3-a456-426614174000\",\"_timestamp\":1700000000123\x7d")
  header := [("Signature".toList, ["forged".toList]),
    ("X-Powered-By".toList, ["RemoteSigner Agent".toList])]

/-- A request without token. -/
def anonymousRequest : InRequest where
  method := "POST".toList
  header := [("Content-Type".toList, ["application/json".toList])]
  body := some (bytesOf "\x7b\x7d")

/-- An OPTIONS request whose header `serverUrl` is the text `:`, which
`http.NewRequest` refuses ("missing protocol scheme"). -/
def badUrlRequest : InRequest where
  method := "OPTIONS".toList
  header := [("Serverurl".toList, [":".toList])]
  body := none

/-- A request with a valid token whose body is not JSON. -/
def malformedRequest : InRequest where
  method := "POST".toList
  header := [("Proxytoken".toList, ["secret".toList])]
  body := some (bytesOf "\x7b\"foo\":")

/-! ## The disk backend (`internal/keybackend/SaveToDisk.go`)

The file system is a value passed to each method and returned by it. -/

/-- The loop of `path.Clean` over the elements between slashes, `out` being the
elements written so far, last first: empty elements and `.` are skipped, `..`
removes the last element written, and is itself written when there is none to
remove and the path is not rooted. -/
def cleanLoop (rooted : Bool) : List Str → List Str → List Str
  | [], out => out
  | c :: cs, out =>
    if c = [] ∨ c = ".".toList then cleanLoop rooted cs out
    else if c = "..".toList then
      match out with
      | top :: rest =>
        if top = "..".toList then cleanLoop rooted cs (c :: out) else cleanLoop rooted cs rest
      | [] => if rooted then cleanLoop rooted cs [] else cleanLoop rooted cs [c]
    else cleanLoop rooted cs (c :: out)

/-- The call `path.Clean`. -/
def path.Clean (p : Str) : Str :=
  if p = [] then ".".toList
  else if p.head? = some '/' then
    '/' :: "/".toList.intercalate (cleanLoop true (Split p '/') []).reverse
  else if cleanLoop false (Split p '/') [] = [] then ".".toList
  else "/".toList.intercalate (cleanLoop false (Split p '/') []).reverse

/-- The call `path.Join`: the elements from the first non-empty one on are
joined by slashes and the result is cleaned; without such an element the result
is empty. -/
def path.Join : List Str → Str
  | [] => []
  | e :: rest => if e ≠ [] then path.Clean ("/".toList.intercalate (e :: rest)) else path.Join rest

/-- What a name of the file system holds. -/
inductive Node where
  | file (data : Str)
  | dir
deriving DecidableEq

/-- A file system: what each name holds, and the names the system refuses to
create, truncate or remove (missing folder, permissions). -/
structure FS where
  node : Str → Option Node
  locked : Str → Bool

/-- An error of the operating system: the operation and the name, as in
`os.PathError`. -/
structure PathError where
  op : Str
  name : Str
deriving DecidableEq

/-- The call `ioutil.WriteFile(name, data, 0600)`: the file is created or
replaced; the call fails on a name the system refuses and on a folder. -/
def ioutil.WriteFile (fs : FS) (name data : Str) : FS × Option PathError :=
  if name = [] ∨ fs.locked name = true ∨ fs.node name = some Node.dir then
    (fs, some { op := "open".toList, name := name })
  else
    ({ fs with node := fun p => if p = name then some (Node.file data) else fs.node p }, none)

/-- Source `diskBackend` (the field `pfx` is the field `prefix` of the source;
the logger is left out). -/
structure diskBackend where
  folder : Str
  pfx : Str
  saveEnabled : Bool
deriving DecidableEq

/-- Source `metadataPrefix`. -/
def metadataPrefix : Str := "metadata-".toList

/-- Source `MakeSaveToDiskBackend`, the value it returns: `readonlyKeyPath` is
`config.ReadonlyKeyPath`, `tempDir` the folder `ioutil.TempDir` gives (`none`
for an error), `copyFiles src dst` tells whether `tools.CopyFiles` returns
without error. -/
def MakeSaveToDiskBackend (readonlyKeyPath : Bool) (tempDir : Option Str)
    (copyFiles : Str → Str → Bool) (folder pfx : Str) : diskBackend :=
  if readonlyKeyPath then
    match tempDir with
    | none => { folder := folder, pfx := pfx, saveEnabled := false }
    | some tmpFolder =>
      if copyFiles folder tmpFolder = false then
        { folder := folder, pfx := pfx, saveEnabled := false }
      else { folder := tmpFolder, pfx := pfx, saveEnabled := true }
  else { folder := folder, pfx := pfx, saveEnabled := true }

/-- Source `diskBackend.Save`: the file system afterwards and the error
returned. -/
def diskBackend.Save (d : diskBackend) (fs : FS) (key data : Str) : FS × Option PathError :=
  if d.saveEnabled = false then (fs, none)
  else ioutil.WriteFile fs (path.Join [d.folder, d.pfx ++ key]) data

/-- Source `diskBackend.SaveWithMetadata`. -/
def diskBackend.SaveWithMetadata (d : diskBackend) (fs : FS) (key data metadata : Str) :
    FS × Option PathError :=
  match ioutil.WriteFile fs (path.Join [d.folder, d.pfx ++ key]) data with
  | (fs1, some err) => (fs1, some err)
  | (fs1, none) =>
    ioutil.WriteFile fs1 (path.Join [d.folder, metadataPrefix ++ d.pfx ++ key]) metadata

/-! ### Example data for the disk backend -/

/-- A file system with the folder `keys` and one file in it. -/
def exampleFS : FS where
  node := fun p =>
    if p = "keys".toList then some Node.dir
    else if p = "keys/key_old".toList then some (Node.file "old".toList)
    else none
  locked := fun _ => false

/-- The backend made for a read-only key path when the copy to the temporary
folder failed. -/
def readOnlyBackend : diskBackend :=
  MakeSaveToDiskBackend true (some "/tmp/secret123".toList) (fun _ _ => false)
    "keys".toList "key_".toList

/-! ## More of the disk backend -/

/-- The call `ioutil.ReadFile(name)`: the content of a file; a folder cannot be
read and a missing name cannot be opened. -/
def ioutil.ReadFile (fs : FS) (name : Str) : Str × Option PathError :=
  match fs.node name with
  | some (Node.file data) => (data, none)
  | some Node.dir => ([], some { op := "read".toList, name := name })
  | none => ([], some { op := "open".toList, name := name })

/-- The call `os.Remove(name)`: the name is removed; the call fails on a missing
name and on a name the system refuses to remove (a folder that is not empty is
such a name). -/
def os.Remove (fs : FS) (name : Str) : FS × Option PathError :=
  if fs.node name = none ∨ fs.locked name = true then
    (fs, some { op := "remove".toList, name := name })
  else ({ fs with node := fun p => if p = name then none else fs.node p }, none)

/-- Source `diskBackend.Delete`: the file system afterwards and the error
returned. The error of the second `os.Remove` is dropped. -/
def diskBackend.Delete (d : diskBackend) (fs : FS) (key : Str) : FS × Option PathError :=
  match ioutil.ReadFile fs (path.Join [d.folder, d.pfx ++ key]) with
  | (_, some err) => (fs, some err)
  | (_, none) =>
    ((os.Remove (os.Remove fs (path.Join [d.folder, d.pfx ++ key])).1
        (path.Join [d.folder, metadataPrefix ++ d.pfx ++ key])).1,
      (os.Remove fs (path.Join [d.folder, d.pfx ++ key])).2)

/-- Source `diskBackend.Read`: the data, the metadata and the error. -/
def diskBackend.Read (d : diskBackend) (fs : FS) (key : Str) : Str × Str × Option PathError :=
  match ioutil.ReadFile fs (path.Join [d.folder, d.pfx ++ key]) with
  | (_, some err) => ([], [], some err)
  | (sdata, none) =>
    match ioutil.ReadFile fs (path.Join [d.folder, metadataPrefix ++ d.pfx ++ key]) with
    | (_, some _) => (sdata, [], none)
    | (mdata, none) => (sdata, mdata, none)

/-- An entry of a folder as `ioutil.ReadDir` gives it (`os.FileInfo`): the name
and whether it is a folder. -/
structure FileInfo where
  name : Str
  isDir : Bool
deriving DecidableEq

/-- The loop of `diskBackend.List` over the entries of the folder. -/
def listLoop (pfx : Str) : List FileInfo → List Str
  | [] => []
  | file :: files =>
    if file.isDir then listLoop pfx files
    else if file.name.length > metadataPrefix.length
        ∧ file.name.take metadataPrefix.length = metadataPrefix then listLoop pfx files
    else if file.name.length > pfx.length ∧ file.name.take pfx.length = pfx then
      file.name.drop pfx.length :: listLoop pfx files
    else listLoop pfx files

/-- Source `diskBackend.List`: the keys and the error. `readDir` is the call
`ioutil.ReadDir`, which gives the entries of a folder sorted by name. -/
def diskBackend.List (d : diskBackend) (readDir : Str → List FileInfo × Option PathError) :
    List Str × Option PathError :=
  match readDir d.folder with
  | (_, some err) => ([], some err)
  | (files, none) => (listLoop d.pfx files, none)

/-- A file name that `path.Join` leaves as it is: not empty, neither `.` nor
`..`, and without slash. -/
def plainName (n : Str) : Prop :=
  n ≠ [] ∧ n ≠ ".".toList ∧ n ≠ "..".toList ∧ '/' ∉ n

instance (n : Str) : Decidable (plainName n) := by
  unfold plainName
  infer_instance

/-- The names `List` is said to return for an entry of the folder: the entry is
not a folder, its name is the prefix followed by a non-empty name, and it is not
a name that starts with `metadata-` and is longer than that. -/
def listedEntry (pfx : Str) (e : FileInfo) : Prop :=
  e.isDir = false ∧ pfx <+: e.name ∧ e.name ≠ pfx
    ∧ ¬ (metadataPrefix <+: e.name ∧ e.name.length > metadataPrefix.length)

instance (pfx : Str) (e : FileInfo) : Decidable (listedEntry pfx e) := by
  unfold listedEntry
  infer_instance

/-- A backend on the folder `keys` with saving enabled. -/
def exampleBackend (pfx : String) : diskBackend where
  folder := "keys".toList
  pfx := pfx.toList
  saveEnabled := true

/-- The folder `keys` with the data file and the metadata file of the key `old`,
on a system that refuses every change (a read-only folder). -/
def readOnlyFS : FS where
  node := fun p =>
    if p = "keys".toList then some Node.dir
    else if p = "keys/key_old".toList then some (Node.file "old".toList)
    else if p = "keys/metadata-key_old".toList then some (Node.file "meta".toList)
    else none
  locked := fun _ => true

/-- The same folder on a system that refuses to change the metadata file
only. -/
def lockedMetadataFS : FS where
  node := readOnlyFS.node
  locked := fun p => p == "keys/metadata-key_old".toList

/-- The entries of a folder, sorted by name. -/
def exampleEntries : List FileInfo :=
  [{ name := "backup".toList, isDir := true },
    { name := "key_".toList, isDir := false },
    { name := "key_A1".toList, isDir := false },
    { name := "key_B2".toList, isDir := false },
    { name := "key_dir".toList, isDir := true },
    { name := "metadata-".toList, isDir := false },
    { name := "metadata-key_A1".toList, isDir := false },
    { name := "other".toList, isDir := false }]

/-! ## Fingerprints of 16 characters (`tools.go`) -/

/-- The call `hex.EncodeToString`. -/
def hexEncodeToString (raw : List Nat) : Str := (raw.map hexByte).flatten

/-- Source `ByteFingerPrint2FP16`; `none` is the panic "slice bounds out of
range" of `fp[len(fp)-16:]`. -/
def ByteFingerPrint2FP16 (raw : List Nat) : Option Str :=
  if (hexEncodeToString raw).length < 16 then none
  else some (ToUpper ((hexEncodeToString raw).drop ((hexEncodeToString raw).length - 16)))

/-- Bytes read as a big-endian number. -/
def bigEndian (bs : List Nat) : Nat := bs.foldl (fun a b => a * 256 + b % 256) 0

/-! ## The configuration (`Configuration.go`) -/

/-- The errors `strconv.ErrSyntax` and `strconv.ErrRange`. -/
inductive NumError where
  | ErrSyntax
  | ErrRange
deriving DecidableEq

/-- The loop of `strconv.ParseUint` for base 10 over the bytes of the text, `n`
being the `uint64` read so far and `maxVal` the largest value of the bit size. -/
def parseUintLoop (maxVal : Nat) : Str → Nat → Nat × Option NumError
  | [], n => (n, none)
  | c :: cs, n =>
    if '0' ≤ c ∧ c ≤ '9' then
      if n ≥ (2 ^ 64 - 1) / 10 + 1 then (maxVal, some NumError.ErrRange)
      else if (n * 10 % 2 ^ 64 + (c.toNat - '0'.toNat)) % 2 ^ 64 < n * 10 % 2 ^ 64
          ∨ (n * 10 % 2 ^ 64 + (c.toNat - '0'.toNat)) % 2 ^ 64 > maxVal then
        (maxVal, some NumError.ErrRange)
      else parseUintLoop maxVal cs ((n * 10 % 2 ^ 64 + (c.toNat - '0'.toNat)) % 2 ^ 64)
    else (0, some NumError.ErrSyntax)

/-- The call `strconv.ParseUint(s, 10, bitSize)`. -/
def strconv.ParseUint (s : Str) (bitSize : Nat) : Nat × Option NumError :=
  if s = [] then (0, some NumError.ErrSyntax)
  else parseUintLoop (2 ^ bitSize - 1) s 0

/-- The call `strconv.ParseInt(s, 10, bitSize)`: the value and the error. With a
range error the value is the bound of the bit size, with a syntax error 0. -/
def strconv.ParseInt (s : Str) (bitSize : Nat) : Int × Option NumError :=
  match s with
  | [] => (0, some NumError.ErrSyntax)
  | c :: cs =>
    match strconv.ParseUint (if c = '+' ∨ c = '-' then cs else c :: cs) bitSize with
    | (_, some NumError.ErrSyntax) => (0, some NumError.ErrSyntax)
    | (un, _) =>
      if c ≠ '-' ∧ un ≥ 2 ^ (bitSize - 1) then
        (((2 ^ (bitSize - 1) - 1 : Nat) : Int), some NumError.ErrRange)
      else if c = '-' ∧ un > 2 ^ (bitSize - 1) then
        (-((2 ^ (bitSize - 1) : Nat) : Int), some NumError.ErrRange)
      else (if c = '-' then -(un : Int) else (un : Int), none)

/-- The variables `MaxKeyRingCache` and `HttpPort` of the configuration. -/
structure Config where
  MaxKeyRingCache : Int
  HttpPort : Int
deriving DecidableEq

/-- Source `init`, for the variables `MaxKeyRingCache` and `HttpPort`; `getenv`
is `os.Getenv`, which gives the empty text for a variable that is not set. A
variable starts at -1, is assigned `int(i)` when `strconv.ParseInt` returns an
error (`if err != nil`), and gets its default when it is -1 at the end. -/
def init (getenv : Str → Str) : Config where
  MaxKeyRingCache :=
    if (if getenv "MAX_KEYRING_CACHE_SIZE".toList ≠ [] then
          (if (strconv.ParseInt (getenv "MAX_KEYRING_CACHE_SIZE".toList) 32).2 ≠ none then
            (strconv.ParseInt (getenv "MAX_KEYRING_CACHE_SIZE".toList) 32).1 else -1)
        else -1) = -1 then 1000
    else
      (if getenv "MAX_KEYRING_CACHE_SIZE".toList ≠ [] then
        (if (strconv.ParseInt (getenv "MAX_KEYRING_CACHE_SIZE".toList) 32).2 ≠ none then
          (strconv.ParseInt (getenv "MAX_KEYRING_CACHE_SIZE".toList) 32).1 else -1)
      else -1)
  HttpPort :=
    if (if getenv "HTTP_PORT".toList ≠ [] then
          (if (strconv.ParseInt (getenv "HTTP_PORT".toList) 32).2 ≠ none then
            (strconv.ParseInt (getenv "HTTP_PORT".toList) 32).1 else -1)
        else -1) = -1 then 5100
    else
      (if getenv "HTTP_PORT".toList ≠ [] then
        (if (strconv.ParseInt (getenv "HTTP_PORT".toList) 32).2 ≠ none then
          (strconv.ParseInt (getenv "HTTP_PORT".toList) 32).1 else -1)
      else -1)

/-- The text of a decimal number: an optional sign and digits. -/
def decimalText (negative : Bool) (digits : Str) : Str :=
  if negative then '-' :: digits else digits

/-- The number a text of digits denotes. -/
def digitsValue (digits : Str) : Nat :=
  digits.foldl (fun a c => a * 10 + (c.toNat - '0'.toNat)) 0

/-- An environment with the two variables set. -/
def exampleGetenv (maxKeyRingCache httpPort : String) (name : Str) : Str :=
  if name = "MAX_KEYRING_CACHE_SIZE".toList then maxKeyRingCache.toList
  else if name = "HTTP_PORT".toList then httpPort.toList
  else []

/-! ## Lemmas -/

theorem decodeMap_lf : decodeMap '\n' = none := by decide
theorem decodeMap_cr : decodeMap '\r' = none := by decide
theorem decodeMap_pad : decodeMap '=' = none := by decide
theorem decodeMap_us : decodeMap '_' = none := by decide
theorem decodeMap_dollar : decodeMap '$' = none := by decide
theorem decodeMap_space : decodeMap ' ' = none := by decide

theorem isB64Char_encodeChar (v : Nat) : isB64Char (encodeChar v) = true := by
  have h : ∀ i, i < 64 → isB64Char (encodeStd.getD i 'A') = true := by decide
  exact h (v % 64) (Nat.mod_lt _ (by norm_num))

theorem isB64Char_iff (c : Char) : isB64Char c = true ↔ ∃ v, decodeMap c = some v := by
  unfold isB64Char
  cases decodeMap c <;> simp

theorem skipNewlines_nil : skipNewlines [] = [] := rfl

/-- A text without line breaks is left alone by `skipNewlines`. -/
theorem skipNewlines_eq_self (s : Str) (h : ∀ c ∈ s, c ≠ '\n' ∧ c ≠ '\r') :
    skipNewlines s = s := by
  cases s with
  | nil => rfl
  | cons c t =>
    have hc := h c (List.mem_cons_self c t)
    unfold skipNewlines
    rw [List.dropWhile_cons_of_neg]
    simp [hc.1, hc.2]

/-- The decoder accepts sextets followed by well-placed padding. -/
theorem decodeLoop_accepts (body pad : Str) (hbody : ∀ c ∈ body, isB64Char c = true)
    (hpad : pad = [] ∨ pad = ['='] ∨ pad = ['=', '=']) :
    ∀ buf : List Nat, buf.length < 4 → (buf.length + body.length + pad.length) % 4 = 0 →
      ∃ d, decodeLoop (body ++ pad) buf = some d := by
  induction body with
  | nil =>
    intro buf hlt hmod
    rcases hpad with h | h | h
    · subst h
      simp only [List.length_nil, Nat.add_zero] at hmod
      have h0 : buf.length = 0 := by omega
      exact ⟨[], by simp [decodeLoop, h0]⟩
    · subst h
      simp only [List.length_nil, Nat.add_zero, List.length_singleton] at hmod
      have h3 : buf.length = 3 := by omega
      refine ⟨quantumBytes buf, ?_⟩
      simp [decodeLoop, decodeMap_pad, h3, skipNewlines_nil]
    · subst h
      simp only [List.length_nil, Nat.add_zero, List.length_cons] at hmod
      have h2 : buf.length = 2 := by omega
      refine ⟨quantumBytes buf, ?_⟩
      simp [decodeLoop, decodeMap_pad, h2, skipNewlines]
  | cons c t ih =>
    intro buf hlt hmod
    obtain ⟨v, hv⟩ := (isB64Char_iff c).mp (hbody c (List.mem_cons_self c t))
    have ht : ∀ c ∈ t, isB64Char c = true := fun x hx => hbody x (List.mem_cons_of_mem c hx)
    simp only [List.length_cons] at hmod
    by_cases h3 : buf.length = 3
    · obtain ⟨d, hd⟩ := ih ht [] (by simp) (by simp only [List.length_nil]; omega)
      refine ⟨quantumBytes (buf ++ [v]) ++ d, ?_⟩
      simp [decodeLoop, hv, h3, hd]
    · obtain ⟨d, hd⟩ := ih ht (buf ++ [v]) (by simp; omega) (by simp; omega)
      refine ⟨d, ?_⟩
      simp [decodeLoop, hv, h3, hd]

/-- On a text without line breaks the decoder consumes whole quanta of four
characters. -/
theorem decodeLoop_length (s : Str) (hs : ∀ c ∈ s, c ≠ '\n' ∧ c ≠ '\r') :
    ∀ (buf : List Nat) (d : List Nat), buf.length < 4 → decodeLoop s buf = some d →
      (buf.length + s.length) % 4 = 0 := by
  induction s with
  | nil =>
    intro buf d _ h
    by_cases h0 : buf.length = 0
    · simp [h0]
    · simp [decodeLoop, h0] at h
  | cons c t ih =>
    intro buf d hlt h
    have hc := hs c (List.mem_cons_self c t)
    have ht : ∀ c ∈ t, c ≠ '\n' ∧ c ≠ '\r' := fun x hx => hs x (List.mem_cons_of_mem c hx)
    simp only [List.length_cons]
    cases hv : decodeMap c with
    | some v =>
      by_cases h3 : buf.length = 3
      · simp only [decodeLoop, hv, h3, if_true] at h
        cases hr : decodeLoop t [] with
        | none => simp [hr] at h
        | some d' =>
          have := ih ht [] d' (by simp) hr
          simp only [List.length_nil] at this
          omega
      · simp only [decodeLoop, hv, h3, if_false] at h
        have := ih ht (buf ++ [v]) d (by simp; omega) h
        simp only [List.length_append, List.length_singleton] at this
        omega
    | none =>
      simp only [decodeLoop, hv, hc.1, hc.2, or_self, if_false] at h
      by_cases hp : c = '='
      · simp only [hp, ne_eq, not_true_eq_false, if_false] at h
        by_cases h2 : buf.length < 2
        · simp [h2] at h
        · simp only [h2, if_false] at h
          by_cases h22 : buf.length = 2
          · simp only [h22, if_true, skipNewlines_eq_self t ht] at h
            cases t with
            | nil => simp at h
            | cons p r =>
              simp only at h
              by_cases hp2 : p = '='
              · simp only [hp2, ne_eq, not_true_eq_false, if_false] at h
                have hr : ∀ c ∈ r, c ≠ '\n' ∧ c ≠ '\r' :=
                  fun x hx => ht x (List.mem_cons_of_mem p hx)
                rw [skipNewlines_eq_self r hr] at h
                by_cases hrn : r = []
                · subst hrn; simp [h22]
                · simp [hrn] at h
              · simp [hp2] at h
          · simp only [h22, if_false, skipNewlines_eq_self t ht] at h
            by_cases htn : t = []
            · subst htn
              simp only [List.length_nil]
              omega
            · simp [htn] at h
      · simp [hp] at h

theorem validBase64_parts (s : Str) (h : validBase64 s = true) :
    ∃ body pad, s = body ++ pad ∧ (∀ c ∈ body, isB64Char c = true)
      ∧ (pad = [] ∨ pad = ['='] ∨ pad = ['=', '=']) ∧ s.length % 4 = 0 := by
  unfold validBase64 at h
  simp only [Bool.and_eq_true, Bool.or_eq_true, beq_iff_eq] at h
  refine ⟨s.takeWhile isB64Char, s.dropWhile isB64Char,
    (List.takeWhile_append_dropWhile isB64Char s).symm, ?_, ?_, h.1⟩
  · intro c hc
    exact List.mem_takeWhile_imp hc
  · rcases h.2 with (h1 | h1) | h1
    · exact Or.inl h1
    · exact Or.inr (Or.inl h1)
    · exact Or.inr (Or.inr h1)

theorem validBase64_decodes (s : Str) (h : validBase64 s = true) :
    ∃ d, DecodeString s = some d := by
  obtain ⟨body, pad, hs, hbody, hpad, hlen⟩ := validBase64_parts s h
  subst hs
  apply decodeLoop_accepts body pad hbody hpad [] (by simp)
  simpa using hlen

/-- Every character of a valid base64 text is a sextet character or `=`. -/
theorem validBase64_chars (s : Str) (h : validBase64 s = true) :
    ∀ c ∈ s, isB64Char c = true ∨ c = '=' := by
  obtain ⟨body, pad, hs, hbody, hpad, -⟩ := validBase64_parts s h
  subst hs
  intro c hc
  rcases List.mem_append.mp hc with h1 | h1
  · exact Or.inl (hbody c h1)
  · right
    rcases hpad with h2 | h2 | h2 <;> subst h2 <;> simp at h1 <;> exact h1

theorem validBase64_head (s : Str) (h : validBase64 s = true) (hne : s ≠ []) :
    ∃ c t, s = c :: t ∧ isB64Char c = true := by
  obtain ⟨body, pad, hs, hbody, hpad, hlen⟩ := validBase64_parts s h
  cases body with
  | nil =>
    exfalso
    simp only [List.nil_append] at hs
    subst hs
    rcases hpad with h2 | h2 | h2 <;> subst h2 <;> simp at hlen hne
  | cons c t =>
    exact ⟨c, t ++ pad, by simpa using hs, hbody c (List.mem_cons_self c t)⟩

/-- A character the codec treats as part of a base64 text is none of the
separators of the Quanto and armor formats. -/
theorem b64_or_pad_ne (c : Char) (h : isB64Char c = true ∨ c = '=') :
    c ≠ '\n' ∧ c ≠ '\r' ∧ c ≠ '_' ∧ c ≠ '$' ∧ c ≠ ' ' := by
  rcases h with h | h
  · refine ⟨?_, ?_, ?_, ?_, ?_⟩ <;> intro hc <;> subst hc <;> revert h <;> decide
  · subst h; decide

/-- Dropping the last character of a non-empty valid base64 text leaves a text
the decoder rejects. -/
theorem decode_dropLast_none (s : Str) (h : validBase64 s = true) (hne : s ≠ []) :
    DecodeString (s.take (s.length - 1)) = none := by
  have hchars := validBase64_chars s h
  obtain ⟨_, _, _, _, _, hlen⟩ := validBase64_parts s h
  have hpos : 0 < s.length := List.length_pos.mpr hne
  cases hd : DecodeString (s.take (s.length - 1)) with
  | none => rfl
  | some d =>
    exfalso
    have hnl : ∀ c ∈ s.take (s.length - 1), c ≠ '\n' ∧ c ≠ '\r' := by
      intro c hc
      have := b64_or_pad_ne c (hchars c (List.mem_of_mem_take hc))
      exact ⟨this.1, this.2.1⟩
    have := decodeLoop_length _ hnl [] d (by simp) hd
    simp only [List.length_nil, List.length_take, Nat.zero_add] at this
    omega

theorem intercalate_cons (a : Str) (ls : List Str) :
    ['\n'].intercalate (a :: ls) = a ++ (ls.map (fun l => '\n' :: l)).flatten := by
  induction ls generalizing a with
  | nil => simp [List.intercalate]
  | cons b t ih =>
    have := ih b
    simp only [List.intercalate] at this ⊢
    simp [List.intersperse, this]

theorem wrapLoop_run (m : Nat) : ∀ (i : Nat) (s : Str), i % 64 ≠ 0 → i % 64 + m ≤ 64 →
    wrapLoop i s = s.take m ++ wrapLoop (i + m) (s.drop m) := by
  induction m with
  | zero => intro i s _ _; simp
  | succ m ih =>
    intro i s h0 hle
    cases s with
    | nil => simp [wrapLoop]
    | cons c cs =>
      simp only [wrapLoop, h0, if_false, List.nil_append, List.take_succ_cons, List.drop_succ_cons,
        List.cons_append, List.cons.injEq, true_and]
      cases m with
      | zero => simp
      | succ k =>
        have h1 : (i + 1) % 64 = i % 64 + 1 := by omega
        have := ih (i + 1) cs (by omega) (by omega)
        rw [this]
        congr 2
        omega

theorem wrapLoop_line (k : Nat) (s : Str) (hs : s ≠ []) :
    wrapLoop (64 * k) s = '\n' :: s.take 64 ++ wrapLoop (64 * (k + 1)) (s.drop 64) := by
  cases s with
  | nil => exact absurd rfl hs
  | cons c cs =>
    have h0 : (64 * k) % 64 = 0 := by omega
    simp only [wrapLoop, h0, if_true, List.singleton_append, List.take_succ_cons,
      List.drop_succ_cons, List.cons_append]
    rw [wrapLoop_run 63 (64 * k + 1) cs (by omega) (by omega)]
    congr 3

theorem wrapLoop_chunkFuel (n : Nat) : ∀ (k : Nat) (s : Str), s.length ≤ n →
    wrapLoop (64 * k) s = ((chunkFuel n s).map (fun l => '\n' :: l)).flatten := by
  induction n with
  | zero =>
    intro k s hs
    have : s = [] := List.length_eq_zero.mp (by omega)
    subst this
    simp [wrapLoop, chunkFuel]
  | succ n ih =>
    intro k s hs
    by_cases hn : s = []
    · subst hn; simp [wrapLoop, chunkFuel]
    · have hpos : 0 < s.length := List.length_pos.mpr hn
      rw [wrapLoop_line k s hn, chunkFuel, if_neg hn,
        ih (k + 1) (s.drop 64) (by simp only [List.length_drop]; omega)]
      simp

theorem wrapLoop_lines64 (s : Str) :
    wrapLoop 0 s = ((lines64 s).map (fun l => '\n' :: l)).flatten :=
  wrapLoop_chunkFuel s.length 0 s (Nat.le_refl _)

theorem chunkFuel_flatten (n : Nat) : ∀ s : Str, s.length ≤ n → (chunkFuel n s).flatten = s := by
  induction n with
  | zero =>
    intro s hs
    have : s = [] := List.length_eq_zero.mp (by omega)
    subst this
    simp [chunkFuel]
  | succ n ih =>
    intro s hs
    by_cases hn : s = []
    · subst hn; simp [chunkFuel]
    · have hpos : 0 < s.length := List.length_pos.mpr hn
      rw [chunkFuel, if_neg hn, List.flatten_cons,
        ih (s.drop 64) (by simp only [List.length_drop]; omega)]
      exact List.take_append_drop 64 s

theorem lines64_flatten (s : Str) : (lines64 s).flatten = s :=
  chunkFuel_flatten s.length s (Nat.le_refl _)

theorem chunkFuel_mem (n : Nat) : ∀ (s l : Str), l ∈ chunkFuel n s →
    l ≠ [] ∧ ∀ c ∈ l, c ∈ s := by
  induction n with
  | zero => intro s l h; simp [chunkFuel] at h
  | succ n ih =>
    intro s l h
    by_cases hn : s = []
    · subst hn; simp [chunkFuel] at h
    · rw [chunkFuel, if_neg hn] at h
      rcases List.mem_cons.mp h with h1 | h1
      · subst h1
        refine ⟨?_, fun c hc => List.mem_of_mem_take hc⟩
        cases s with
        | nil => exact absurd rfl hn
        | cons a t => simp
      · obtain ⟨h2, h3⟩ := ih _ l h1
        exact ⟨h2, fun c hc => List.mem_of_mem_drop (h3 c hc)⟩

theorem lines64_mem (s l : Str) (h : l ∈ lines64 s) : l ≠ [] ∧ ∀ c ∈ l, c ∈ s :=
  chunkFuel_mem s.length s l h

theorem dropWhile_append_stop (p : Char → Bool) (a r : Str) (x : Char) (hx : p x = false) :
    (a ++ x :: r).dropWhile p = a.dropWhile p ++ x :: r := by
  induction a with
  | nil => simp [List.dropWhile, hx]
  | cons c t ih =>
    by_cases hc : p c = true
    · simp [List.dropWhile, hc, ih]
    · simp [List.dropWhile, hc]

theorem rdropWhile_append_stop (p : Char → Bool) (a r : Str) (x : Char) (hx : p x = false) :
    (a ++ x :: r).rdropWhile p = a ++ x :: r.rdropWhile p := by
  unfold List.rdropWhile
  rw [List.reverse_append, List.reverse_cons, List.append_assoc, List.singleton_append,
    dropWhile_append_stop p _ _ x hx]
  simp

/-- The text of the lines `a, m₁, …, mₖ, z`. -/
theorem intercalate_ends (a z : Str) (mid : List Str) :
    ['\n'].intercalate (a :: (mid ++ [z]))
      = a ++ (mid.map (fun l => '\n' :: l)).flatten ++ '\n' :: z := by
  rw [intercalate_cons]
  simp

/-- Trimming a text of at least two lines only touches its first and last line. -/
theorem Trim_lines (cut a z : Str) (mid : List Str) (hcut : cut.contains '\n' = false) :
    Trim (['\n'].intercalate (a :: (mid ++ [z]))) cut
      = ['\n'].intercalate (a.dropWhile (fun c => cut.contains c)
          :: (mid ++ [z.rdropWhile (fun c => cut.contains c)])) := by
  rw [intercalate_ends, intercalate_ends]
  unfold Trim
  cases mid with
  | nil =>
    simp only [List.map_nil, List.flatten_nil, List.append_nil]
    rw [dropWhile_append_stop _ _ _ _ hcut, rdropWhile_append_stop _ _ _ _ hcut]
  | cons m ms =>
    simp only [List.map_cons, List.flatten_cons, List.append_assoc, List.cons_append]
    rw [dropWhile_append_stop _ _ _ _ hcut]
    have : List.dropWhile (fun c => cut.contains c) a
        ++ '\n' :: (m ++ ((List.map (fun l => '\n' :: l) ms).flatten ++ '\n' :: z))
        = (List.dropWhile (fun c => cut.contains c) a
            ++ '\n' :: (m ++ (List.map (fun l => '\n' :: l) ms).flatten)) ++ '\n' :: z := by
      simp
    rw [this, rdropWhile_append_stop _ _ _ _ hcut]
    simp only [List.append_assoc, List.cons_append]

theorem cutLoop_true (ls : List Str) : cutLoop true ls = ls.flatten := by
  induction ls with
  | nil => rfl
  | cons l t ih => simp [cutLoop, ih]

theorem cutLoop_false (pre post : List Str) (hpre : ∀ l ∈ pre, l ≠ []) :
    cutLoop false (pre ++ [] :: post) = post.flatten := by
  induction pre with
  | nil => simp [cutLoop, cutLoop_true]
  | cons l t ih =>
    have hl : l.length ≠ 0 := by
      intro h
      exact hpre l (List.mem_cons_self l t) (List.length_eq_zero.mp h)
    simp only [List.cons_append, cutLoop, hl, if_false]
    exact ih (fun x hx => hpre x (List.mem_cons_of_mem l hx))

theorem Split_lines (ls : List Str) (hls : ls ≠ []) (h : ∀ l ∈ ls, '\n' ∉ l) :
    Split (['\n'].intercalate ls) '\n' = ls :=
  List.splitOn_intercalate ls '\n' h hls

/-- `GPG2Quanto` on a text of lines `a, pre…, "", post…, z` in which `pre` has
no empty line: the result carries the lines of `post`. -/
theorem GPG2Quanto_lines (a z : Str) (pre post : List Str) (F H : Str)
    (ha : '\n' ∉ a) (hz : '\n' ∉ z) (hpre : ∀ l ∈ pre, l ≠ [] ∧ '\n' ∉ l)
    (hpost : ∀ l ∈ post, '\n' ∉ l) :
    GPG2Quanto (['\n'].intercalate (a :: ((pre ++ [] :: post) ++ [z]))) F H
      = F ++ "_".toList ++ ToUpper H ++ "_".toList ++ post.flatten := by
  unfold GPG2Quanto
  rw [Trim_lines _ _ _ _ (by decide), Split_lines _ (by simp)]
  · have hany : (pre ++ [] :: post).any (fun l => l.length == 0) = true := by simp
    have hlen : (a.dropWhile (fun c => " \r".toList.contains c)
        :: ((pre ++ [] :: post) ++ [z.rdropWhile (fun c => " \r".toList.contains c)])).length - 1
        = (pre ++ [] :: post).length + 1 := by
      simp only [List.length_cons, List.length_append, List.length_nil]
      omega
    have htake : ∀ (x y : Str) (m : List Str),
        ((x :: (m ++ [y])).take (m.length + 1)).drop 1 = m := by
      intro x y m
      simp
    have hfix : brokenMacOSXArrayFix (a.dropWhile (fun c => " \r".toList.contains c)
        :: ((pre ++ [] :: post) ++ [z.rdropWhile (fun c => " \r".toList.contains c)])) true
        = a.dropWhile (fun c => " \r".toList.contains c)
        :: ((pre ++ [] :: post) ++ [z.rdropWhile (fun c => " \r".toList.contains c)]) := by
      unfold brokenMacOSXArrayFix
      rw [hlen, htake, hany]
      simp
    simp only [hfix]
    rw [hlen, htake, cutLoop_false pre post (fun l hl => (hpre l hl).1)]
  · intro l hl
    rcases List.mem_cons.mp hl with h1 | h1
    · subst h1
      exact fun hm => ha ((List.dropWhile_suffix _).subset hm)
    · rcases List.mem_append.mp h1 with h2 | h2
      · rcases List.mem_append.mp h2 with h3 | h3
        · exact (hpre l h3).2
        · rcases List.mem_cons.mp h3 with h4 | h4
          · subst h4; simp
          · exact hpost l h4
      · have : l = z.rdropWhile (fun c => " \r".toList.contains c) := by simpa using h2
        subst this
        exact fun hm => hz ((List.rdropWhile_prefix _ _).subset hm)

theorem toNat_ofNat_small (m : Nat) (h : m < 128) : (Char.ofNat m).toNat = m := by
  have : ∀ i, i < 128 → (Char.ofNat i).toNat = i := by decide
  exact this m h

/-- Upper-casing never produces a character that is not an upper-case letter
out of a different character. -/
theorem toUpper_ne (c x : Char) (hx : x.toNat < 65 ∨ 90 < x.toNat) (hc : c ≠ x) :
    c.toUpper ≠ x := by
  unfold Char.toUpper
  simp only
  split
  · rename_i h
    intro heq
    have h1 := toNat_ofNat_small (c.toNat - 32) (by omega)
    rw [heq] at h1
    omega
  · exact hc

theorem ToUpper_not_mem (H : Str) (x : Char) (hx : x.toNat < 65 ∨ 90 < x.toNat)
    (h : x ∉ H) : x ∉ ToUpper H := by
  unfold ToUpper
  intro hm
  obtain ⟨c, hc, hcx⟩ := List.mem_map.mp hm
  exact toUpper_ne c x hx (fun e => h (e ▸ hc)) hcx

theorem Split_single (s : Str) (x : Char) (h : x ∉ s) : Split s x = [s] := by
  unfold Split List.splitOn
  apply List.splitOnP_eq_single
  intro y hy hyx
  have : y = x := by simpa using hyx
  exact h (this ▸ hy)

theorem Split_three (F H G : Str) (x : Char) (hF : x ∉ F) (hH : x ∉ H) (hG : x ∉ G) :
    Split (F ++ [x] ++ H ++ [x] ++ G) x = [F, H, G] := by
  have : F ++ [x] ++ H ++ [x] ++ G = [x].intercalate [F, H, G] := by
    simp [List.intercalate, List.intersperse]
  rw [this]
  unfold Split
  apply List.splitOn_intercalate
  · intro l hl
    simp only [List.mem_cons, List.mem_singleton, List.not_mem_nil, or_false] at hl
    rcases hl with h | h | h <;> subst h <;> assumption
  · simp

theorem crc_chars (C : Str) (hC : isCrc5 C = true ∨ isCrc4 C = true) :
    ∀ c ∈ C, isB64Char c = true ∨ c = '=' := by
  intro c hc
  rcases hC with h | h
  · unfold isCrc5 at h
    simp only [Bool.and_eq_true, beq_iff_eq, List.all_eq_true] at h
    cases C with
    | nil => simp at hc
    | cons a t =>
      rcases List.mem_cons.mp hc with h1 | h1
      · right
        have := h.1.2
        simp only [List.head?_cons, Option.some.injEq] at this
        rw [h1, this]
      · left
        exact h.2 c (by simpa using h1)
  · unfold isCrc4 at h
    simp only [Bool.and_eq_true, beq_iff_eq, List.all_eq_true] at h
    exact Or.inl (h.2 c hc)

theorem crc_length (C : Str) (hC : isCrc5 C = true ∨ isCrc4 C = true) :
    (isCrc5 C = true ∧ C.length = 5) ∨ (isCrc4 C = true ∧ C.length = 4) := by
  rcases hC with h | h
  · left
    refine ⟨h, ?_⟩
    unfold isCrc5 at h
    simp only [Bool.and_eq_true, beq_iff_eq] at h
    exact h.1.1
  · right
    refine ⟨h, ?_⟩
    unfold isCrc4 at h
    simp only [Bool.and_eq_true, beq_iff_eq] at h
    exact h.1

theorem validBase64_length (B : Str) (hB : validBase64 B = true) (hne : B ≠ []) :
    4 ≤ B.length := by
  obtain ⟨_, _, _, _, _, hlen⟩ := validBase64_parts B hB
  have := List.length_pos.mpr hne
  omega

/-- The armor `Quanto2GPG` writes for a body `B` and a checksum field `C`. -/
theorem canonicalArmor_eq (B C : Str) :
    canonicalArmor B C
      = "-----BEGIN PGP SIGNATURE-----\nVersion: Quanto\n".toList ++ wrapLoop 0 B ++ ['\n']
          ++ C ++ "\n-----END PGP SIGNATURE-----".toList := by
  have h1 : "-----BEGIN PGP SIGNATURE-----\nVersion: Quanto\n".toList
      = beginLine ++ '\n' :: "Version: Quanto".toList ++ ['\n'] := by decide
  have h2 : "\n-----END PGP SIGNATURE-----".toList = '\n' :: endLine := by decide
  have h3 : [beginLine, "Version: Quanto".toList, []] ++ lines64 B ++ [C, endLine]
      = beginLine :: (("Version: Quanto".toList :: [] :: lines64 B ++ [C]) ++ [endLine]) := by
    simp
  unfold canonicalArmor
  rw [h1, h2, h3, intercalate_ends, wrapLoop_lines64]
  simp

theorem Quanto2GPG_canonical (F H B C : Str)
    (hF : '_' ∉ F ∧ '$' ∉ F) (hH : '_' ∉ H ∧ '$' ∉ H)
    (hB : validBase64 B = true) (hne : B ≠ [])
    (hC : isCrc5 C = true ∨ isCrc4 C = true) :
    Quanto2GPG (F ++ "_".toList ++ H ++ "_".toList ++ (B ++ C)) = some (canonicalArmor B C) := by
  have hG : ∀ c ∈ B ++ C, isB64Char c = true ∨ c = '=' := by
    intro c hc
    rcases List.mem_append.mp hc with h | h
    · exact validBase64_chars B hB c h
    · exact crc_chars C hC c h
  have hGu : '_' ∉ B ++ C := fun h => (b64_or_pad_ne _ (hG _ h)).2.2.1 rfl
  have hGd : '$' ∉ B ++ C := fun h => (b64_or_pad_ne _ (hG _ h)).2.2.2.1 rfl
  have hus : "_".toList = ['_'] := rfl
  have hd : Split (F ++ "_".toList ++ H ++ "_".toList ++ (B ++ C)) '$'
      = [F ++ "_".toList ++ H ++ "_".toList ++ (B ++ C)] := by
    apply Split_single
    rw [hus]
    simp only [List.mem_append, List.mem_singleton, not_or]
    have := List.mem_append.not.mp hGd
    simp only [not_or] at this
    exact ⟨⟨⟨⟨hF.2, by decide⟩, hH.2⟩, by decide⟩, this⟩
  have hu : Split (F ++ "_".toList ++ H ++ "_".toList ++ (B ++ C)) '_' = [F, H, B ++ C] := by
    rw [hus]
    exact Split_three F H (B ++ C) '_' hF.1 hH.1 hGu
  have hBlen := validBase64_length B hB hne
  obtain ⟨d, hdec⟩ := validBase64_decodes B hB
  have h13 : ¬ ((1 : Nat) = 3) := by decide
  unfold Quanto2GPG
  simp only [hd, hu, List.length_singleton, List.length_cons, List.length_nil, ne_eq,
    Nat.reduceAdd, h13, not_false_eq_true, if_true, not_true_eq_false, if_false,
    List.getD_cons_succ, List.getD_cons_zero, List.length_append]
  rcases crc_length C hC with ⟨_, hlen⟩ | ⟨_, hlen⟩
  · have h5 : ¬ (B.length + C.length < 5) := by omega
    have ht : (B ++ C).take (B.length + C.length - 5) = B := by
      rw [hlen, Nat.add_sub_cancel]; exact List.take_left B C
    have hdr : (B ++ C).drop (B.length + C.length - 5) = C := by
      rw [hlen, Nat.add_sub_cancel]; exact List.drop_left B C
    simp only [h5, if_false, ht, hdec, hdr, canonicalArmor_eq]
  · have h5 : ¬ (B.length + C.length < 5) := by omega
    have ht5 : (B ++ C).take (B.length + C.length - 5) = B.take (B.length - 1) := by
      rw [hlen, List.take_append_of_le_length (by omega)]
      congr 1
    have ht : (B ++ C).take (B.length + C.length - 4) = B := by
      rw [hlen, Nat.add_sub_cancel]; exact List.take_left B C
    have hdr : (B ++ C).drop (B.length + C.length - 4) = C := by
      rw [hlen, Nat.add_sub_cancel]; exact List.drop_left B C
    simp only [h5, if_false, ht5, decode_dropLast_none B hB hne, ht, hdec, hdr,
      canonicalArmor_eq]

/-- `GPG2Quanto` reads the body and the checksum line back from the armor. -/
theorem GPG2Quanto_canonical (F H B C : Str) (hB : validBase64 B = true)
    (hC : isCrc5 C = true ∨ isCrc4 C = true) :
    GPG2Quanto (canonicalArmor B C) F H
      = F ++ "_".toList ++ ToUpper H ++ "_".toList ++ (B ++ C) := by
  have h3 : [beginLine, "Version: Quanto".toList, []] ++ lines64 B ++ [C, endLine]
      = beginLine :: ((["Version: Quanto".toList] ++ [] :: (lines64 B ++ [C])) ++ [endLine]) := by
    simp
  unfold canonicalArmor
  rw [h3, GPG2Quanto_lines]
  · simp [lines64_flatten]
  · decide
  · decide
  · intro l hl
    have : l = "Version: Quanto".toList := by simpa using hl
    subst this
    decide
  · intro l hl hm
    rcases List.mem_append.mp hl with h | h
    · have := validBase64_chars B hB _ ((lines64_mem B l h).2 _ hm)
      exact (b64_or_pad_ne _ this).1 rfl
    · have hl' : l = C := by simpa using h
      subst hl'
      exact (b64_or_pad_ne _ (crc_chars l hC _ hm)).1 rfl

/-- A list of at least two lines is its first line, the lines in between, and its last line. -/
theorem lines_ends (L : List Str) (h : 2 ≤ L.length) :
    ∃ a z, L = a :: ((L.drop 1).dropLast ++ [z]) := by
  cases L with
  | nil => simp at h
  | cons a t =>
    have ht : t ≠ [] := by
      intro e; subst e; simp at h
    refine ⟨a, t.getLast ht, ?_⟩
    simp only [List.drop_succ_cons, List.drop_zero]
    rw [List.dropLast_append_getLast ht]

/-- Lines of which one is empty: the lines before the first empty one, the empty
line, and the lines after it. -/
theorem split_at_first_empty (M : List Str) (h : [] ∈ M) :
    ∃ pre post, M = pre ++ [] :: post ∧ (∀ l ∈ pre, l ≠ [])
      ∧ (M.dropWhile (fun l => !l.isEmpty)).drop 1 = post := by
  induction M with
  | nil => simp at h
  | cons m t ih =>
    by_cases hm : m = []
    · subst hm
      exact ⟨[], t, rfl, by simp, by simp [List.dropWhile]⟩
    · have ht : [] ∈ t := by
        rcases List.mem_cons.mp h with h1 | h1
        · exact absurd h1.symm hm
        · exact h1
      obtain ⟨pre, post, h1, h2, h3⟩ := ih ht
      refine ⟨m :: pre, post, by rw [h1]; rfl, ?_, ?_⟩
      · intro l hl
        rcases List.mem_cons.mp hl with h4 | h4
        · rw [h4]; exact hm
        · exact h2 l h4
      · have : (!m.isEmpty) = true := by
          cases m with
          | nil => exact absurd rfl hm
          | cons _ _ => rfl
        simp only [List.dropWhile, this]
        exact h3

theorem crc24Shift_eq (crc : Nat) (h : crc < 2 ^ 24) :
    crc24Shift crc = rfcShift crc ∧ crc24Shift crc < 2 ^ 24 := by
  have hc : crc <<< 1 < 2 ^ 25 := by rw [Nat.shiftLeft_eq]; omega
  have hmod : (crc <<< 1) % 2 ^ 32 = crc <<< 1 := Nat.mod_eq_of_lt (by omega)
  have hand : (crc <<< 1) &&& 0x1000000 = ((crc <<< 1).testBit 24).toNat * 2 ^ 24 :=
    Nat.and_two_pow (crc <<< 1) 24
  unfold crc24Shift rfcShift
  simp only [hmod]
  by_cases hb : (crc <<< 1).testBit 24 = true
  · have h1 : (crc <<< 1) &&& 0x1000000 ≠ 0 := by rw [hand, hb]; decide
    rw [if_pos h1, if_pos hb]
    refine ⟨rfl, ?_⟩
    apply Nat.lt_pow_two_of_testBit
    intro i hi
    rcases Nat.eq_or_lt_of_le hi with h24 | h25
    · subst h24
      rw [Nat.testBit_xor, hb]
      decide
    · apply Nat.testBit_lt_two_pow
      have h1 : (crc <<< 1) ^^^ 0x1864cfb < 2 ^ 25 :=
        Nat.xor_lt_two_pow hc (by norm_num)
      exact lt_of_lt_of_le h1 (Nat.pow_le_pow_right (by norm_num) h25)
  · have hb' : (crc <<< 1).testBit 24 = false := by simpa using hb
    have h1 : ¬ ((crc <<< 1) &&& 0x1000000 ≠ 0) := by rw [hand, hb']; decide
    rw [if_neg h1, if_neg hb]
    refine ⟨rfl, ?_⟩
    apply Nat.lt_pow_two_of_testBit
    intro i hi
    rcases Nat.eq_or_lt_of_le hi with h24 | h25
    · subst h24; exact hb'
    · apply Nat.testBit_lt_two_pow
      exact lt_of_lt_of_le hc (Nat.pow_le_pow_right (by norm_num) h25)

theorem crc24Shift_iterate (n : Nat) (crc : Nat) (h : crc < 2 ^ 24) :
    crc24Shift^[n] crc = rfcShift^[n] crc ∧ crc24Shift^[n] crc < 2 ^ 24 := by
  induction n generalizing crc with
  | zero => exact ⟨rfl, h⟩
  | succ n ih =>
    rw [Function.iterate_succ_apply, Function.iterate_succ_apply, ← (crc24Shift_eq crc h).1]
    exact ih _ (crc24Shift_eq crc h).2

theorem crc24Byte_eq (crc b : Nat) (h : crc < 2 ^ 24) :
    crc24Byte crc b = rfcShift^[8] (crc ^^^ ((b % 256) <<< 16)) ∧ crc24Byte crc b < 2 ^ 24 := by
  have hb : (b % 256) <<< 16 < 2 ^ 24 := by
    rw [Nat.shiftLeft_eq]
    have := Nat.mod_lt b (show 256 > 0 by norm_num)
    omega
  have hmod : ((b % 256) <<< 16) % 2 ^ 32 = (b % 256) <<< 16 := Nat.mod_eq_of_lt (by omega)
  unfold crc24Byte
  rw [hmod]
  exact crc24Shift_iterate 8 _ (Nat.xor_lt_two_pow h hb)

theorem crc24_fold (d : List Nat) (crc : Nat) (h : crc < 2 ^ 24) :
    d.foldl crc24Byte crc
        = d.foldl (fun crc b => rfcShift^[8] (crc ^^^ ((b % 256) <<< 16))) crc
      ∧ d.foldl crc24Byte crc < 2 ^ 24 := by
  induction d generalizing crc with
  | nil => exact ⟨rfl, h⟩
  | cons b d ih =>
    rw [List.foldl_cons, List.foldl_cons, ← (crc24Byte_eq crc b h).1]
    exact ih _ (crc24Byte_eq crc b h).2

theorem crc24_test_vector :
    CRC24 [1, 2, 3, 3, 41, 23, 12, 31, 23, 12, 31, 23, 12, 41, 24, 15, 12, 43, 12, 31, 23,
        12, 31, 23, 123, 12, 4, 12, 31, 23, 12, 31, 23, 120] = 8124930 := by
  decide!

theorem compare_iff (a b : Str) :
    CompareFingerPrint a b = true ↔ (a ≠ [] ∧ b ≠ [] ∧ (a <:+ b ∨ b <:+ a)) := by
  unfold CompareFingerPrint
  by_cases h0 : a = [] ∨ b = []
  · rw [if_pos h0]
    constructor
    · intro h; cases h
    · rintro ⟨ha, hb, _⟩
      rcases h0 with h | h
      · exact absurd h ha
      · exact absurd h hb
  · rw [if_neg h0]
    have ha : a ≠ [] := fun h => h0 (Or.inl h)
    have hb : b ≠ [] := fun h => h0 (Or.inr h)
    by_cases h1 : a.length = b.length
    · rw [if_pos h1]
      constructor
      · intro h
        have hab : a = b := by simpa using h
        exact ⟨ha, hb, Or.inl (hab ▸ List.suffix_refl a)⟩
      · rintro ⟨_, _, h | h⟩
        · have := h.eq_of_length h1
          simpa using this
        · have := h.eq_of_length h1.symm
          simpa using this.symm
    · rw [if_neg h1]
      by_cases h2 : a.length > b.length
      · rw [if_pos h2]
        constructor
        · intro h
          have hab : List.drop (a.length - b.length) a = b := by simpa using h
          exact ⟨ha, hb, Or.inr (List.suffix_iff_eq_drop.mpr hab.symm)⟩
        · rintro ⟨_, _, h | h⟩
          · have := h.length_le
            omega
          · have := List.suffix_iff_eq_drop.mp h
            simpa using this.symm
      · rw [if_neg h2]
        constructor
        · intro h
          have hab : List.drop (b.length - a.length) b = a := by simpa using h
          exact ⟨ha, hb, Or.inl (List.suffix_iff_eq_drop.mpr hab.symm)⟩
        · rintro ⟨_, _, h | h⟩
          · have := List.suffix_iff_eq_drop.mp h
            simpa using this.symm
          · have := h.length_le
            omega

theorem isPrefixOf_iff (p s : Str) : p.isPrefixOf s = true ↔ p <+: s :=
  List.isPrefixOf_iff_prefix

theorem findFirst_cons (pat : Str) (c : Char) (cs : Str) :
    findFirst pat (c :: cs)
      = if pat.isPrefixOf (c :: cs) then some 0 else (findFirst pat cs).map (· + 1) := rfl

theorem findLast_cons (pat : Str) (c : Char) (cs : Str) :
    findLast pat (c :: cs)
      = match findLast pat cs with
        | some j => some (j + 1)
        | none => if pat.isPrefixOf (c :: cs) then some 0 else none := rfl

/-- Where the first occurrence of a pattern is found. -/
theorem findFirst_append (pat : Str) (u v : Str)
    (h : ∀ i, i < u.length → ¬ pat <+: (u ++ pat ++ v).drop i) :
    findFirst pat (u ++ pat ++ v) = some u.length := by
  induction u with
  | nil =>
    have hp : pat.isPrefixOf (pat ++ v) = true :=
      (isPrefixOf_iff _ _).mpr (List.prefix_append pat v)
    cases hpv : pat ++ v with
    | nil =>
      rw [hpv] at hp
      simp [findFirst, hpv, hp]
    | cons c cs =>
      rw [hpv] at hp
      simp [findFirst, hpv, hp]
  | cons c t ih =>
    have h0 : ¬ pat.isPrefixOf (c :: (t ++ pat ++ v)) = true := by
      rw [isPrefixOf_iff]
      have := h 0 (by simp)
      simpa using this
    have ht : ∀ i, i < t.length → ¬ pat <+: (t ++ pat ++ v).drop i := by
      intro i hi
      have := h (i + 1) (by simp; omega)
      simpa using this
    rw [List.cons_append, List.cons_append, findFirst_cons, if_neg h0, ih ht]
    rfl

theorem findLast_none (pat : Str) (s : Str)
    (h : ∀ i, i ≤ s.length → ¬ pat <+: s.drop i) : findLast pat s = none := by
  induction s with
  | nil =>
    have h0 : ¬ pat.isPrefixOf [] = true := by
      rw [isPrefixOf_iff]
      simpa using h 0 (Nat.le_refl _)
    simp [findLast, h0]
  | cons c t ih =>
    have h0 : ¬ pat.isPrefixOf (c :: t) = true := by
      rw [isPrefixOf_iff]
      simpa using h 0 (Nat.zero_le _)
    have ht : ∀ i, i ≤ t.length → ¬ pat <+: t.drop i := by
      intro i hi
      have := h (i + 1) (by simp; omega)
      simpa using this
    simp [findLast, ih ht, h0]

/-- Where the last occurrence of a pattern is found. -/
theorem findLast_append (pat : Str) (u v : Str)
    (h : ∀ i, 0 < i → i ≤ (pat ++ v).length → ¬ pat <+: (pat ++ v).drop i) :
    findLast pat (u ++ pat ++ v) = some u.length := by
  induction u with
  | nil =>
    have hp : pat.isPrefixOf (pat ++ v) = true :=
      (isPrefixOf_iff _ _).mpr (List.prefix_append pat v)
    simp only [List.nil_append, List.length_nil]
    cases hpv : pat ++ v with
    | nil =>
      rw [hpv] at hp
      simp [findLast, hp]
    | cons c cs =>
      rw [hpv] at hp h
      have hcs : findLast pat cs = none := by
        apply findLast_none
        intro i hi
        have := h (i + 1) (by omega) (by simp; omega)
        simpa using this
      simp [findLast, hcs, hp]
  | cons c t ih =>
    rw [List.cons_append, List.cons_append, findLast_cons, ih]
    rfl

/-- The submatch of `pgpsig` on a text in which the BEGIN line at the end of
`pre` is the first one and the END marker before `post` is the last one. -/
theorem pgpsigSubmatch_block (pre g post : Str)
    (hpre : ∀ i, i < pre.length →
      ¬ (beginLine ++ ['\n']) <+: (pre ++ (beginLine ++ ['\n'])).drop i)
    (hpost : ∀ i, i < post.length → ¬ endLine <+: (endLine ++ post).drop (i + 1)) :
    pgpsigSubmatch (pre ++ (beginLine ++ ['\n'] ++ g ++ endLine) ++ post) = some g := by
  have hshape : pre ++ (beginLine ++ ['\n'] ++ g ++ endLine) ++ post
      = pre ++ (beginLine ++ ['\n']) ++ (g ++ endLine ++ post) := by
    simp only [List.append_assoc]
  have h1 : findFirst (beginLine ++ ['\n']) (pre ++ (beginLine ++ ['\n']) ++ (g ++ endLine ++ post))
      = some pre.length := by
    apply findFirst_append
    intro i hi hp
    apply hpre i hi
    rw [List.drop_append_of_le_length (by simp; omega)] at hp
    exact List.prefix_of_prefix_length_le hp (List.prefix_append _ _)
      (by simp only [List.length_drop, List.length_append]; omega)
  have h2 : findLast endLine (g ++ endLine ++ post) = some g.length := by
    apply findLast_append
    intro i hi0 hi hp
    by_cases hlt : i - 1 < post.length
    · have := hpost (i - 1) hlt
      rw [show i - 1 + 1 = i by omega] at this
      exact this hp
    · have hl := hp.length_le
      have : endLine.length = 27 := by decide
      simp only [List.length_drop, List.length_append] at hl hi
      omega
  unfold pgpsigSubmatch
  rw [hshape, h1]
  simp only
  rw [List.drop_left' (by simp), h2]
  simp

/-- The armor text split at the capture group of `pgpsig`. -/
theorem armorText_eq (hdr : Bool) (ls : List Str) (crc : Option Str) :
    armorText hdr ls crc = beginLine ++ ['\n']
      ++ ['\n'].intercalate (((if hdr then [[]] else []) ++ ls ++ crc.toList) ++ [[]])
      ++ endLine := by
  unfold armorText
  rw [intercalate_ends]
  cases hl : (if hdr then [[]] else []) ++ ls ++ crc.toList with
  | nil => simp [List.intercalate]
  | cons a t =>
    rw [List.cons_append, intercalate_ends]
    simp

theorem dropWhile_none (p : Char → Bool) (a : Str) (h : ∀ c ∈ a, p c = false) :
    a.dropWhile p = a := by
  cases a with
  | nil => rfl
  | cons c t =>
    have := h c (List.mem_cons_self c t)
    simp [List.dropWhile, this]

theorem bodyLoop_kept (ls rest : List Str) (h : ∀ l ∈ ls, keptLine l) :
    bodyLoop true (ls ++ rest)
      = (ls.flatten ++ (bodyLoop true rest).1, (bodyLoop true rest).2) := by
  induction ls with
  | nil => simp
  | cons l t ih =>
    obtain ⟨h1, h2, h3, h4⟩ := h l (List.mem_cons_self l t)
    have hpos : 0 < l.length := List.length_pos.mpr h1
    have hcond : 0 < l.length ∧ l.head? ≠ some '=' ∧ l.length ≠ 5 := ⟨hpos, h4, h3⟩
    have h4' : (l.length == 4) = false := by simpa using h2
    rw [List.cons_append, bodyLoop, if_pos hcond,
      ih (fun x hx => h x (List.mem_cons_of_mem l hx))]
    simp [h4']

theorem bodyLoop_tail (crc : Option Str) (hcrc : ∀ C, crc = some C → isCrc5 C = true) :
    bodyLoop true (crc.toList ++ [[]]) = ([], false) := by
  cases crc with
  | none => simp [bodyLoop]
  | some C =>
    have h := hcrc C rfl
    unfold isCrc5 at h
    simp only [Bool.and_eq_true, beq_iff_eq] at h
    have hcond : ¬ (0 < C.length ∧ C.head? ≠ some '=' ∧ C.length ≠ 5) := by
      intro hc
      exact hc.2.2 h.1.1
    simp [bodyLoop, hcond]

theorem brokenFix_body (hdr : Bool) (ls : List Str) (crc : Option Str)
    (hls : ∀ l ∈ ls, l ≠ []) (hcrc : ∀ C, crc = some C → C ≠ []) :
    brokenMacOSXArrayFix (((if hdr then [[]] else []) ++ ls ++ crc.toList) ++ [[]]) false
      = [] :: (ls ++ (crc.toList ++ [[]])) := by
  unfold brokenMacOSXArrayFix
  have htake : ∀ m : List Str, (m ++ [[]]).take ((m ++ [[]]).length - 1) = m := by
    intro m
    simp
  rw [htake]
  cases hdr with
  | true => simp
  | false =>
    have hany : (ls ++ crc.toList).any (fun l => l.length == 0) = false := by
      rw [List.any_eq_false]
      intro l hl
      rcases List.mem_append.mp hl with h | h
      · simpa using hls l h
      · have : crc = some l := by
          cases crc with
          | none => simp at h
          | some C => simp at h; rw [h]
        simpa using hcrc l this
    simp only [Bool.false_eq_true, if_false, List.nil_append, hany]
    simp

/-- The body `SignatureFix` collects from a block of kept lines. -/
theorem collectBody_block (hdr : Bool) (ls : List Str) (crc : Option Str)
    (hne : ls ≠ []) (hls : ∀ l ∈ ls, keptLine l)
    (hchars : ∀ l ∈ ls, ∀ c ∈ l, c ≠ '\n' ∧ c ≠ ' ')
    (hcrc : ∀ C, crc = some C → isCrc5 C = true) :
    collectBody (['\n'].intercalate (((if hdr then [[]] else []) ++ ls ++ crc.toList) ++ [[]]))
      = (ls.flatten, false) := by
  have hall : ∀ l ∈ (if hdr then [[]] else []) ++ ls ++ crc.toList,
      ∀ c ∈ l, c ≠ '\n' ∧ c ≠ ' ' := by
    intro l hl c hc
    rcases List.mem_append.mp hl with h | h
    · rcases List.mem_append.mp h with h1 | h1
      · cases hdr with
        | true =>
          have : l = [] := by simpa using h1
          subst this
          simp at hc
        | false => simp at h1
      · exact hchars l h1 c hc
    · have : crc = some l := by
        cases crc with
        | none => simp at h
        | some C => simp at h; rw [h]
      have := b64_or_pad_ne c (crc_chars l (Or.inl (hcrc l this)) c hc)
      exact ⟨this.1, this.2.2.2.2⟩
  have hcrcne : ∀ C, crc = some C → C ≠ [] := by
    intro C hC e
    have := hcrc C hC
    subst e
    simp [isCrc5] at this
  have htrim : Trim (['\n'].intercalate
        (((if hdr then [[]] else []) ++ ls ++ crc.toList) ++ [[]])) " ".toList
      = ['\n'].intercalate (((if hdr then [[]] else []) ++ ls ++ crc.toList) ++ [[]]) := by
    cases hl : (if hdr then [[]] else []) ++ ls ++ crc.toList with
    | nil =>
      exfalso
      have : ls = [] := by
        have := congrArg List.length hl
        simp only [List.length_append, List.length_nil] at this
        exact List.length_eq_zero.mp (by omega)
      exact hne this
    | cons a t =>
      rw [List.cons_append, Trim_lines _ _ _ _ (by decide)]
      have ha : a.dropWhile (fun c => " ".toList.contains c) = a := by
        apply dropWhile_none
        intro c hc
        have := (hall a (by rw [hl]; exact List.mem_cons_self a t) c hc).2
        simp [this]
      rw [ha]
      rfl
  have hsplit : Split (['\n'].intercalate
        (((if hdr then [[]] else []) ++ ls ++ crc.toList) ++ [[]])) '\n'
      = ((if hdr then [[]] else []) ++ ls ++ crc.toList) ++ [[]] := by
    apply Split_lines
    · simp
    · intro l hl hm
      rcases List.mem_append.mp hl with h | h
      · exact (hall l h _ hm).1 rfl
      · have : l = [] := by simpa using h
        subst this
        simp at hm
  unfold collectBody
  simp only [htrim, hsplit, brokenFix_body hdr ls crc (fun l hl => (hls l hl).1) hcrcne]
  have hlen : ¬ ([] :: (ls ++ (crc.toList ++ [[]]))).length = 1 := by
    cases ls with
    | nil => exact absurd rfl hne
    | cons _ _ => simp
  rw [if_neg hlen]
  have h0 : bodyLoop false ([] :: (ls ++ (crc.toList ++ [[]])))
      = bodyLoop true (ls ++ (crc.toList ++ [[]])) := by
    simp [bodyLoop]
  rw [h0, bodyLoop_kept ls _ hls, bodyLoop_tail crc hcrc]
  simp

theorem crcBytes_eq (x : Nat) :
    [(x >>> 16) &&& 0xFF, (x >>> 8) &&& 0xFF, x &&& 0xFF]
      = [x / 65536 % 256, x / 256 % 256, x % 256] := by
  have h : ∀ y : Nat, y &&& 0xFF = y % 256 := fun y => Nat.and_pow_two_sub_one_eq_mod y 8
  rw [h, h, h, Nat.shiftRight_eq_div_pow, Nat.shiftRight_eq_div_pow]

theorem isCrc5_crcLine (d : List Nat) : isCrc5 (crcLine d) = true := by
  simp [isCrc5, crcLine, EncodeToString, isB64Char_encodeChar]

/-- The normal form `SignatureFix` writes for a body `B` that decodes to `d`. -/
theorem normalForm_eq (B : Str) (d : List Nat) :
    "-----BEGIN PGP SIGNATURE-----\n".toList ++ wrapLoop 0 B ++ ['\n']
        ++ ('=' :: EncodeToString [CRC24 d / 65536 % 256, CRC24 d / 256 % 256, CRC24 d % 256])
        ++ "\n-----END PGP SIGNATURE-----".toList
      = armorText true (lines64 B) (some (crcLine d)) := by
  have h1 : "-----BEGIN PGP SIGNATURE-----\n".toList = beginLine ++ ['\n'] := by decide
  have h2 : "\n-----END PGP SIGNATURE-----".toList = '\n' :: endLine := by decide
  unfold armorText
  rw [h1, h2, intercalate_ends, wrapLoop_lines64]
  simp [crcLine]

/-- `SignatureFix` on a block of kept lines whose concatenation is valid base64:
the block is rewritten in normal form with a recomputed checksum. -/
theorem SignatureFix_block (pre post : Str) (hdr : Bool) (ls : List Str) (crc : Option Str)
    (hB : validBase64 ls.flatten = true) (hne : ls.flatten ≠ [])
    (hls : ∀ l ∈ ls, keptLine l)
    (hcrc : ∀ C, crc = some C → isCrc5 C = true)
    (hpre : ∀ i, i < pre.length →
      ¬ (beginLine ++ ['\n']) <+: (pre ++ (beginLine ++ ['\n'])).drop i)
    (hpost : ∀ i, i < post.length → ¬ endLine <+: (endLine ++ post).drop (i + 1)) :
    ∃ d, DecodeString ls.flatten = some d
      ∧ SignatureFix (pre ++ armorText hdr ls crc ++ post)
          = some (armorText true (lines64 ls.flatten) (some (crcLine d))) := by
  obtain ⟨d, hd⟩ := validBase64_decodes _ hB
  refine ⟨d, hd, ?_⟩
  have hlsne : ls ≠ [] := by
    intro e; subst e; exact hne rfl
  have hchars : ∀ l ∈ ls, ∀ c ∈ l, c ≠ '\n' ∧ c ≠ ' ' := by
    intro l hl c hc
    have := b64_or_pad_ne c (validBase64_chars _ hB c (List.mem_flatten_of_mem hl hc))
    exact ⟨this.1, this.2.2.2.2⟩
  unfold SignatureFix
  rw [armorText_eq, pgpsigSubmatch_block pre _ post hpre hpost]
  simp only [collectBody_block hdr ls crc hlsne hls hchars hcrc, hd, Bool.not_false, if_true,
    crcBytes_eq, normalForm_eq]

theorem findFirst_exists (pat u x : Str) :
    ∃ j, j ≤ u.length ∧ findFirst pat (u ++ pat ++ x) = some j := by
  induction u with
  | nil => exact ⟨0, Nat.le_refl _, by simpa using findFirst_append pat [] x (by simp)⟩
  | cons c t ih =>
    obtain ⟨j, hj, hf⟩ := ih
    rw [List.cons_append, List.cons_append, findFirst_cons]
    by_cases hp : pat.isPrefixOf (c :: (t ++ pat ++ x)) = true
    · exact ⟨0, Nat.zero_le _, by rw [if_pos hp]⟩
    · exact ⟨j + 1, by simp; omega, by rw [if_neg hp, hf]; rfl⟩

theorem findLast_exists (pat u x : Str) :
    ∃ j, findLast pat (u ++ pat ++ x) = some j := by
  induction u with
  | nil =>
    have hp : pat.isPrefixOf (pat ++ x) = true :=
      (isPrefixOf_iff _ _).mpr (List.prefix_append pat x)
    simp only [List.nil_append]
    cases hpx : pat ++ x with
    | nil =>
      rw [hpx] at hp
      exact ⟨0, by simp [findLast, hp]⟩
    | cons c cs =>
      rw [hpx] at hp
      rw [findLast_cons]
      cases findLast pat cs with
      | none => exact ⟨0, by simp [hp]⟩
      | some j => exact ⟨j + 1, rfl⟩
  | cons c t ih =>
    obtain ⟨j, hj⟩ := ih
    exact ⟨j + 1, by rw [List.cons_append, List.cons_append, findLast_cons, hj]⟩

/-- The pattern `pgpsig` matches every text that contains a BEGIN line followed,
anywhere later, by an END marker. -/
theorem pgpsigSubmatch_of_containsBlock (s : Str) (h : containsBlock s) :
    ∃ g, pgpsigSubmatch s = some g := by
  obtain ⟨u, v, w, hs⟩ := h
  have hs1 : s = u ++ (beginLine ++ ['\n']) ++ (v ++ endLine ++ w) := by
    rw [hs]; simp only [List.append_assoc]
  obtain ⟨j, hj, hf⟩ := findFirst_exists (beginLine ++ ['\n']) u (v ++ endLine ++ w)
  have hs2 : s = (u ++ (beginLine ++ ['\n']) ++ v) ++ endLine ++ w := by
    rw [hs]; simp only [List.append_assoc]
  have hdrop : s.drop (j + (beginLine ++ ['\n']).length)
      = (u ++ (beginLine ++ ['\n']) ++ v).drop (j + (beginLine ++ ['\n']).length)
        ++ endLine ++ w := by
    rw [hs2, List.append_assoc, List.drop_append_of_le_length]
    · simp only [List.append_assoc]
    · simp only [List.length_append]
      omega
  obtain ⟨k, hk⟩ := findLast_exists endLine
    ((u ++ (beginLine ++ ['\n']) ++ v).drop (j + (beginLine ++ ['\n']).length)) w
  refine ⟨(s.drop (j + (beginLine ++ ['\n']).length)).take k, ?_⟩
  unfold pgpsigSubmatch
  rw [← hs1] at hf
  rw [hf]
  simp only
  rw [← hdrop] at hk
  rw [hk]

theorem SignatureFix_of_submatch (s g : Str) (h : pgpsigSubmatch s = some g) :
    SignatureFix s = none ↔ DecodeString (collectBody g).1 = none := by
  unfold SignatureFix
  rw [h]
  simp only
  cases DecodeString (collectBody g).1 with
  | none => simp
  | some d => simp

theorem GPG2Quanto_armor (ls : List Str) (C F H : Str)
    (hls : ∀ l ∈ ls, '\n' ∉ l) (hC : '\n' ∉ C) :
    GPG2Quanto (armorText true ls (some C)) F H
      = F ++ "_".toList ++ ToUpper H ++ "_".toList ++ (ls.flatten ++ C) := by
  have h : armorText true ls (some C)
      = ['\n'].intercalate (beginLine :: (([] ++ [] :: (ls ++ [C])) ++ [endLine])) := by
    simp [armorText]
  rw [h, GPG2Quanto_lines]
  · simp
  · decide
  · decide
  · intro l hl; simp at hl
  · intro l hl
    rcases List.mem_append.mp hl with h1 | h1
    · exact hls l h1
    · have : l = C := by simpa using h1
      rw [this]; exact hC

theorem stripBreaks_cons_break (c : Char) (s : Str) (h : c = '\n' ∨ c = '\r') :
    stripBreaks (c :: s) = stripBreaks s := by
  unfold stripBreaks
  rcases h with h | h <;> subst h <;> simp [List.filter]

theorem stripBreaks_cons_other (c : Char) (s : Str) (h : ¬ (c = '\n' ∨ c = '\r')) :
    stripBreaks (c :: s) = c :: stripBreaks s := by
  unfold stripBreaks
  have : (!(c == '\n' || c == '\r')) = true := by
    simp only [not_or] at h
    simp [h.1, h.2]
  simp [List.filter, this]

theorem stripBreaks_no_break (s : Str) : ∀ c ∈ stripBreaks s, c ≠ '\n' ∧ c ≠ '\r' := by
  intro c hc
  unfold stripBreaks at hc
  have := (List.mem_filter.mp hc).2
  simpa using this

theorem skipNewlines_cons_break (c : Char) (t : Str) (h : c = '\n' ∨ c = '\r') :
    skipNewlines (c :: t) = skipNewlines t := by
  unfold skipNewlines
  rcases h with h | h <;> subst h <;> simp [List.dropWhile]

theorem skipNewlines_cons_other (c : Char) (t : Str) (h : ¬ (c = '\n' ∨ c = '\r')) :
    skipNewlines (c :: t) = c :: t := by
  unfold skipNewlines
  simp only [not_or] at h
  have hb : (c == '\n' || c == '\r') = false := by simp [h.1, h.2]
  simp only [List.dropWhile, hb]

theorem stripBreaks_skipNewlines (s : Str) : stripBreaks (skipNewlines s) = stripBreaks s := by
  induction s with
  | nil => rfl
  | cons c t ih =>
    by_cases h : c = '\n' ∨ c = '\r'
    · rw [stripBreaks_cons_break c t h, skipNewlines_cons_break c t h]
      exact ih
    · rw [skipNewlines_cons_other c t h]

/-- What `skipNewlines` leaves is empty or starts with a character that is not a
line break. -/
theorem skipNewlines_cases (s : Str) :
    (skipNewlines s = [] ∧ stripBreaks s = [])
    ∨ ∃ p r, skipNewlines s = p :: r ∧ ¬ (p = '\n' ∨ p = '\r')
        ∧ stripBreaks s = p :: stripBreaks r := by
  induction s with
  | nil => exact Or.inl ⟨rfl, rfl⟩
  | cons c t ih =>
    by_cases h : c = '\n' ∨ c = '\r'
    · rw [skipNewlines_cons_break c t h, stripBreaks_cons_break c t h]
      exact ih
    · exact Or.inr ⟨c, t, skipNewlines_cons_other c t h, h, stripBreaks_cons_other c t h⟩

/-- The decoder does not see line feeds and carriage returns. -/
theorem decodeLoop_stripBreaks (s : Str) :
    ∀ buf : List Nat, decodeLoop s buf = decodeLoop (stripBreaks s) buf := by
  induction s with
  | nil => intro buf; rfl
  | cons c t ih =>
    intro buf
    by_cases h : c = '\n' ∨ c = '\r'
    · have hm : decodeMap c = none := by
        rcases h with h | h <;> subst h <;> decide
      rw [stripBreaks_cons_break c t h, ← ih buf]
      simp only [decodeLoop, hm, h, if_true]
    · rw [stripBreaks_cons_other c t h]
      cases hv : decodeMap c with
      | some v =>
        simp only [decodeLoop, hv]
        rw [ih [], ih (buf ++ [v])]
      | none =>
        simp only [decodeLoop, hv, h, if_false]
        have hsk : skipNewlines (stripBreaks t) = stripBreaks t :=
          skipNewlines_eq_self _ (stripBreaks_no_break t)
        rw [hsk]
        by_cases hp : c = '='
        · simp only [hp, ne_eq, not_true_eq_false, if_false]
          by_cases h2 : buf.length < 2
          · simp only [h2, if_true]
          · simp only [h2, if_false]
            by_cases h22 : buf.length = 2
            · simp only [h22, if_true]
              rcases skipNewlines_cases t with ⟨h1, h1'⟩ | ⟨p, r, h1, hpn, h1'⟩
              · rw [h1, h1']
              · rw [h1, h1']
                simp only
                by_cases hpe : p = '='
                · simp only [hpe, ne_eq, not_true_eq_false, if_false]
                  rw [skipNewlines_eq_self _ (stripBreaks_no_break r)]
                  rcases skipNewlines_cases r with ⟨h3, h3'⟩ | ⟨q, r', h3, _, h3'⟩
                  · rw [h3, h3']
                  · rw [h3, h3']; simp
                · simp only [hpe, ne_eq, not_false_eq_true, if_true]
            · simp only [h22, if_false]
              rcases skipNewlines_cases t with ⟨h1, h1'⟩ | ⟨p, r, h1, _, h1'⟩
              · rw [h1, h1']
              · rw [h1, h1']; simp
        · simp only [hp, ne_eq, not_false_eq_true, if_true]

/-- On a text without line breaks the decoder only accepts alphabet characters
followed by no, one or two `=`. -/
theorem decodeLoop_shape (s : Str) (hs : ∀ c ∈ s, c ≠ '\n' ∧ c ≠ '\r') :
    ∀ (buf : List Nat) (d : List Nat), decodeLoop s buf = some d →
      ∃ body pad, s = body ++ pad ∧ (∀ c ∈ body, isB64Char c = true)
        ∧ (pad = [] ∨ pad = ['='] ∨ pad = ['=', '=']) := by
  induction s with
  | nil =>
    intro buf d _
    exact ⟨[], [], rfl, by simp, Or.inl rfl⟩
  | cons c t ih =>
    intro buf d h
    have hc := hs c (List.mem_cons_self c t)
    have ht : ∀ c ∈ t, c ≠ '\n' ∧ c ≠ '\r' := fun x hx => hs x (List.mem_cons_of_mem c hx)
    cases hv : decodeMap c with
    | some v =>
      have hcb : isB64Char c = true := (isB64Char_iff c).mpr ⟨v, hv⟩
      have hrec : ∃ buf' d', decodeLoop t buf' = some d' := by
        by_cases h3 : buf.length = 3
        · simp only [decodeLoop, hv, h3, if_true] at h
          cases hr : decodeLoop t [] with
          | none => simp [hr] at h
          | some d' => exact ⟨[], d', hr⟩
        · simp only [decodeLoop, hv, h3, if_false] at h
          exact ⟨_, d, h⟩
      obtain ⟨buf', d', hr⟩ := hrec
      obtain ⟨body, pad, h1, h2, h3⟩ := ih ht buf' d' hr
      refine ⟨c :: body, pad, by rw [h1]; rfl, ?_, h3⟩
      intro x hx
      rcases List.mem_cons.mp hx with h4 | h4
      · rw [h4]; exact hcb
      · exact h2 x h4
    | none =>
      simp only [decodeLoop, hv, hc.1, hc.2, or_self, if_false] at h
      by_cases hp : c = '='
      · simp only [hp, ne_eq, not_true_eq_false, if_false] at h
        by_cases h2 : buf.length < 2
        · simp [h2] at h
        · simp only [h2, if_false] at h
          by_cases h22 : buf.length = 2
          · simp only [h22, if_true, skipNewlines_eq_self t ht] at h
            cases t with
            | nil => simp at h
            | cons p r =>
              simp only at h
              by_cases hp2 : p = '='
              · simp only [hp2, ne_eq, not_true_eq_false, if_false] at h
                have hr : ∀ c ∈ r, c ≠ '\n' ∧ c ≠ '\r' :=
                  fun x hx => ht x (List.mem_cons_of_mem p hx)
                rw [skipNewlines_eq_self r hr] at h
                by_cases hrn : r = []
                · subst hrn
                  exact ⟨[], ['=', '='], by rw [hp, hp2]; rfl, by simp, Or.inr (Or.inr rfl)⟩
                · simp [hrn] at h
              · simp [hp2] at h
          · simp only [h22, if_false, skipNewlines_eq_self t ht] at h
            by_cases htn : t = []
            · subst htn
              exact ⟨[], ['='], by rw [hp]; rfl, by simp, Or.inr (Or.inl rfl)⟩
            · simp [htn] at h
      · simp [hp] at h

theorem validBase64_of_parts (body pad : Str) (hbody : ∀ c ∈ body, isB64Char c = true)
    (hpad : pad = [] ∨ pad = ['='] ∨ pad = ['=', '='])
    (hlen : (body ++ pad).length % 4 = 0) : validBase64 (body ++ pad) = true := by
  have hdrop : (body ++ pad).dropWhile isB64Char = pad := by
    rw [List.dropWhile_append_of_pos hbody]
    rcases hpad with h | h | h <;> subst h
    · rfl
    · have : isB64Char '=' = false := by decide
      simp [List.dropWhile, this]
    · have : isB64Char '=' = false := by decide
      simp [List.dropWhile, this]
  unfold validBase64
  rw [hdrop]
  simp only [Bool.and_eq_true, Bool.or_eq_true, beq_iff_eq]
  refine ⟨hlen, ?_⟩
  rcases hpad with h | h | h
  · exact Or.inl (Or.inl h)
  · exact Or.inl (Or.inr h)
  · exact Or.inr h

/-- The texts `base64.StdEncoding.DecodeString` accepts are those that, once
their line feeds and carriage returns are removed, are valid base64. -/
theorem DecodeString_eq_none_iff (s : Str) :
    DecodeString s = none ↔ validBase64 (stripBreaks s) = false := by
  unfold DecodeString
  rw [decodeLoop_stripBreaks s []]
  constructor
  · intro h
    cases hv : validBase64 (stripBreaks s) with
    | false => rfl
    | true =>
      obtain ⟨d, hd⟩ := validBase64_decodes _ hv
      unfold DecodeString at hd
      rw [hd] at h
      cases h
  · intro h
    cases hd : decodeLoop (stripBreaks s) [] with
    | none => rfl
    | some d =>
      exfalso
      obtain ⟨body, pad, h1, h2, h3⟩ :=
        decodeLoop_shape _ (stripBreaks_no_break s) [] d hd
      have hlen := decodeLoop_length _ (stripBreaks_no_break s) [] d (by simp) hd
      simp only [List.length_nil, Nat.zero_add] at hlen
      rw [h1] at hlen h
      rw [validBase64_of_parts body pad h2 h3 hlen] at h
      cases h

/-- A valid base64 text stays valid when its first quantum is removed. -/
theorem validBase64_drop4 (s : Str) (h : validBase64 s = true) :
    validBase64 (s.drop 4) = true := by
  obtain ⟨body, pad, hs, hbody, hpad, hlen⟩ := validBase64_parts s h
  have hpl : pad.length ≤ 2 := by
    rcases hpad with h1 | h1 | h1 <;> subst h1 <;> simp
  by_cases hshort : s.length < 8
  · have hd : (s.drop 4).length = 0 := by
      simp only [List.length_drop]; omega
    rw [List.length_eq_zero.mp hd]
    decide
  · have hbl : 4 ≤ body.length := by
      have := congrArg List.length hs
      simp only [List.length_append] at this
      omega
    have hdrop : s.drop 4 = body.drop 4 ++ pad := by
      rw [hs, List.drop_append_of_le_length hbl]
    rw [hdrop]
    apply validBase64_of_parts _ _ (fun c hc => hbody c (List.mem_of_mem_drop hc)) hpad
    have := congrArg List.length hs
    simp only [List.length_append, List.length_drop] at this ⊢
    omega

theorem validBase64_drop (k : Nat) : ∀ s : Str, validBase64 s = true →
    validBase64 (s.drop (4 * k)) = true := by
  induction k with
  | zero => intro s h; simpa using h
  | succ k ih =>
    intro s h
    have := ih (s.drop 4) (validBase64_drop4 s h)
    rw [List.drop_drop] at this
    rw [show 4 * (k + 1) = 4 + 4 * k by omega]
    exact this

theorem chunkFuel_kept (n : Nat) : ∀ s : Str, s.length ≤ n → validBase64 s = true →
    s.length % 64 ≠ 4 → ∀ l ∈ chunkFuel n s, keptLine l := by
  induction n with
  | zero => intro s _ _ _ l hl; simp [chunkFuel] at hl
  | succ n ih =>
    intro s hn hv h4 l hl
    by_cases hs : s = []
    · subst hs; simp [chunkFuel] at hl
    · rw [chunkFuel, if_neg hs] at hl
      have hlen4 := validBase64_length s hv hs
      obtain ⟨_, _, _, _, _, hmod⟩ := validBase64_parts s hv
      rcases List.mem_cons.mp hl with h1 | h1
      · subst h1
        obtain ⟨c, t, hct, hcb⟩ := validBase64_head s hv hs
        refine ⟨?_, ?_, ?_, ?_⟩
        · rw [hct]; simp
        · simp only [List.length_take]; omega
        · simp only [List.length_take]; omega
        · rw [hct]
          simp only [List.take_succ_cons, List.head?_cons, ne_eq, Option.some.injEq]
          intro e
          rw [e] at hcb
          revert hcb
          decide
      · apply ih (s.drop 64) _ _ _ l h1
        · simp only [List.length_drop]; omega
        · exact validBase64_drop 16 s hv
        · simp only [List.length_drop]; omega

/-- The lines of a non-empty valid base64 text wrapped at 64 characters are all
kept by `SignatureFix`, unless the last one has exactly 4 characters. -/
theorem lines64_kept (B : Str) (hB : validBase64 B = true) (h4 : B.length % 64 ≠ 4) :
    ∀ l ∈ lines64 B, keptLine l :=
  chunkFuel_kept B.length B (Nat.le_refl _) hB h4

/-- `SignatureFix` keeps the Quanto form of a signature whose body lines it
keeps. -/
theorem SignatureFix_quanto (hdr : Bool) (ls ls' : List Str) (crc' : Option Str)
    (d : List Nat)
    (hB : validBase64 ls.flatten = true) (hne : ls.flatten ≠ [])
    (hd : DecodeString ls.flatten = some d)
    (hsame : ls'.flatten = ls.flatten) (hls' : ∀ l ∈ ls', keptLine l)
    (hcrc' : crc' = none ∨ crc' = some (crcLine d)) :
    (SignatureFix (armorText hdr ls' crc')).map (fun s => GPG2Quanto s [] [])
      = some (GPG2Quanto (armorText true ls (some (crcLine d))) [] []) := by
  have hcrc : ∀ C, crc' = some C → isCrc5 C = true := by
    intro C hC
    rcases hcrc' with h | h
    · rw [h] at hC; cases hC
    · rw [h] at hC; cases hC; exact isCrc5_crcLine d
  have hnlB : ∀ c ∈ ls.flatten, c ≠ '\n' :=
    fun c hc => (b64_or_pad_ne c (validBase64_chars _ hB c hc)).1
  have hnlC : '\n' ∉ crcLine d :=
    fun hm => (b64_or_pad_ne _ (crc_chars _ (Or.inl (isCrc5_crcLine d)) _ hm)).1 rfl
  obtain ⟨d', hd', hfix⟩ := SignatureFix_block [] [] hdr ls' crc' (hsame ▸ hB) (hsame ▸ hne)
    hls' hcrc (by simp) (by simp)
  rw [hsame, hd] at hd'
  cases hd'
  rw [List.nil_append, List.append_nil] at hfix
  rw [hfix, Option.map_some', hsame, GPG2Quanto_armor _ _ _ _ _ hnlC,
    GPG2Quanto_armor _ _ _ _ _ hnlC, lines64_flatten]
  · intro l hl hm
    exact hnlB _ (List.mem_flatten_of_mem hl hm) rfl
  · intro l hl hm
    exact hnlB _ ((lines64_mem _ l hl).2 _ hm) rfl

/-- The same for a signature in the usual wrapping at 64 characters, given back
unchanged, without its checksum line or without its empty header line: the
Quanto form is kept unless the last body line has exactly 4 characters. -/
theorem SignatureFix_quanto_wrapped64 (hdr : Bool) (B : Str) (crc' : Option Str)
    (d : List Nat)
    (hB : validBase64 B = true) (hne : B ≠ []) (h4 : B.length % 64 ≠ 4)
    (hd : DecodeString B = some d)
    (hcrc' : crc' = none ∨ crc' = some (crcLine d)) :
    (SignatureFix (armorText hdr (lines64 B) crc')).map (fun s => GPG2Quanto s [] [])
      = some (GPG2Quanto (armorText true (lines64 B) (some (crcLine d))) [] []) := by
  have hf := lines64_flatten B
  exact SignatureFix_quanto hdr (lines64 B) (lines64 B) crc' d (hf.symm ▸ hB) (hf.symm ▸ hne)
    (hf.symm ▸ hd) rfl (lines64_kept B hB h4) hcrc'

/-- `Quanto2GPG` panics exactly on the inputs that have three fields of which the
third is shorter than 5 bytes. -/
theorem Quanto2GPG_eq_none_iff (s : Str) :
    Quanto2GPG s = none ↔
      (if (Split s '$').length ≠ 3 then Split s '_' else Split s '$').length = 3
        ∧ ((if (Split s '$').length ≠ 3 then Split s '_' else Split s '$').getD 2 []).length
            < 5 := by
  unfold Quanto2GPG
  simp only
  generalize (if (Split s '$').length ≠ 3 then Split s '_' else Split s '$') = f
  by_cases h3 : f.length = 3
  · by_cases h5 : (f.getD 2 []).length < 5
    · simp only [h3, ne_eq, not_true_eq_false, if_false, h5, if_true, and_self]
    · simp only [h3, ne_eq, not_true_eq_false, if_false, h5, true_and, iff_false]
      cases DecodeString (List.take ((f.getD 2 []).length - 5) (f.getD 2 [])) with
      | some d => simp
      | none =>
        cases DecodeString (List.take ((f.getD 2 []).length - 4) (f.getD 2 [])) with
        | some d => simp
        | none => simp
  · simp [h3]

/-- Why `SignatureFix_block` asks more of the body lines than the absence of
4 characters: a line that starts with `=` is dropped (the body `QQ==`
split as `QQ=` and `=`), an empty line inside a body without header line is
taken for the header line, and of two blocks in one input the first BEGIN line
and the last END marker are paired; each time the call panics. -/
theorem SignatureFix_rejected_shapes :
    (validBase64 ["QQ=".toList, "=".toList].flatten = true
      ∧ SignatureFix (armorText true ["QQ=".toList, "=".toList] none) = none)
    ∧ (validBase64 ["QUJDRE".toList, [], "VGR0g=".toList].flatten = true
      ∧ SignatureFix (armorText false ["QUJDRE".toList, [], "VGR0g=".toList] none) = none)
    ∧ SignatureFix (armorText true ["QUJDREVG".toList] none ++ ['\n']
        ++ armorText true ["QUJDREVG".toList] none) = none := by
  decide!

/-- The model agrees with `TestQuanto2GPG` on the signature of the test. -/
theorem test_Quanto2GPG : Quanto2GPG sigConvertQuanto = some sigConvertGPG := by
  decide!

/-- The model agrees with `TestGPG2Quanto`. -/
theorem test_GPG2Quanto :
    GPG2Quanto sigConvertGPG "0ADF79401F28C569".toList "SHA512".toList = sigConvertQuanto := by
  decide!

/-- `TestCompareFingerPrint`. -/
theorem test_CompareFingerPrint :
    CompareFingerPrint [] "auisiehuase".toList = false
    ∧ CompareFingerPrint "asuieha".toList [] = false
    ∧ CompareFingerPrint [] [] = false
    ∧ CompareFingerPrint "ABCDEFHG".toList "ABCDEFHG".toList = true
    ∧ CompareFingerPrint "1234567890".toList "4567890".toList = true
    ∧ CompareFingerPrint "1234567890".toList "4569990".toList = false
    ∧ CompareFingerPrint "4567890".toList "1234567890".toList = true
    ∧ CompareFingerPrint "4569990".toList "1234567890".toList = false := by
  decide

theorem ldigit_upper (d : Nat) (h : d < 16) :
    isUpperHex (ldigit d).toUpper = true ∧ hexValue (ldigit d).toUpper = d := by
  have : ∀ i, i < 16 → isUpperHex (ldigit i).toUpper = true ∧ hexValue (ldigit i).toUpper = i := by
    decide
  exact this d h

theorem ToUpper_append (a b : Str) : ToUpper (a ++ b) = ToUpper a ++ ToUpper b := by
  simp [ToUpper]

theorem ToUpper_cons (c : Char) (s : Str) : ToUpper (c :: s) = c.toUpper :: ToUpper s := rfl

/-- The digits the loop writes: at most one more than its bound, upper-case
hexadecimal once upper-cased, and denoting the number. -/
theorem fmtHexLoop_spec (f : Nat) : ∀ (u : Nat) (buf : Str), u < 16 ^ (f + 1) →
    ∃ ds, fmtHexLoop f u buf = ds ++ buf ∧ ds.length ≤ f + 1
      ∧ (∀ c ∈ ToUpper ds, isUpperHex c = true)
      ∧ ∀ a, (ToUpper ds).foldl (fun a c => a * 16 + hexValue c) a
          = a * 16 ^ ds.length + u := by
  induction f with
  | zero =>
    intro u buf hu
    have hu' : u < 16 := by simpa using hu
    refine ⟨[ldigit u], rfl, by simp, ?_, ?_⟩
    · intro c hc
      have : c = (ldigit u).toUpper := by simpa [ToUpper] using hc
      rw [this]; exact (ldigit_upper u hu').1
    · intro a
      simp [ToUpper, (ldigit_upper u hu').2]
  | succ f ih =>
    intro u buf hu
    by_cases h16 : u ≥ 16
    · have hdiv : u >>> 4 = u / 16 := by rw [Nat.shiftRight_eq_div_pow]
      have hmod : u &&& 0xF = u % 16 := Nat.and_pow_two_sub_one_eq_mod u 4
      have hlt : u / 16 < 16 ^ (f + 1) := by
        rw [Nat.div_lt_iff_lt_mul (by norm_num)]
        calc u < 16 ^ (f + 1 + 1) := hu
          _ = 16 ^ (f + 1) * 16 := by rw [Nat.pow_succ]
      obtain ⟨ds, h1, h2, h3, h4⟩ := ih (u / 16) (ldigit (u % 16) :: buf) hlt
      have hm16 : u % 16 < 16 := Nat.mod_lt _ (by norm_num)
      refine ⟨ds ++ [ldigit (u % 16)], ?_, ?_, ?_, ?_⟩
      · rw [fmtHexLoop, if_pos h16, hdiv, hmod, h1]
        simp
      · simp; omega
      · intro c hc
        rw [ToUpper_append] at hc
        rcases List.mem_append.mp hc with hc1 | hc1
        · exact h3 c hc1
        · have : c = (ldigit (u % 16)).toUpper := by simpa [ToUpper] using hc1
          rw [this]; exact (ldigit_upper _ hm16).1
      · intro a
        rw [ToUpper_append, List.foldl_append, h4 a]
        simp only [ToUpper, List.map_cons, List.map_nil, List.foldl_cons, List.foldl_nil,
          (ldigit_upper _ hm16).2, List.length_append, List.length_singleton]
        rw [Nat.pow_succ]
        have := Nat.div_add_mod u 16
        nlinarith [this]
    · have hu' : u < 16 := by omega
      refine ⟨[ldigit u], by rw [fmtHexLoop, if_neg h16]; rfl, by simp, ?_, ?_⟩
      · intro c hc
        have : c = (ldigit u).toUpper := by simpa [ToUpper] using hc
        rw [this]; exact (ldigit_upper u hu').1
      · intro a
        simp [ToUpper, (ldigit_upper u hu').2]

theorem foldl_zeros (n a : Nat) :
    (List.replicate n '0').foldl (fun a c => a * 16 + hexValue c) a = a * 16 ^ n := by
  induction n generalizing a with
  | zero => simp
  | succ n ih =>
    have h0 : hexValue '0' = 0 := by decide
    rw [List.replicate_succ, List.foldl_cons, ih, h0, Nat.pow_succ]
    ring

theorem ToUpper_zeros (n : Nat) : ToUpper (List.replicate n '0') = List.replicate n '0' := by
  simp [ToUpper]

theorem IssuerKeyIdToFP16_spec (k : Nat) (hk : k < 2 ^ 64) :
    (IssuerKeyIdToFP16 k).length = 16
    ∧ (∀ c ∈ IssuerKeyIdToFP16 k, isUpperHex c = true)
    ∧ readHex (IssuerKeyIdToFP16 k) = k := by
  have hmod : k % 2 ^ 64 = k := Nat.mod_eq_of_lt hk
  obtain ⟨ds, h1, h2, h3, h4⟩ := fmtHexLoop_spec 15 k [] (by norm_num at hk ⊢; exact hk)
  rw [List.append_nil] at h1
  unfold IssuerKeyIdToFP16 Sprintf016x
  rw [hmod, h1, ToUpper_append, ToUpper_zeros]
  refine ⟨?_, ?_, ?_⟩
  · simp [ToUpper]; omega
  · intro c hc
    rcases List.mem_append.mp hc with hc1 | hc1
    · have : c = '0' := (List.mem_replicate.mp hc1).2
      rw [this]; decide
    · exact h3 c hc1
  · unfold readHex
    rw [List.foldl_append, foldl_zeros, h4]
    simp

theorem hexByte_length (b : Nat) : (hexByte b).length = 2 := rfl

theorem hexBytes_length (u : UUID) (i n : Nat) : (hexBytes u i n).length = 2 * n := by
  unfold hexBytes
  induction n with
  | zero => rfl
  | succ n ih =>
    rw [List.range_succ, List.map_append, List.flatten_append, List.length_append, ih]
    simp [hexByte_length]
    omega

/-- The string form of a UUID has 36 characters. -/
theorem uuidString_length (u : UUID) : (uuidString u).length = 36 := by
  unfold uuidString
  simp only [List.length_append, hexBytes_length, List.length_singleton]

theorem uuidLoop_calls (newRandom : Nat → Option UUID) (n : Nat) :
    ∀ tries, (uuidLoop newRandom n tries).2 ≤ tries + n := by
  induction n with
  | zero => intro tries; simp [uuidLoop]
  | succ n ih =>
    intro tries
    unfold uuidLoop
    cases h : newRandom tries with
    | some u => simp
    | none =>
      have := ih (tries + 1)
      simp only
      omega

theorem uuidLoop_first (newRandom : Nat → Option UUID) (u : UUID) (n : Nat) :
    ∀ tries i, i < n → newRandom (tries + i) = some u →
      (∀ j, j < i → newRandom (tries + j) = none) →
      uuidLoop newRandom n tries = (uuidString u, tries + i + 1) := by
  induction n with
  | zero => intro tries i hi; omega
  | succ n ih =>
    intro tries i hi hu hnone
    unfold uuidLoop
    cases i with
    | zero =>
      rw [Nat.add_zero] at hu
      rw [hu]
    | succ i =>
      have h0 := hnone 0 (by omega)
      rw [Nat.add_zero] at h0
      rw [h0]
      simp only
      have := ih (tries + 1) i (by omega) (by rw [← hu]; congr 1; omega)
        (fun j hj => by rw [← hnone (j + 1) (by omega)]; congr 1; omega)
      rw [this]
      congr 1
      omega

theorem uuidLoop_none (newRandom : Nat → Option UUID) (n : Nat) :
    ∀ tries, (∀ j, j < n → newRandom (tries + j) = none) →
      uuidLoop newRandom n tries = ([], tries + n) := by
  induction n with
  | zero => intro tries _; rfl
  | succ n ih =>
    intro tries h
    unfold uuidLoop
    have h0 := h 0 (by omega)
    rw [Nat.add_zero] at h0
    rw [h0]
    simp only
    rw [ih (tries + 1) (fun j hj => by rw [← h (j + 1) (by omega)]; congr 1; omega)]
    congr 1
    omega

/-- Among finitely many attempts either all fail or there is a first success. -/
theorem first_success (newRandom : Nat → Option UUID) (n : Nat) :
    (∀ j, j < n → newRandom j = none)
    ∨ ∃ i u, i < n ∧ newRandom i = some u ∧ ∀ j, j < i → newRandom j = none := by
  induction n with
  | zero => left; intro j hj; omega
  | succ n ih =>
    rcases ih with h | ⟨i, u, hi, hu, hn⟩
    · cases hn : newRandom n with
      | none =>
        left
        intro j hj
        rcases Nat.lt_succ_iff_lt_or_eq.mp hj with h1 | h1
        · exact h j h1
        · rw [h1]; exact hn
      | some u => exact Or.inr ⟨n, u, by omega, hn, h⟩
    · exact Or.inr ⟨i, u, by omega, hu, hn⟩

theorem generateUUID_success (newRandom : Nat → Option UUID) (i : Nat) (u : UUID)
    (hi : i < 5) (hu : newRandom i = some u) (hnone : ∀ j, j < i → newRandom j = none) :
    generateUUID newRandom = ((uuidString u, none), i + 1) := by
  have h := uuidLoop_first newRandom u maxUUIDTries 0 i hi (by simpa using hu)
    (fun j hj => by simpa using hnone j hj)
  have hlen : ¬ (uuidString u).length = 0 := by rw [uuidString_length]; decide
  unfold generateUUID
  rw [h]
  simp only [hlen, if_false, Nat.zero_add]

theorem generateUUID_failure (newRandom : Nat → Option UUID)
    (hnone : ∀ j, j < 5 → newRandom j = none) :
    generateUUID newRandom
      = (([], some "cannot generate uuid. max tries reached".toList), 5) := by
  have h := uuidLoop_none newRandom maxUUIDTries 0 (fun j hj => by simpa using hnone j hj)
  unfold generateUUID
  rw [h]
  simp [maxUUIDTries]

theorem lookup_cons (k k0 : Str) (v0 : List Str) (h : Header) :
    List.lookup k ((k0, v0) :: h) = if k = k0 then some v0 else List.lookup k h := by
  by_cases hk : k = k0
  · subst hk
    simp [List.lookup]
  · have : (k == k0) = false := by simpa using hk
    simp [List.lookup, this, hk]

theorem lookup_map_key (h : Header) (K k : Str) (f : List Str → List Str) :
    List.lookup k (h.map (fun e => if e.1 = K then (e.1, f e.2) else e))
      = if k = K then (List.lookup K h).map f else List.lookup k h := by
  induction h with
  | nil => simp
  | cons e t ih =>
    obtain ⟨k0, v0⟩ := e
    by_cases h0 : k0 = K
    · subst h0
      simp only [List.map_cons, if_true, lookup_cons, ih]
      by_cases hk : k = k0
      · subst hk; simp
      · simp [hk]
    · simp only [List.map_cons, h0, if_false, lookup_cons, ih]
      by_cases hk : k = k0
      · subst hk
        have : ¬ k = K := h0
        simp [this]
      · simp only [hk, if_false]
        by_cases hK : k = K
        · subst hK
          have : ¬ k = k0 := hk
          simp [this]
        · simp [hK]

theorem lookup_append_single (h : Header) (K k : Str) (x : List Str) :
    List.lookup k (h ++ [(K, x)])
      = match List.lookup k h with
        | some v => some v
        | none => if k = K then some x else none := by
  induction h with
  | nil => simp [lookup_cons]
  | cons e t ih =>
    obtain ⟨k0, v0⟩ := e
    rw [List.cons_append, lookup_cons, lookup_cons, ih]
    by_cases hk : k = k0
    · simp [hk]
    · simp [hk]

theorem lookup_filter_key (h : Header) (K k : Str) :
    List.lookup k (h.filter (fun e => e.1 != K))
      = if k = K then none else List.lookup k h := by
  induction h with
  | nil => simp
  | cons e t ih =>
    obtain ⟨k0, v0⟩ := e
    by_cases h0 : k0 = K
    · subst h0
      simp only [List.filter, bne_self_eq_false, ih, lookup_cons]
      by_cases hk : k = k0
      · simp [hk]
      · simp [hk]
    · have : (k0 != K) = true := by simpa using h0
      simp only [List.filter, this, lookup_cons, ih]
      by_cases hk : k = k0
      · subst hk
        have : ¬ k = K := h0
        simp [this]
      · simp [hk]

/-- The values of a key after `Set`. -/
theorem lookup_Set (h : Header) (key value k : Str) :
    List.lookup k (Header.Set h key value)
      = if k = CanonicalMIMEHeaderKey key then some [value] else List.lookup k h := by
  unfold Header.Set
  cases hl : List.lookup (CanonicalMIMEHeaderKey key) h with
  | some v =>
    simp only
    rw [lookup_map_key h _ k (fun _ => [value]), hl]
    rfl
  | none =>
    simp only
    rw [lookup_append_single]
    by_cases hk : k = CanonicalMIMEHeaderKey key
    · rw [hk, hl]
    · simp only [hk, if_false]
      cases List.lookup k h <;> rfl

/-- The values of a key after `Add`. -/
theorem lookup_Add (h : Header) (key value k : Str) :
    List.lookup k (Header.Add h key value)
      = if k = CanonicalMIMEHeaderKey key then
          some ((List.lookup k h).getD [] ++ [value])
        else List.lookup k h := by
  unfold Header.Add
  cases hl : List.lookup (CanonicalMIMEHeaderKey key) h with
  | some v =>
    simp only
    rw [lookup_map_key h _ k (fun vs => vs ++ [value]), hl]
    by_cases hk : k = CanonicalMIMEHeaderKey key
    · rw [hk, hl]; simp
    · simp [hk]
  | none =>
    simp only
    rw [lookup_append_single]
    by_cases hk : k = CanonicalMIMEHeaderKey key
    · rw [hk, hl]; simp
    · simp only [hk, if_false]
      cases List.lookup k h <;> rfl

/-- The values of a key after `Del`. -/
theorem lookup_Del (h : Header) (key k : Str) :
    List.lookup k (Header.Del h key)
      = if k = CanonicalMIMEHeaderKey key then none else List.lookup k h :=
  lookup_filter_key h _ k

theorem lookup_foldl_Add (v : List Str) (K k : Str) : ∀ dst : Header,
    List.lookup k (v.foldl (fun d t => Header.Add d K t) dst)
      = if k = CanonicalMIMEHeaderKey K ∧ v ≠ [] then
          some ((List.lookup k dst).getD [] ++ v)
        else List.lookup k dst := by
  induction v with
  | nil => intro dst; simp
  | cons t ts ih =>
    intro dst
    rw [List.foldl_cons, ih, lookup_Add]
    by_cases hk : k = CanonicalMIMEHeaderKey K
    · by_cases hts : ts = []
      · subst hts; simp [hk]
      · simp [hk, hts]
    · simp [hk]

theorem lookup_none_of_not_mem (h : Header) (k : Str) (hk : k ∉ h.map Prod.fst) :
    List.lookup k h = none := by
  induction h with
  | nil => rfl
  | cons e t ih =>
    obtain ⟨k0, v0⟩ := e
    simp only [List.map_cons, List.mem_cons, not_or] at hk
    rw [lookup_cons, if_neg hk.1]
    exact ih hk.2

theorem lookup_some_of_mem (h : Header) (hn : (h.map Prod.fst).Nodup) (k : Str) (v : List Str)
    (hm : (k, v) ∈ h) : List.lookup k h = some v := by
  induction h with
  | nil => simp at hm
  | cons e t ih =>
    obtain ⟨k0, v0⟩ := e
    simp only [List.map_cons, List.nodup_cons] at hn
    rw [lookup_cons]
    rcases List.mem_cons.mp hm with h1 | h1
    · cases h1; simp
    · have hk : k ≠ k0 := by
        intro e
        subst e
        exact hn.1 (List.mem_map.mpr ⟨(k, v), h1, rfl⟩)
      rw [if_neg hk]
      exact ih hn.2 h1

/-- The copy loop succeeds when every key has a value. -/
theorem copyHeaders_isSome (src : Header) (hv : ∀ e ∈ src, e.2 ≠ []) :
    ∀ dst, ∃ out, copyHeaders src dst = some out := by
  induction src with
  | nil => intro dst; exact ⟨dst, rfl⟩
  | cons e t ih =>
    intro dst
    obtain ⟨k0, v0⟩ := e
    have ht : ∀ e ∈ t, e.2 ≠ [] := fun x hx => hv x (List.mem_cons_of_mem _ hx)
    unfold copyHeaders
    by_cases hl : v0.length > 1
    · rw [if_pos hl]; exact ih ht _
    · rw [if_neg hl]
      cases v0 with
      | nil => exact absurd rfl (hv (k0, []) (List.mem_cons_self _ _))
      | cons x xs => exact ih ht _

/-- The copy loop panics when a key has no value. -/
theorem copyHeaders_none (src : Header) (hv : ∃ e ∈ src, e.2 = []) :
    ∀ dst, copyHeaders src dst = none := by
  induction src with
  | nil => obtain ⟨e, he, _⟩ := hv; simp at he
  | cons e t ih =>
    intro dst
    obtain ⟨k0, v0⟩ := e
    obtain ⟨x, hx, hx0⟩ := hv
    unfold copyHeaders
    rcases List.mem_cons.mp hx with h1 | h1
    · subst h1
      simp only at hx0
      subst hx0
      simp
    · have := ih ⟨x, h1, hx0⟩
      by_cases hl : v0.length > 1
      · rw [if_pos hl]; exact this _
      · rw [if_neg hl]
        cases v0 with
        | nil => rfl
        | cons y ys => exact this _

/-- The values of every key after the copy loop, on a well-formed source: a key
of the source with one value holds that value alone, a key with several values
holds them after those the destination had, the other keys are as in the
destination. -/
theorem copyHeaders_lookup (src : Header) (hw : Header.wellFormed src) :
    ∀ dst out, copyHeaders src dst = some out → ∀ k,
      List.lookup k out
        = match List.lookup k src with
          | none => List.lookup k dst
          | some v =>
            if v.length > 1 then some ((List.lookup k dst).getD [] ++ v) else some v := by
  induction src with
  | nil =>
    intro dst out h k
    simp only [copyHeaders, Option.some.injEq] at h
    subst h
    rfl
  | cons e t ih =>
    intro dst out h k
    obtain ⟨k0, v0⟩ := e
    obtain ⟨hc, hn⟩ := hw
    have hc0 : CanonicalMIMEHeaderKey k0 = k0 := hc (k0, v0) (List.mem_cons_self _ _)
    simp only [List.map_cons, List.nodup_cons] at hn
    have hwt : Header.wellFormed t :=
      ⟨fun x hx => hc x (List.mem_cons_of_mem _ hx), hn.2⟩
    have hk0 : List.lookup k0 t = none := lookup_none_of_not_mem t k0 hn.1
    rw [lookup_cons]
    unfold copyHeaders at h
    by_cases hl : v0.length > 1
    · rw [if_pos hl] at h
      have hne : v0 ≠ [] := by intro e; subst e; simp at hl
      rw [ih hwt _ out h k]
      by_cases hk : k = k0
      · subst hk
        rw [hk0]
        simp only [if_true, hl]
        rw [lookup_foldl_Add, hc0]
        simp [hne]
      · simp only [hk, if_false]
        rw [lookup_foldl_Add, hc0]
        simp [hk]
    · rw [if_neg hl] at h
      cases v0 with
      | nil => simp at h
      | cons x xs =>
        have hxs : xs = [] := by
          cases xs with
          | nil => rfl
          | cons _ _ => simp at hl
        subst hxs
        simp only at h
        rw [ih hwt _ out h k]
        by_cases hk : k = k0
        · subst hk
          rw [hk0]
          simp only [if_true]
          rw [lookup_Set, hc0]
          simp
        · simp only [hk, if_false]
          rw [lookup_Set, hc0]
          simp [hk]

theorem wellFormed_Del (h : Header) (key : Str) (hw : Header.wellFormed h) :
    Header.wellFormed (Header.Del h key) := by
  obtain ⟨hc, hn⟩ := hw
  refine ⟨fun e he => hc e (List.mem_of_mem_filter he), ?_⟩
  unfold Header.Del
  exact List.Nodup.sublist (List.Sublist.map _ (List.filter_sublist h)) hn

theorem forwarded_append (a b : List Event) : forwarded (a ++ b) = forwarded a ++ forwarded b := by
  induction a with
  | nil => rfl
  | cons e t ih =>
    cases e <;> simp [forwarded, ih]

theorem mem_forwarded (q : OutRequest) (evs : List Event) :
    q ∈ forwarded evs ↔ Event.send q ∈ evs := by
  induction evs with
  | nil => simp [forwarded]
  | cons e t ih =>
    cases e <;> simp [forwarded, ih]

/-- The calls made by the end of the handler: the request is sent when the copy
of the headers does not panic. -/
theorem sendRequest_events (env : AgentEnv) (h : Header) (req : OutRequest) (evs : List Event) :
    (sendRequest env h req evs).1
      = evs ++ (match copyHeaders h req.header with
        | none => []
        | some hd => [Event.send { req with header := hd }]) := by
  unfold sendRequest
  cases copyHeaders h req.header with
  | none => simp
  | some hd =>
    simp only
    cases env.roundTrip { req with header := hd } with
    | none => rfl
    | some res =>
      simp only
      cases copyHeaders res.header [] <;> rfl

/-- The calls made by the signing branch start with those made before and the
reading of the body. -/
theorem signAndSend_events (env : AgentEnv) (r : InRequest) (h : Header)
    (targetURL fingerPrint : Str) (evs : List Event) :
    ∃ tail, (signAndSend env r h targetURL fingerPrint evs).1 = evs ++ Event.readBody :: tail := by
  unfold signAndSend
  cases r.body with
  | none => exact ⟨[], rfl⟩
  | some b =>
    simp only
    cases env.unmarshal b with
    | none => exact ⟨[], rfl⟩
    | some j =>
      simp only
      cases injectUniquenessFields env.newRandom env.now j with
      | none => exact ⟨[], rfl⟩
      | some p =>
        obtain ⟨j1, e⟩ := p
        cases e with
        | some e => exact ⟨[], rfl⟩
        | none =>
          simp only
          by_cases hn : env.newRequest r.method targetURL = false
          · rw [if_pos hn]; exact ⟨[], rfl⟩
          · rw [if_neg hn]
            cases env.signData fingerPrint (env.marshal j1) cryptoSHA512 with
            | none => exact ⟨[_], rfl⟩
            | some sig =>
              simp only
              rw [sendRequest_events]
              exact ⟨_, by rw [List.append_assoc]; rfl⟩

/-- A request sent by the signing branch: its body is the marshalled object with
the uniqueness fields, which `SignData` has signed, and its headers are the
stamped ones with the headers `h` copied over them. -/
theorem signAndSend_forwarded (env : AgentEnv) (r : InRequest) (h : Header)
    (targetURL fingerPrint : Str) (evs : List Event) (q : OutRequest)
    (hevs : forwarded evs = [])
    (hq : q ∈ forwarded (signAndSend env r h targetURL fingerPrint evs).1) :
    ∃ b j j1 sig, r.body = some b ∧ env.unmarshal b = some j
      ∧ injectUniquenessFields env.newRandom env.now j = some (j1, none)
      ∧ env.signData fingerPrint (env.marshal j1) cryptoSHA512 = some sig
      ∧ q.method = r.method ∧ q.url = targetURL ∧ q.body = some (env.marshal j1)
      ∧ copyHeaders h
          (Header.Add
            (Header.Add [] "signature".toList (GPG2Quanto sig fingerPrint "SHA512".toList))
            "X-Powered-By".toList "RemoteSigner Agent".toList) = some q.header := by
  unfold signAndSend at hq
  cases hb : r.body with
  | none => rw [hb] at hq; simp [forwarded_append, hevs, forwarded] at hq
  | some b =>
    rw [hb] at hq
    simp only at hq
    cases hj : env.unmarshal b with
    | none => rw [hj] at hq; simp [forwarded_append, hevs, forwarded] at hq
    | some j =>
      rw [hj] at hq
      simp only at hq
      cases hi : injectUniquenessFields env.newRandom env.now j with
      | none => rw [hi] at hq; simp [forwarded_append, hevs, forwarded] at hq
      | some p =>
        obtain ⟨j1, e⟩ := p
        rw [hi] at hq
        cases e with
        | some e => simp [forwarded_append, hevs, forwarded] at hq
        | none =>
          simp only at hq
          by_cases hn : env.newRequest r.method targetURL = false
          · rw [if_pos hn] at hq; simp [forwarded_append, hevs, forwarded] at hq
          · rw [if_neg hn] at hq
            cases hs : env.signData fingerPrint (env.marshal j1) cryptoSHA512 with
            | none => rw [hs] at hq; simp [forwarded_append, hevs, forwarded] at hq
            | some sig =>
              rw [hs] at hq
              simp only at hq
              rw [sendRequest_events] at hq
              cases hc : copyHeaders h
                  (Header.Add
                    (Header.Add [] "signature".toList
                      (GPG2Quanto sig fingerPrint "SHA512".toList))
                    "X-Powered-By".toList "RemoteSigner Agent".toList) with
              | none => rw [hc] at hq; simp [forwarded_append, hevs, forwarded] at hq
              | some hd =>
                rw [hc] at hq
                simp only [forwarded_append, hevs, forwarded, List.nil_append,
                  List.append_nil, List.mem_singleton] at hq
                subst hq
                exact ⟨b, j, j1, sig, rfl, hj, hi, hs, rfl, rfl, rfl, hc⟩

/-- A header of the source is present after the copy, with its values at the
end, and alone when the destination did not have the key. -/
theorem copyHeaders_copied (src dst out : Header) (hw : Header.wellFormed src)
    (hc : copyHeaders src dst = some out) (k : Str) (v : List Str) (hm : (k, v) ∈ src) :
    ∃ v1, List.lookup k out = some v1 ∧ v <:+ v1 ∧ (List.lookup k dst = none → v1 = v) := by
  have hl := copyHeaders_lookup src hw dst out hc k
  rw [lookup_some_of_mem src hw.2 k v hm] at hl
  simp only at hl
  by_cases hlen : v.length > 1
  · rw [if_pos hlen] at hl
    refine ⟨_, hl, List.suffix_append _ _, ?_⟩
    intro hn
    rw [hn]
    rfl
  · rw [if_neg hlen] at hl
    exact ⟨v, hl, List.suffix_refl _, fun _ => rfl⟩

/-- A key absent from the source is after the copy as in the destination. -/
theorem copyHeaders_absent (src dst out : Header) (hw : Header.wellFormed src)
    (hc : copyHeaders src dst = some out) (k : Str) (hk : List.lookup k src = none) :
    List.lookup k out = List.lookup k dst := by
  have hl := copyHeaders_lookup src hw dst out hc k
  rw [hk] at hl
  exact hl

theorem canonical_proxyToken : CanonicalMIMEHeaderKey "proxyToken".toList = "Proxytoken".toList := by
  decide

theorem canonical_signature : CanonicalMIMEHeaderKey "signature".toList = "Signature".toList := by
  decide

theorem canonical_poweredBy :
    CanonicalMIMEHeaderKey "X-Powered-By".toList = "X-Powered-By".toList := by
  decide

/-- The values of the headers the signing branch stamps. -/
theorem lookup_stamped (quantoSig k : Str) :
    List.lookup k
      (Header.Add (Header.Add [] "signature".toList quantoSig)
        "X-Powered-By".toList "RemoteSigner Agent".toList)
      = if k = "X-Powered-By".toList then some ["RemoteSigner Agent".toList]
        else if k = "Signature".toList then some [quantoSig] else none := by
  rw [lookup_Add, lookup_Add, canonical_poweredBy, canonical_signature]
  by_cases h1 : k = "X-Powered-By".toList
  · subst h1
    simp only [if_true]
    rw [if_neg (by decide)]
    rfl
  · rw [if_neg h1, if_neg h1]
    by_cases h2 : k = "Signature".toList
    · rw [if_pos h2, if_pos h2]; rfl
    · rw [if_neg h2, if_neg h2]; rfl

theorem mem_Del (h : Header) (key k : Str) (v : List Str) (hm : (k, v) ∈ h)
    (hk : k ≠ CanonicalMIMEHeaderKey key) : (k, v) ∈ Header.Del h key := by
  unfold Header.Del
  exact List.mem_filter.mpr ⟨hm, by simpa using hk⟩

/-- The answer to a request without valid token. -/
theorem defaultHandler_denied (env : AgentEnv) (r : InRequest)
    (hb : env.agentBypassLogin = false) (hm : r.method ≠ "OPTIONS".toList)
    (ht : Header.Get r.header "proxyToken".toList = []
      ∨ env.verify (Header.Get r.header "proxyToken".toList) = false) :
    (defaultHandler env r).2
        = Outcome.permissionDenied "proxyToken".toList
            "Please check if your proxyToken is valid".toList
    ∧ ((defaultHandler env r).1 = []
      ∨ (defaultHandler env r).1 = [Event.verify (Header.Get r.header "proxyToken".toList)]) := by
  unfold defaultHandler
  rw [if_neg hm, hb]
  simp only [Bool.false_eq_true, if_false]
  by_cases h0 : Header.Get r.header "proxyToken".toList = []
  · rw [if_pos h0]
    exact ⟨rfl, Or.inl rfl⟩
  · rw [if_neg h0]
    rcases ht with ht | ht
    · exact absurd ht h0
    · rw [if_pos ht]
      exact ⟨rfl, Or.inr rfl⟩

/-- The signing branch on a body that `json.Unmarshal` refuses. -/
theorem signAndSend_malformed (env : AgentEnv) (r : InRequest) (h : Header)
    (targetURL fingerPrint : Str) (evs : List Event) (b : List Nat)
    (hb : r.body = some b) (hj : env.unmarshal b = none) :
    signAndSend env r h targetURL fingerPrint evs
      = (evs ++ [Event.readBody],
          Outcome.internalServerError "There was an error processing your request".toList) := by
  unfold signAndSend
  rw [hb]
  simp only
  rw [hj]

/-- The signing branch on the JSON `null`: the assignment to the nil map
panics. -/
theorem signAndSend_null (env : AgentEnv) (r : InRequest) (h : Header)
    (targetURL fingerPrint : Str) (evs : List Event) (b : List Nat)
    (hb : r.body = some b) (hj : env.unmarshal b = some none)
    (hu : (generateUUID env.newRandom).1.2 = none) :
    signAndSend env r h targetURL fingerPrint evs
      = (evs ++ [Event.readBody], Outcome.catchAllError) := by
  have hi : injectUniquenessFields env.newRandom env.now none = none := by
    unfold injectUniquenessFields
    rcases hg : (generateUUID env.newRandom).1 with ⟨s, e⟩
    rw [hg] at hu
    simp only at hu
    subst hu
    rfl
  unfold signAndSend
  rw [hb]
  simp only
  rw [hj]
  simp only
  rw [hi]

/-- The handler on an authenticated request whose body `json.Unmarshal`
refuses. -/
theorem defaultHandler_malformed (env : AgentEnv) (r : InRequest) (b : List Nat)
    (hm : r.method ≠ "OPTIONS".toList)
    (hauth : env.agentBypassLogin = true
      ∨ (Header.Get r.header "proxyToken".toList ≠ []
        ∧ env.verify (Header.Get r.header "proxyToken".toList) = true
        ∧ env.userFingerPrint (Header.Get r.header "proxyToken".toList) ≠ none))
    (hb : r.body = some b) (hj : env.unmarshal b = none) :
    (defaultHandler env r).2
        = Outcome.internalServerError "There was an error processing your request".toList
    ∧ forwarded (defaultHandler env r).1 = []
    ∧ ∀ fp d h, Event.signData fp d h ∉ (defaultHandler env r).1 := by
  unfold defaultHandler
  rw [if_neg hm]
  by_cases hbp : env.agentBypassLogin = true
  · rw [if_pos hbp, signAndSend_malformed env r _ _ _ _ b hb hj]
    refine ⟨rfl, rfl, ?_⟩
    intro fp d h
    simp
  · rw [if_neg hbp]
    rcases hauth with hauth | ⟨h1, h2, h3⟩
    · exact absurd hauth hbp
    · rw [if_neg h1, if_neg (by rw [h2]; decide)]
      cases hu : env.userFingerPrint (Header.Get r.header "proxyToken".toList) with
      | none => exact absurd hu h3
      | some fp0 =>
        simp only
        rw [signAndSend_malformed env r _ _ _ _ b hb hj]
        refine ⟨rfl, rfl, ?_⟩
        intro fp d h
        simp

/-- The handler on an authenticated request whose body is the JSON `null`. -/
theorem defaultHandler_null (env : AgentEnv) (r : InRequest) (b : List Nat)
    (hm : r.method ≠ "OPTIONS".toList)
    (hauth : env.agentBypassLogin = true
      ∨ (Header.Get r.header "proxyToken".toList ≠ []
        ∧ env.verify (Header.Get r.header "proxyToken".toList) = true
        ∧ env.userFingerPrint (Header.Get r.header "proxyToken".toList) ≠ none))
    (hb : r.body = some b) (hj : env.unmarshal b = some none)
    (hu : (generateUUID env.newRandom).1.2 = none) :
    (defaultHandler env r).2 = Outcome.catchAllError
    ∧ forwarded (defaultHandler env r).1 = [] := by
  unfold defaultHandler
  rw [if_neg hm]
  by_cases hbp : env.agentBypassLogin = true
  · rw [if_pos hbp, signAndSend_null env r _ _ _ _ b hb hj hu]
    exact ⟨rfl, rfl⟩
  · rw [if_neg hbp]
    rcases hauth with hauth | ⟨h1, h2, h3⟩
    · exact absurd hauth hbp
    · rw [if_neg h1, if_neg (by rw [h2]; decide)]
      cases hf : env.userFingerPrint (Header.Get r.header "proxyToken".toList) with
      | none => exact absurd hf h3
      | some fp0 =>
        simp only
        rw [signAndSend_null env r _ _ _ _ b hb hj hu]
        exact ⟨rfl, rfl⟩

/-- The handler on an OPTIONS request that `http.NewRequest` accepts and whose
headers all have a value: one call, the sending of the request. -/
theorem defaultHandler_options (env : AgentEnv) (r : InRequest)
    (hm : r.method = "OPTIONS".toList)
    (hn : env.newRequest r.method (targetURL env r) = true)
    (hv : ∀ e ∈ r.header, e.2 ≠ []) :
    ∃ hd, copyHeaders r.header (Header.Add [] "X-Powered-By".toList "RemoteSigner Agent".toList)
        = some hd
      ∧ (defaultHandler env r).1
        = [Event.send { method := r.method, url := targetURL env r, body := none, header := hd }] := by
  obtain ⟨hd, hc⟩ := copyHeaders_isSome r.header hv
    (Header.Add [] "X-Powered-By".toList "RemoteSigner Agent".toList)
  refine ⟨hd, hc, ?_⟩
  unfold defaultHandler
  rw [if_pos hm, if_neg (by rw [hn]; decide), sendRequest_events]
  simp only [hc, List.nil_append]

/-- The requests the handler sends: the header map copied over the stamped
headers is the incoming one, without the token when the method is not OPTIONS
and login is not bypassed. -/
theorem defaultHandler_forwarded (env : AgentEnv) (r : InRequest) (q : OutRequest)
    (hq : q ∈ forwarded (defaultHandler env r).1) :
    q.method = r.method ∧ q.url = targetURL env r
    ∧ ((r.method = "OPTIONS".toList ∧ q.body = none
        ∧ copyHeaders r.header
            (Header.Add [] "X-Powered-By".toList "RemoteSigner Agent".toList) = some q.header)
      ∨ (r.method ≠ "OPTIONS".toList
        ∧ ∃ fp sig body, q.body = some body
          ∧ env.signData fp body cryptoSHA512 = some sig
          ∧ (fp = if env.agentBypassLogin then env.agentKeyFingerPrint
              else (env.userFingerPrint (Header.Get r.header "proxyToken".toList)).getD [])
          ∧ copyHeaders
              (if env.agentBypassLogin then r.header
                else Header.Del r.header "proxyToken".toList)
              (Header.Add
                (Header.Add [] "signature".toList (GPG2Quanto sig fp "SHA512".toList))
                "X-Powered-By".toList "RemoteSigner Agent".toList) = some q.header)) := by
  unfold defaultHandler at hq
  by_cases hm : r.method = "OPTIONS".toList
  · rw [if_pos hm] at hq
    by_cases hn : env.newRequest r.method (targetURL env r) = false
    · rw [if_pos hn] at hq
      simp [forwarded] at hq
    · rw [if_neg hn, sendRequest_events] at hq
      cases hc : copyHeaders r.header
          (Header.Add [] "X-Powered-By".toList "RemoteSigner Agent".toList) with
      | none =>
        rw [hc] at hq
        simp [forwarded] at hq
      | some hd =>
        rw [hc] at hq
        simp only [List.nil_append, forwarded, List.mem_singleton] at hq
        subst hq
        exact ⟨rfl, rfl, Or.inl ⟨hm, rfl, rfl⟩⟩
  · rw [if_neg hm] at hq
    by_cases hbp : env.agentBypassLogin = true
    · rw [if_pos hbp] at hq
      obtain ⟨b, j, j1, sig, _, _, _, hs, h1, h2, h3, h4⟩ :=
        signAndSend_forwarded env r _ _ _ [] q rfl hq
      refine ⟨h1, h2, Or.inr ⟨hm, env.agentKeyFingerPrint, sig, _, h3, hs, ?_, ?_⟩⟩
      · rw [if_pos hbp]
      · rw [if_pos hbp]; exact h4
    · rw [if_neg hbp] at hq
      by_cases h0 : Header.Get r.header "proxyToken".toList = []
      · rw [if_pos h0] at hq
        simp [forwarded] at hq
      · rw [if_neg h0] at hq
        by_cases hv : env.verify (Header.Get r.header "proxyToken".toList) = false
        · rw [if_pos hv] at hq
          simp [forwarded] at hq
        · rw [if_neg hv] at hq
          cases hf : env.userFingerPrint (Header.Get r.header "proxyToken".toList) with
          | none =>
            rw [hf] at hq
            simp [forwarded] at hq
          | some fp0 =>
            rw [hf] at hq
            simp only at hq
            obtain ⟨b, j, j1, sig, _, _, _, hs, h1, h2, h3, h4⟩ :=
              signAndSend_forwarded env r _ _ _
                [Event.verify (Header.Get r.header "proxyToken".toList),
                  Event.getUserData (Header.Get r.header "proxyToken".toList)] q rfl hq
            refine ⟨h1, h2, Or.inr ⟨hm, fp0, sig, _, h3, hs, ?_, ?_⟩⟩
            · rw [if_neg hbp]; rfl
            · rw [if_neg hbp]; exact h4

/-- The headers of a forwarded request, on a well-formed incoming header map:
every incoming header but the token is there, with its values at the end and
alone unless the key is one the proxy stamps; the token is absent when the
method is not OPTIONS and login is not bypassed, and forwarded as it came
otherwise. -/
theorem defaultHandler_headers (env : AgentEnv) (r : InRequest) (q : OutRequest)
    (hw : Header.wellFormed r.header)
    (hq : q ∈ forwarded (defaultHandler env r).1) :
    (∀ k v, (k, v) ∈ r.header → k ≠ "Proxytoken".toList →
      ∃ v1, List.lookup k q.header = some v1 ∧ v <:+ v1
        ∧ (k ≠ "Signature".toList → k ≠ "X-Powered-By".toList → v1 = v))
    ∧ (r.method ≠ "OPTIONS".toList → env.agentBypassLogin = false →
        List.lookup "Proxytoken".toList q.header = none)
    ∧ (r.method = "OPTIONS".toList ∨ env.agentBypassLogin = true →
        List.lookup "Proxytoken".toList q.header = List.lookup "Proxytoken".toList r.header) := by
  have hX : ∀ k : Str,
      List.lookup k (Header.Add [] "X-Powered-By".toList "RemoteSigner Agent".toList)
        = if k = "X-Powered-By".toList then some ["RemoteSigner Agent".toList] else none := by
    intro k
    rw [lookup_Add, canonical_poweredBy]
    by_cases h1 : k = "X-Powered-By".toList
    · rw [if_pos h1, if_pos h1]; rfl
    · rw [if_neg h1, if_neg h1]; rfl
  have hsame : ∀ (src dst : Header), Header.wellFormed src →
      copyHeaders src dst = some q.header →
      List.lookup "Proxytoken".toList dst = none →
      List.lookup "Proxytoken".toList q.header = List.lookup "Proxytoken".toList src := by
    intro src dst hws hc hd
    have hl := copyHeaders_lookup src hws dst _ hc "Proxytoken".toList
    rw [hl, hd]
    cases List.lookup "Proxytoken".toList src with
    | none => rfl
    | some v =>
      simp only
      by_cases hlen : v.length > 1
      · rw [if_pos hlen]; rfl
      · rw [if_neg hlen]
  obtain ⟨_, _, hcase⟩ := defaultHandler_forwarded env r q hq
  rcases hcase with ⟨hm, _, hc⟩ | ⟨hm, fp, sig, body, _, _, _, hc⟩
  · refine ⟨?_, fun h => absurd hm h, fun _ => hsame _ _ hw hc (by rw [hX]; rfl)⟩
    intro k v hkv _
    obtain ⟨v1, h1, h2, h3⟩ := copyHeaders_copied _ _ _ hw hc k v hkv
    refine ⟨v1, h1, h2, fun _ hp => h3 ?_⟩
    rw [hX, if_neg hp]
  · by_cases hbp : env.agentBypassLogin = true
    · rw [if_pos hbp] at hc
      refine ⟨?_, fun _ h => by rw [hbp] at h; exact absurd h (by decide),
        fun _ => hsame _ _ hw hc (by rw [lookup_stamped]; rfl)⟩
      intro k v hkv _
      obtain ⟨v1, h1, h2, h3⟩ := copyHeaders_copied _ _ _ hw hc k v hkv
      refine ⟨v1, h1, h2, fun hs hp => h3 ?_⟩
      rw [lookup_stamped, if_neg hp, if_neg hs]
    · rw [if_neg hbp] at hc
      have hwd := wellFormed_Del r.header "proxyToken".toList hw
      refine ⟨?_, fun _ _ => ?_, fun h => ?_⟩
      · intro k v hkv hk
        have hmem := mem_Del r.header "proxyToken".toList k v hkv
          (by rw [canonical_proxyToken]; exact hk)
        obtain ⟨v1, h1, h2, h3⟩ := copyHeaders_copied _ _ _ hwd hc k v hmem
        refine ⟨v1, h1, h2, fun hs hp => h3 ?_⟩
        rw [lookup_stamped, if_neg hp, if_neg hs]
      · rw [copyHeaders_absent _ _ _ hwd hc _
          (by rw [lookup_Del, canonical_proxyToken]; simp), lookup_stamped]
        rfl
      · rcases h with h | h
        · exact absurd h hm
        · exact absurd h hbp

/-- The stamped headers of a forwarded request that is not OPTIONS, when the
incoming request carries neither a `Signature` nor an `X-Powered-By` header. -/
theorem defaultHandler_stamped (env : AgentEnv) (r : InRequest) (q : OutRequest)
    (hw : Header.wellFormed r.header) (hm : r.method ≠ "OPTIONS".toList)
    (hs : List.lookup "Signature".toList r.header = none)
    (hp : List.lookup "X-Powered-By".toList r.header = none)
    (hq : q ∈ forwarded (defaultHandler env r).1) :
    ∃ fp sig body, q.body = some body
      ∧ env.signData fp body cryptoSHA512 = some sig
      ∧ (fp = if env.agentBypassLogin then env.agentKeyFingerPrint
          else (env.userFingerPrint (Header.Get r.header "proxyToken".toList)).getD [])
      ∧ List.lookup "Signature".toList q.header = some [GPG2Quanto sig fp "SHA512".toList]
      ∧ List.lookup "X-Powered-By".toList q.header = some ["RemoteSigner Agent".toList] := by
  obtain ⟨_, _, hcase⟩ := defaultHandler_forwarded env r q hq
  rcases hcase with ⟨hm1, _, _⟩ | ⟨_, fp, sig, body, hb, hsd, hfp, hc⟩
  · exact absurd hm1 hm
  · refine ⟨fp, sig, body, hb, hsd, hfp, ?_, ?_⟩
    · by_cases hbp : env.agentBypassLogin = true
      · rw [if_pos hbp] at hc
        rw [copyHeaders_absent _ _ _ hw hc _ hs, lookup_stamped]
        rfl
      · rw [if_neg hbp] at hc
        rw [copyHeaders_absent _ _ _ (wellFormed_Del _ _ hw) hc _
          (by rw [lookup_Del, hs]; simp), lookup_stamped]
        rfl
    · by_cases hbp : env.agentBypassLogin = true
      · rw [if_pos hbp] at hc
        rw [copyHeaders_absent _ _ _ hw hc _ hp, lookup_stamped]
        rfl
      · rw [if_neg hbp] at hc
        rw [copyHeaders_absent _ _ _ (wellFormed_Del _ _ hw) hc _
          (by rw [lookup_Del, hp]; simp), lookup_stamped]
        rfl

/-- With saving disabled `Save` returns `nil` and the file system as it was. -/
theorem Save_disabled (d : diskBackend) (fs : FS) (key data : Str)
    (h : d.saveEnabled = false) : d.Save fs key data = (fs, none) := by
  unfold diskBackend.Save
  rw [if_pos h]

/-- Saving is disabled exactly for a read-only key path whose temporary folder
could not be made or filled. -/
theorem MakeSaveToDiskBackend_saveEnabled (readonlyKeyPath : Bool) (tempDir : Option Str)
    (copyFiles : Str → Str → Bool) (folder pfx : Str) :
    (MakeSaveToDiskBackend readonlyKeyPath tempDir copyFiles folder pfx).saveEnabled = false
      ↔ readonlyKeyPath = true
        ∧ (tempDir = none ∨ ∃ t, tempDir = some t ∧ copyFiles folder t = false) := by
  unfold MakeSaveToDiskBackend
  cases readonlyKeyPath with
  | false => simp
  | true =>
    cases tempDir with
    | none => simp
    | some t =>
      by_cases hc : copyFiles folder t = false
      · simp [hc]
      · simp [hc]

/-- The method `SaveWithMetadata` does not read the flag `saveEnabled`. -/
theorem SaveWithMetadata_flag (folder pfx : Str) (b : Bool) (fs : FS) (key data metadata : Str) :
    diskBackend.SaveWithMetadata { folder := folder, pfx := pfx, saveEnabled := b } fs key data
        metadata
      = diskBackend.SaveWithMetadata { folder := folder, pfx := pfx, saveEnabled := true } fs key
        data metadata := rfl

theorem hexValue_lt (c : Char) (h : isUpperHex c = true) : hexValue c < 16 := by
  have hm : c ∈ "0123456789ABCDEF".toList := by simpa [isUpperHex] using h
  exact List.indexOf_lt_length.mpr hm

theorem hexValue_inj (c d : Char) (hc : isUpperHex c = true) (hd : isUpperHex d = true)
    (h : hexValue c = hexValue d) : c = d := by
  have hmc : c ∈ "0123456789ABCDEF".toList := by simpa [isUpperHex] using hc
  have hmd : d ∈ "0123456789ABCDEF".toList := by simpa [isUpperHex] using hd
  exact (List.indexOf_inj hmc hmd).mp h

/-- Reading digits after the number `a`. -/
theorem foldl_hex (s : Str) (hs : ∀ c ∈ s, isUpperHex c = true) : ∀ a,
    s.foldl (fun a c => a * 16 + hexValue c) a = a * 16 ^ s.length + readHex s
    ∧ readHex s < 16 ^ s.length := by
  induction s with
  | nil => intro a; simp [readHex]
  | cons c t ih =>
    intro a
    have ht : ∀ x ∈ t, isUpperHex x = true := fun x hx => hs x (List.mem_cons_of_mem _ hx)
    have hc := hexValue_lt c (hs c (List.mem_cons_self _ _))
    have h1 := ih ht (a * 16 + hexValue c)
    have h2 := ih ht (0 * 16 + hexValue c)
    have hr : readHex (c :: t) = hexValue c * 16 ^ t.length + readHex t := by
      unfold readHex
      rw [List.foldl_cons, h2.1]
      simp [readHex]
    refine ⟨?_, ?_⟩
    · rw [List.foldl_cons, h1.1, hr, List.length_cons, Nat.pow_succ]
      ring
    · rw [hr, List.length_cons, Nat.pow_succ]
      have := h1.2
      nlinarith

/-- Two texts of upper-case hexadecimal digits of the same length that denote
the same number are equal. -/
theorem readHex_inj : ∀ (s t : Str), s.length = t.length →
    (∀ c ∈ s, isUpperHex c = true) → (∀ c ∈ t, isUpperHex c = true) →
    readHex s = readHex t → s = t := by
  intro s
  induction s with
  | nil =>
    intro t hl _ _ _
    exact (List.length_eq_zero.mp hl.symm).symm
  | cons c s ih =>
    intro t hl hs ht h
    cases t with
    | nil => simp at hl
    | cons d t =>
      have hl1 : s.length = t.length := by simpa using hl
      have hs1 : ∀ x ∈ s, isUpperHex x = true := fun x hx => hs x (List.mem_cons_of_mem _ hx)
      have ht1 : ∀ x ∈ t, isUpperHex x = true := fun x hx => ht x (List.mem_cons_of_mem _ hx)
      have e1 := (foldl_hex s hs1 (0 * 16 + hexValue c))
      have e2 := (foldl_hex t ht1 (0 * 16 + hexValue d))
      have r1 : readHex (c :: s) = hexValue c * 16 ^ s.length + readHex s := by
        unfold readHex
        rw [List.foldl_cons, e1.1]
        simp [readHex]
      have r2 : readHex (d :: t) = hexValue d * 16 ^ t.length + readHex t := by
        unfold readHex
        rw [List.foldl_cons, e2.1]
        simp [readHex]
      rw [r1, r2, hl1] at h
      have b1 := e1.2
      have b2 := e2.2
      rw [hl1] at b1
      have hpos : 0 < 16 ^ t.length := Nat.pow_pos (by norm_num)
      have hq : hexValue c = hexValue d := by
        have q1 : (hexValue c * 16 ^ t.length + readHex s) / 16 ^ t.length = hexValue c := by
          rw [Nat.add_comm, Nat.add_mul_div_right _ _ hpos, Nat.div_eq_of_lt b1]
          simp
        have q2 : (hexValue d * 16 ^ t.length + readHex t) / 16 ^ t.length = hexValue d := by
          rw [Nat.add_comm, Nat.add_mul_div_right _ _ hpos, Nat.div_eq_of_lt b2]
          simp
        rw [← q1, ← q2, h]
      have hr : readHex s = readHex t := by
        rw [hq] at h
        exact Nat.add_left_cancel h
      rw [hexValue_inj c d (hs c (List.mem_cons_self _ _)) (ht d (List.mem_cons_self _ _)) hq,
        ih t hl1 hs1 ht1 hr]

theorem hexEncodeToString_length (raw : List Nat) :
    (hexEncodeToString raw).length = 2 * raw.length := by
  induction raw with
  | nil => rfl
  | cons b t ih =>
    simp only [hexEncodeToString, List.map_cons, List.flatten_cons, List.length_append,
      List.length_cons] at ih ⊢
    rw [ih, hexByte_length]
    omega

theorem hexEncodeToString_drop : ∀ (k : Nat) (raw : List Nat),
    (hexEncodeToString raw).drop (2 * k) = hexEncodeToString (raw.drop k) := by
  intro k
  induction k with
  | zero => intro raw; rfl
  | succ k ih =>
    intro raw
    cases raw with
    | nil => simp [hexEncodeToString]
    | cons b t =>
      have h2 : 2 * (k + 1) = (hexByte b).length + 2 * k := by rw [hexByte_length]; omega
      have := ih t
      simp only [hexEncodeToString, List.map_cons, List.flatten_cons, List.drop_succ_cons] at this ⊢
      rw [h2, List.drop_append, this]

/-- The two digits of a byte, in upper case. -/
theorem hexByte_upper (b : Nat) :
    ∃ u1 u2, ToUpper (hexByte b) = [u1, u2] ∧ isUpperHex u1 = true ∧ isUpperHex u2 = true
      ∧ hexValue u1 * 16 + hexValue u2 = b % 256 := by
  have hlt : b % 256 < 256 := Nat.mod_lt _ (by norm_num)
  have hdiv : (b % 256) >>> 4 = b % 256 / 16 := by rw [Nat.shiftRight_eq_div_pow]
  have hmod : (b % 256) &&& 0x0f = b % 256 % 16 := Nat.and_pow_two_sub_one_eq_mod _ 4
  have h1 : b % 256 / 16 < 16 := by omega
  have h2 : b % 256 % 16 < 16 := Nat.mod_lt _ (by norm_num)
  refine ⟨(ldigit (b % 256 / 16)).toUpper, (ldigit (b % 256 % 16)).toUpper, ?_,
    (ldigit_upper _ h1).1, (ldigit_upper _ h2).1, ?_⟩
  · unfold hexByte
    rw [hdiv, hmod]
    rfl
  · rw [(ldigit_upper _ h1).2, (ldigit_upper _ h2).2]
    omega

/-- The hexadecimal text of bytes, in upper case: its digits, and the number it
denotes after the number `a`. -/
theorem hexEncode_upper (bs : List Nat) :
    (∀ c ∈ ToUpper (hexEncodeToString bs), isUpperHex c = true)
    ∧ ∀ a, (ToUpper (hexEncodeToString bs)).foldl (fun a c => a * 16 + hexValue c) a
        = bs.foldl (fun a b => a * 256 + b % 256) a := by
  induction bs with
  | nil => exact ⟨fun c hc => by simp [hexEncodeToString, ToUpper] at hc, fun a => rfl⟩
  | cons b t ih =>
    obtain ⟨u1, u2, hu, h1, h2, hv⟩ := hexByte_upper b
    have he : ToUpper (hexEncodeToString (b :: t)) = u1 :: u2 :: ToUpper (hexEncodeToString t) := by
      simp only [hexEncodeToString, List.map_cons, List.flatten_cons]
      rw [ToUpper_append, hu]
      rfl
    rw [he]
    refine ⟨?_, ?_⟩
    · intro c hc
      rcases List.mem_cons.mp hc with e | hc
      · rw [e]; exact h1
      · rcases List.mem_cons.mp hc with e | hc
        · rw [e]; exact h2
        · exact ih.1 c hc
    · intro a
      rw [List.foldl_cons, List.foldl_cons, List.foldl_cons, ih.2]
      congr 1
      rw [← hv]
      ring

theorem bigEndian_lt : ∀ (bs : List Nat) (a : Nat),
    bs.foldl (fun a b => a * 256 + b % 256) a < (a + 1) * 256 ^ bs.length := by
  intro bs
  induction bs with
  | nil => intro a; simp
  | cons b t ih =>
    intro a
    have hb : b % 256 < 256 := Nat.mod_lt _ (by norm_num)
    have := ih (a * 256 + b % 256)
    rw [List.foldl_cons, List.length_cons, Nat.pow_succ]
    calc _ < (a * 256 + b % 256 + 1) * 256 ^ t.length := this
      _ ≤ ((a + 1) * 256) * 256 ^ t.length := Nat.mul_le_mul_right _ (by omega)
      _ = (a + 1) * (256 ^ t.length * 256) := by ring

/-- The upper-case hexadecimal text of 8 bytes is the text `IssuerKeyIdToFP16`
gives for the number they denote. -/
theorem hexEncode_eq_IssuerKeyIdToFP16 (bs : List Nat) (h : bs.length = 8) :
    ToUpper (hexEncodeToString bs) = IssuerKeyIdToFP16 (bigEndian bs) := by
  have hk : bigEndian bs < 2 ^ 64 := by
    have := bigEndian_lt bs 0
    rw [h] at this
    unfold bigEndian
    calc _ < (0 + 1) * 256 ^ 8 := this
      _ = 2 ^ 64 := by norm_num
  obtain ⟨h1, h2, h3⟩ := IssuerKeyIdToFP16_spec (bigEndian bs) hk
  obtain ⟨g2, g3⟩ := hexEncode_upper bs
  apply readHex_inj _ _ _ g2 h2
  · rw [h3]
    exact g3 0
  · rw [h1]
    simp only [ToUpper, List.length_map]
    rw [hexEncodeToString_length, h]

/-- The result of `ByteFingerPrint2FP16` on at least 8 bytes. -/
theorem ByteFingerPrint2FP16_some (raw : List Nat) (h : 8 ≤ raw.length) :
    ByteFingerPrint2FP16 raw
      = some (ToUpper (hexEncodeToString (raw.drop (raw.length - 8)))) := by
  unfold ByteFingerPrint2FP16
  rw [hexEncodeToString_length]
  have hlt : ¬ 2 * raw.length < 16 := by omega
  rw [if_neg hlt]
  have : 2 * raw.length - 16 = 2 * (raw.length - 8) := by omega
  rw [this, hexEncodeToString_drop]

theorem ByteFingerPrint2FP16_none (raw : List Nat) (h : raw.length < 8) :
    ByteFingerPrint2FP16 raw = none := by
  unfold ByteFingerPrint2FP16
  rw [hexEncodeToString_length]
  have hlt : 2 * raw.length < 16 := by omega
  rw [if_pos hlt]

theorem Split_snoc (a n : Str) (x : Char) (hn : x ∉ n) :
    Split (a ++ x :: n) x = Split a x ++ [n] := by
  have hsingle : Split n x = [n] := Split_single n x hn
  unfold Split List.splitOn at hsingle ⊢
  induction a with
  | nil =>
    rw [List.nil_append, List.splitOnP_cons, List.splitOnP_nil, hsingle]
    simp
  | cons c t ih =>
    rw [List.cons_append, List.splitOnP_cons, List.splitOnP_cons, ih]
    by_cases hc : (c == x) = true
    · rw [if_pos hc, if_pos hc]
      rfl
    · rw [if_neg hc, if_neg hc]
      cases hs : List.splitOnP (fun y => y == x) t with
      | nil => exact absurd hs (List.splitOnP_ne_nil _ _)
      | cons h0 t0 => rfl

theorem cleanLoop_cons (rooted : Bool) (c : Str) (cs out : List Str) :
    cleanLoop rooted (c :: cs) out
      = if c = [] ∨ c = ".".toList then cleanLoop rooted cs out
        else if c = "..".toList then
          match out with
          | top :: rest =>
            if top = "..".toList then cleanLoop rooted cs (c :: out) else cleanLoop rooted cs rest
          | [] => if rooted then cleanLoop rooted cs [] else cleanLoop rooted cs [c]
        else cleanLoop rooted cs (c :: out) := by
  conv => lhs; unfold cleanLoop

theorem cleanLoop_append (rooted : Bool) (a b : List Str) : ∀ out,
    cleanLoop rooted (a ++ b) out = cleanLoop rooted b (cleanLoop rooted a out) := by
  induction a with
  | nil => intro out; rfl
  | cons c cs ih =>
    intro out
    rw [List.cons_append, cleanLoop_cons, cleanLoop_cons]
    by_cases h1 : c = [] ∨ c = ".".toList
    · rw [if_pos h1, if_pos h1]
      exact ih out
    · rw [if_neg h1, if_neg h1]
      by_cases h2 : c = "..".toList
      · rw [if_pos h2, if_pos h2]
        cases out with
        | nil =>
          simp only
          cases rooted with
          | true => simp only [if_true]; exact ih _
          | false => simp only [Bool.false_eq_true, if_false]; exact ih _
        | cons top rest =>
          simp only
          by_cases h3 : top = "..".toList
          · rw [if_pos h3, if_pos h3]; exact ih _
          · rw [if_neg h3, if_neg h3]; exact ih _
      · rw [if_neg h2, if_neg h2]
        exact ih _

theorem cleanLoop_plain (rooted : Bool) (n : Str) (out : List Str) (h : plainName n) :
    cleanLoop rooted [n] out = n :: out := by
  obtain ⟨h1, h2, h3, _⟩ := h
  rw [cleanLoop_cons, if_neg (by rintro (e | e) <;> contradiction), if_neg h3]
  rfl

theorem intercalate_cons_cons (c : Char) (a b : Str) (t : List Str) :
    [c].intercalate (a :: b :: t) = a ++ c :: [c].intercalate (b :: t) := by
  simp [List.intercalate]

theorem intercalate_snoc_ne (c : Char) (n : Str) (L : List Str) (hL : L ≠ []) :
    [c].intercalate (L ++ [n]) = [c].intercalate L ++ c :: n := by
  induction L with
  | nil => exact absurd rfl hL
  | cons a t ih =>
    cases t with
    | nil => simp [List.intercalate]
    | cons b r =>
      rw [List.cons_append, List.cons_append, intercalate_cons_cons, intercalate_cons_cons,
        ← List.cons_append, ih (by simp)]
      simp

theorem intercalate_snoc (c : Char) (L : List Str) :
    ∃ Q : Str, ∀ n : Str, [c].intercalate (L ++ [n]) = Q ++ n := by
  by_cases hL : L = []
  · subst hL
    exact ⟨[], fun n => by simp [List.intercalate]⟩
  · exact ⟨[c].intercalate L ++ [c], fun n => by rw [intercalate_snoc_ne c n L hL]; simp⟩

/-- The call `path.Clean` on a text followed by a slash and a plain name: a text
that depends on what stands before the slash, followed by the name. -/
theorem Clean_snoc (a : Str) : ∃ P : Str, ∀ n : Str, plainName n →
    path.Clean (a ++ '/' :: n) = P ++ n := by
  obtain ⟨Q1, hQ1⟩ := intercalate_snoc '/' (cleanLoop true (Split a '/') []).reverse
  obtain ⟨Q2, hQ2⟩ := intercalate_snoc '/' (cleanLoop false (Split a '/') []).reverse
  by_cases hr : (a ++ ['/']).head? = some '/'
  · refine ⟨'/' :: Q1, fun n hn => ?_⟩
    have hhead : (a ++ '/' :: n).head? = some '/' := by
      cases a with
      | nil => rfl
      | cons c t => simpa using hr
    unfold path.Clean
    rw [if_neg (by simp), if_pos hhead, Split_snoc a n '/' hn.2.2.2, cleanLoop_append,
      cleanLoop_plain true n _ hn, List.reverse_cons]
    have : "/".toList = ['/'] := rfl
    rw [this, hQ1]
    rfl
  · refine ⟨Q2, fun n hn => ?_⟩
    have hhead : ¬ (a ++ '/' :: n).head? = some '/' := by
      cases a with
      | nil => exact absurd rfl hr
      | cons c t => simpa using hr
    unfold path.Clean
    rw [if_neg (by simp), if_neg hhead, Split_snoc a n '/' hn.2.2.2, cleanLoop_append,
      cleanLoop_plain false n _ hn, if_neg (by simp), List.reverse_cons]
    have : "/".toList = ['/'] := rfl
    rw [this, hQ2]

theorem Clean_plain (n : Str) (hn : plainName n) : path.Clean n = n := by
  have hhead : ¬ n.head? = some '/' := by
    intro h
    cases n with
    | nil => cases h
    | cons c t =>
      have : c = '/' := by simpa using h
      exact hn.2.2.2 (this ▸ List.mem_cons_self _ _)
  unfold path.Clean
  rw [if_neg hn.1, if_neg hhead, Split_single n '/' hn.2.2.2, cleanLoop_plain false n _ hn,
    if_neg (by simp)]
  simp [List.intercalate]

/-- The call `path.Join` of a folder and a plain name: a text that depends on
the folder, followed by the name. -/
theorem Join_plain (folder : Str) : ∃ P : Str, ∀ n : Str, plainName n →
    path.Join [folder, n] = P ++ n := by
  by_cases hf : folder = []
  · refine ⟨[], fun n hn => ?_⟩
    subst hf
    unfold path.Join
    rw [if_neg (by simp)]
    unfold path.Join
    rw [if_pos hn.1]
    simp only [List.intercalate, List.intersperse, List.flatten, List.append_nil, List.nil_append]
    exact Clean_plain n hn
  · obtain ⟨P, hP⟩ := Clean_snoc folder
    refine ⟨P, fun n hn => ?_⟩
    unfold path.Join
    rw [if_pos hf]
    have : "/".toList.intercalate [folder, n] = folder ++ '/' :: n := by
      simp [List.intercalate, List.intersperse]
    rw [this]
    exact hP n hn

/-- Two plain names that `path.Join` puts at the same place in a folder are
equal. -/
theorem Join_plain_inj (folder n m : Str) (hn : plainName n) (hm : plainName m)
    (h : path.Join [folder, n] = path.Join [folder, m]) : n = m := by
  obtain ⟨P, hP⟩ := Join_plain folder
  rw [hP n hn, hP m hm] at h
  exact List.append_cancel_left h

theorem plainName_metadata (n : Str) (h : '/' ∉ n) : plainName (metadataPrefix ++ n) := by
  refine ⟨by simp [metadataPrefix], ?_, ?_, ?_⟩
  · intro e
    have := congrArg List.length e
    simp [metadataPrefix] at this
  · intro e
    have := congrArg List.length e
    simp [metadataPrefix] at this
  · intro hm
    rcases List.mem_append.mp hm with h1 | h1
    · exact absurd h1 (by decide)
    · exact h h1

/-- The data file and the metadata file of a key whose file name is plain are
different names. -/
theorem data_ne_metadata (folder n : Str) (hn : plainName n) :
    path.Join [folder, n] ≠ path.Join [folder, metadataPrefix ++ n] := by
  intro h
  have := Join_plain_inj folder n (metadataPrefix ++ n) hn (plainName_metadata n hn.2.2.2) h
  have hl := congrArg List.length this
  simp [metadataPrefix] at hl
  omega

/-- The test `len(name) > len(p) && name[:len(p)] == p` of `List`. -/
theorem longer_prefix_iff (p name : Str) :
    (name.length > p.length ∧ name.take p.length = p) ↔ (p <+: name ∧ name ≠ p) := by
  constructor
  · rintro ⟨hl, ht⟩
    refine ⟨List.prefix_iff_eq_take.mpr ht.symm, ?_⟩
    intro e
    rw [e] at hl
    exact Nat.lt_irrefl _ hl
  · rintro ⟨hp, hne⟩
    refine ⟨?_, (List.prefix_iff_eq_take.mp hp).symm⟩
    rcases Nat.lt_or_ge p.length name.length with h | h
    · exact h
    · exact absurd (hp.eq_of_length (Nat.le_antisymm hp.length_le h)).symm hne

/-- The loop of `List` keeps the entries the specification names, in their
order, and strips the prefix. -/
theorem listLoop_eq (pfx : Str) (files : List FileInfo) :
    listLoop pfx files
      = (files.filter (fun e => decide (listedEntry pfx e))).map
          (fun e => e.name.drop pfx.length) := by
  induction files with
  | nil => rfl
  | cons f t ih =>
    unfold listLoop
    by_cases hd : f.isDir = true
    · have hn : ¬ listedEntry pfx f := by
        intro h
        rw [h.1] at hd
        cases hd
      rw [if_pos hd, ih, List.filter_cons_of_neg (by simpa using hn)]
    · rw [if_neg hd]
      have hd0 : f.isDir = false := by simpa using hd
      by_cases hm : f.name.length > metadataPrefix.length
          ∧ f.name.take metadataPrefix.length = metadataPrefix
      · have hn : ¬ listedEntry pfx f := by
          intro h
          exact h.2.2.2 ⟨((longer_prefix_iff _ _).mp hm).1, hm.1⟩
        rw [if_pos hm, ih, List.filter_cons_of_neg (by simpa using hn)]
      · rw [if_neg hm]
        have hm1 : ¬ (metadataPrefix <+: f.name ∧ f.name.length > metadataPrefix.length) := by
          rintro ⟨h1, h2⟩
          exact hm ⟨h2, (List.prefix_iff_eq_take.mp h1).symm⟩
        by_cases hp : f.name.length > pfx.length ∧ f.name.take pfx.length = pfx
        · have hy : listedEntry pfx f :=
            ⟨hd0, ((longer_prefix_iff _ _).mp hp).1, ((longer_prefix_iff _ _).mp hp).2, hm1⟩
          rw [if_pos hp, ih, List.filter_cons_of_pos (by simpa using hy), List.map_cons]
        · have hn : ¬ listedEntry pfx f := by
            intro h
            exact hp ((longer_prefix_iff _ _).mpr ⟨h.2.1, h.2.2.1⟩)
          rw [if_neg hp, ih, List.filter_cons_of_neg (by simpa using hn)]

/-- The names `List` returns: those that, put after the prefix, name an entry
of the folder that is kept. -/
theorem mem_listLoop (pfx : Str) (files : List FileInfo) (n : Str) :
    n ∈ listLoop pfx files
      ↔ n ≠ [] ∧ ∃ e ∈ files, e.name = pfx ++ n ∧ e.isDir = false
          ∧ ¬ (metadataPrefix <+: e.name ∧ e.name.length > metadataPrefix.length) := by
  rw [listLoop_eq]
  simp only [List.mem_map, List.mem_filter, decide_eq_true_eq]
  constructor
  · rintro ⟨e, ⟨he, hd, ⟨w, hw⟩, hne, hm⟩, hn⟩
    have hdrop : n = w := by rw [← hn, ← hw, List.drop_left]
    subst hdrop
    refine ⟨?_, e, he, hw.symm, hd, hm⟩
    intro e0
    apply hne
    rw [← hw, e0, List.append_nil]
  · rintro ⟨hne, e, he, hname, hd, hm⟩
    refine ⟨e, ⟨he, hd, ⟨n, hname.symm⟩, ?_, hm⟩, by rw [hname, List.drop_left]⟩
    intro e0
    apply hne
    have : (pfx ++ n).length = pfx.length := by rw [← hname, e0]
    simpa using this

theorem digits_foldl_ge (ds : Str) : ∀ n : Nat,
    n ≤ ds.foldl (fun a c => a * 10 + (c.toNat - '0'.toNat)) n := by
  induction ds with
  | nil => intro n; exact Nat.le_refl _
  | cons c cs ih =>
    intro n
    rw [List.foldl_cons]
    exact Nat.le_trans (by omega) (ih _)

/-- The loop of `ParseUint` on digits whose number fits the bit size. -/
theorem parseUintLoop_digits (maxVal : Nat) (hmax : maxVal < 2 ^ 32) (ds : Str)
    (hd : ∀ c ∈ ds, '0' ≤ c ∧ c ≤ '9') : ∀ n : Nat,
    ds.foldl (fun a c => a * 10 + (c.toNat - '0'.toNat)) n ≤ maxVal →
    parseUintLoop maxVal ds n
      = (ds.foldl (fun a c => a * 10 + (c.toNat - '0'.toNat)) n, none) := by
  induction ds with
  | nil => intro n _; rfl
  | cons c cs ih =>
    intro n hn
    have hc := hd c (List.mem_cons_self _ _)
    have hcs : ∀ x ∈ cs, '0' ≤ x ∧ x ≤ '9' := fun x hx => hd x (List.mem_cons_of_mem _ hx)
    rw [List.foldl_cons] at hn ⊢
    have h1 := digits_foldl_ge cs (n * 10 + (c.toNat - '0'.toNat))
    have hle : n * 10 + (c.toNat - '0'.toNat) ≤ maxVal := Nat.le_trans h1 hn
    have hmod1 : n * 10 % 2 ^ 64 = n * 10 := Nat.mod_eq_of_lt (by omega)
    have hmod2 : (n * 10 + (c.toNat - '0'.toNat)) % 2 ^ 64 = n * 10 + (c.toNat - '0'.toNat) :=
      Nat.mod_eq_of_lt (by omega)
    unfold parseUintLoop
    rw [if_pos hc, hmod1, hmod2, if_neg (by omega), if_neg (by omega)]
    exact ih hcs _ hn

/-- The call `ParseInt` on the text of a decimal number of 32 bits: the number,
without error. -/
theorem ParseInt_decimal (negative : Bool) (ds : Str) (hne : ds ≠ [])
    (hd : ∀ c ∈ ds, '0' ≤ c ∧ c ≤ '9')
    (hr : if negative then digitsValue ds ≤ 2 ^ 31 else digitsValue ds < 2 ^ 31) :
    strconv.ParseInt (decimalText negative ds) 32
      = (if negative then -(digitsValue ds : Int) else (digitsValue ds : Int), none) := by
  have hv : digitsValue ds ≤ 2 ^ 32 - 1 := by
    cases negative with
    | true => simp only [if_true] at hr; omega
    | false =>
      have : digitsValue ds < 2 ^ 31 := by simpa using hr
      omega
  have hu : strconv.ParseUint ds 32 = (digitsValue ds, none) := by
    unfold strconv.ParseUint
    rw [if_neg hne]
    exact parseUintLoop_digits _ (by norm_num) ds hd 0 hv
  cases negative with
  | true =>
    have hr1 : digitsValue ds ≤ 2 ^ 31 := by simpa using hr
    simp only [decimalText, if_true]
    unfold strconv.ParseInt
    simp only [or_true, if_true, hu]
    rw [if_neg (by simp), if_neg (by omega)]
  | false =>
    have hr1 : digitsValue ds < 2 ^ 31 := by simpa using hr
    cases ds with
    | nil => exact absurd rfl hne
    | cons c cs =>
      have hc := hd c (List.mem_cons_self _ _)
      have hplus : c ≠ '+' := by
        intro e
        rw [e] at hc
        exact absurd hc.1 (by decide)
      have hminus : c ≠ '-' := by
        intro e
        rw [e] at hc
        exact absurd hc.1 (by decide)
      simp only [decimalText, Bool.false_eq_true, if_false]
      unfold strconv.ParseInt
      simp only [hplus, hminus, or_self, if_false, hu]
      rw [if_neg (by omega)]
      simp

/-- The value `ParseInt` returns with an error: 0 or a bound of the bit size. -/
theorem ParseInt_error_value (s : Str) (h : (strconv.ParseInt s 32).2 ≠ none) :
    (strconv.ParseInt s 32).1 = 0 ∨ (strconv.ParseInt s 32).1 = 2147483647
      ∨ (strconv.ParseInt s 32).1 = -2147483648 := by
  unfold strconv.ParseInt at h ⊢
  cases s with
  | nil => exact Or.inl rfl
  | cons c cs =>
    simp only at h ⊢
    rcases hp : strconv.ParseUint (if c = '+' ∨ c = '-' then cs else c :: cs) 32 with ⟨un, e⟩
    rw [hp] at h
    cases e with
    | some e =>
      cases e with
      | ErrSyntax => exact Or.inl rfl
      | ErrRange =>
        simp only at h ⊢
        by_cases h1 : c ≠ '-' ∧ un ≥ 2 ^ (32 - 1)
        · rw [if_pos h1]; exact Or.inr (Or.inl rfl)
        · rw [if_neg h1] at h ⊢
          by_cases h2 : c = '-' ∧ un > 2 ^ (32 - 1)
          · rw [if_pos h2]; exact Or.inr (Or.inr rfl)
          · rw [if_neg h2] at h
            exact absurd rfl h
    | none =>
      simp only at h ⊢
      by_cases h1 : c ≠ '-' ∧ un ≥ 2 ^ (32 - 1)
      · rw [if_pos h1]; exact Or.inr (Or.inl rfl)
      · rw [if_neg h1] at h ⊢
        by_cases h2 : c = '-' ∧ un > 2 ^ (32 - 1)
        · rw [if_pos h2]; exact Or.inr (Or.inr rfl)
        · rw [if_neg h2] at h
          exact absurd rfl h

/-- The pattern of `init` for a variable with default `dflt` other than 0 and
the bounds of 32 bits: the default is the result exactly when the variable is
not set or holds a number `ParseInt` accepts. -/
theorem init_pattern (v : Str) (dflt : Int) (h0 : dflt ≠ 0) (h1 : dflt ≠ 2147483647)
    (h2 : dflt ≠ -2147483648) :
    ((if (if v ≠ [] then
          (if (strconv.ParseInt v 32).2 ≠ none then (strconv.ParseInt v 32).1 else -1)
        else -1) = -1 then dflt
      else
        (if v ≠ [] then
          (if (strconv.ParseInt v 32).2 ≠ none then (strconv.ParseInt v 32).1 else -1)
        else -1)) = dflt)
      ↔ (v = [] ∨ (strconv.ParseInt v 32).2 = none) := by
  by_cases hv : v = []
  · simp [hv]
  · by_cases he : (strconv.ParseInt v 32).2 = none
    · simp [hv, he]
    · have hval := ParseInt_error_value v he
      simp only [ne_eq, hv, not_false_eq_true, if_true, he, false_or]
      rcases hval with h | h | h <;> rw [h] <;> simp <;> omega

theorem findFirst_some (pat : Str) : ∀ (s : Str) (i : Nat),
    findFirst pat s = some i → pat <+: s.drop i := by
  intro s
  induction s with
  | nil =>
    intro i h
    unfold findFirst at h
    by_cases hp : pat.isPrefixOf [] = true
    · rw [if_pos hp] at h
      cases h
      exact (isPrefixOf_iff _ _).mp hp
    · rw [if_neg hp] at h
      cases h
  | cons c cs ih =>
    intro i h
    rw [findFirst_cons] at h
    by_cases hp : pat.isPrefixOf (c :: cs) = true
    · rw [if_pos hp] at h
      cases h
      exact (isPrefixOf_iff _ _).mp hp
    · rw [if_neg hp] at h
      cases hf : findFirst pat cs with
      | none => rw [hf] at h; cases h
      | some j =>
        rw [hf] at h
        cases h
        exact ih j hf

theorem findLast_some (pat : Str) : ∀ (s : Str) (i : Nat),
    findLast pat s = some i → pat <+: s.drop i := by
  intro s
  induction s with
  | nil =>
    intro i h
    unfold findLast at h
    by_cases hp : pat.isPrefixOf [] = true
    · rw [if_pos hp] at h
      cases h
      exact (isPrefixOf_iff _ _).mp hp
    · rw [if_neg hp] at h
      cases h
  | cons c cs ih =>
    intro i h
    rw [findLast_cons] at h
    cases hf : findLast pat cs with
    | some j =>
      rw [hf] at h
      cases h
      exact ih j hf
    | none =>
      rw [hf] at h
      simp only at h
      by_cases hp : pat.isPrefixOf (c :: cs) = true
      · rw [if_pos hp] at h
        cases h
        exact (isPrefixOf_iff _ _).mp hp
      · rw [if_neg hp] at h
        cases h

/-- A text in which `pgpsig` finds a match contains an armor block. -/
theorem containsBlock_of_pgpsigSubmatch (s g : Str) (h : pgpsigSubmatch s = some g) :
    containsBlock s := by
  unfold pgpsigSubmatch at h
  cases hf : findFirst (beginLine ++ ['\n']) s with
  | none => rw [hf] at h; cases h
  | some i =>
    rw [hf] at h
    simp only at h
    cases hl : findLast endLine (s.drop (i + (beginLine ++ ['\n']).length)) with
    | none => rw [hl] at h; cases h
    | some j =>
      obtain ⟨v, hv⟩ := findFirst_some _ s i hf
      obtain ⟨w, hw⟩ := findLast_some _ _ j hl
      have hrest : s.drop (i + (beginLine ++ ['\n']).length) = v := by
        have hdd : s.drop (i + (beginLine ++ ['\n']).length)
            = (s.drop i).drop (beginLine ++ ['\n']).length := by
          simp [List.drop_drop, Nat.add_comm]
        rw [hdd, ← hv, List.drop_left]
      refine ⟨s.take i, v.take j, w, ?_⟩
      have h1 : s = s.take i ++ s.drop i := (List.take_append_drop i s).symm
      have h2 : v = v.take j ++ v.drop j := (List.take_append_drop j v).symm
      rw [hrest] at hw
      calc s = s.take i ++ s.drop i := h1
        _ = s.take i ++ ((beginLine ++ ['\n']) ++ v) := by rw [← hv]
        _ = s.take i ++ ((beginLine ++ ['\n']) ++ (v.take j ++ v.drop j)) := by rw [← h2]
        _ = s.take i ++ ((beginLine ++ ['\n']) ++ (v.take j ++ (endLine ++ w))) := by rw [← hw]
        _ = s.take i ++ beginLine ++ ['\n'] ++ v.take j ++ endLine ++ w := by
          simp only [List.append_assoc]

/-- The expression `pgpsig` matches exactly the texts with an armor block. -/
theorem pgpsigSubmatch_isSome_iff (s : Str) :
    (pgpsigSubmatch s).isSome = true ↔ containsBlock s := by
  constructor
  · intro h
    cases hg : pgpsigSubmatch s with
    | none => rw [hg] at h; cases h
    | some g => exact containsBlock_of_pgpsigSubmatch s g hg
  · intro h
    obtain ⟨g, hg⟩ := pgpsigSubmatch_of_containsBlock s h
    rw [hg]
    rfl

/-- Without armor block `SignatureFix` returns its argument. -/
theorem SignatureFix_unmatched (s : Str) (h : ¬ containsBlock s) : SignatureFix s = some s := by
  have hn : pgpsigSubmatch s = none := by
    cases hg : pgpsigSubmatch s with
    | none => rfl
    | some g => exact absurd (containsBlock_of_pgpsigSubmatch s g hg) h
  unfold SignatureFix
  rw [hn]

/-- A line feed after the last line `z` of a text of lines `a, pre…, "", post…,
z` makes `GPG2Quanto` take `z` into its result. -/
theorem GPG2Quanto_trailing_lf (a z : Str) (pre post : List Str) (F H : Str)
    (ha : '\n' ∉ a) (hz : '\n' ∉ z) (hpre : ∀ l ∈ pre, l ≠ [] ∧ '\n' ∉ l)
    (hpost : ∀ l ∈ post, '\n' ∉ l) :
    GPG2Quanto (['\n'].intercalate (a :: ((pre ++ [] :: post) ++ [z])) ++ ['\n']) F H
      = GPG2Quanto (['\n'].intercalate (a :: ((pre ++ [] :: post) ++ [z]))) F H ++ z := by
  have h : ['\n'].intercalate (a :: ((pre ++ [] :: post) ++ [z])) ++ ['\n']
      = ['\n'].intercalate (a :: ((pre ++ [] :: (post ++ [z])) ++ [[]])) := by
    rw [intercalate_ends, intercalate_ends]
    simp
  rw [h, GPG2Quanto_lines a [] pre (post ++ [z]) F H ha (by simp) hpre,
    GPG2Quanto_lines a z pre post F H ha hz hpre hpost]
  · simp
  · intro l hl
    rcases List.mem_append.mp hl with h1 | h1
    · exact hpost l h1
    · rw [List.mem_singleton.mp h1]; exact hz

/-- A line feed after the END line of an armor makes `GPG2Quanto` append the END
line to its result. -/
theorem GPG2Quanto_armor_lf (ls : List Str) (C F H : Str)
    (hls : ∀ l ∈ ls, '\n' ∉ l) (hC : '\n' ∉ C) :
    GPG2Quanto (armorText true ls (some C) ++ ['\n']) F H
      = GPG2Quanto (armorText true ls (some C)) F H ++ endLine := by
  have h : armorText true ls (some C)
      = ['\n'].intercalate (beginLine :: (([] ++ [] :: (ls ++ [C])) ++ [endLine])) := by
    simp [armorText]
  rw [h]
  apply GPG2Quanto_trailing_lf
  · decide
  · decide
  · intro l hl; simp at hl
  · intro l hl
    rcases List.mem_append.mp hl with h1 | h1
    · exact hls l h1
    · rw [List.mem_singleton.mp h1]; exact hC

/-- A successful `WriteFile` changes the one name it writes. -/
theorem WriteFile_ok (fs : FS) (name data : Str) (h : (ioutil.WriteFile fs name data).2 = none) :
    (ioutil.WriteFile fs name data).1.node name = some (Node.file data)
    ∧ (∀ p, p ≠ name → (ioutil.WriteFile fs name data).1.node p = fs.node p)
    ∧ (ioutil.WriteFile fs name data).1.locked = fs.locked := by
  unfold ioutil.WriteFile at h ⊢
  by_cases hc : name = [] ∨ fs.locked name = true ∨ fs.node name = some Node.dir
  · rw [if_pos hc] at h
    cases h
  · rw [if_neg hc]
    refine ⟨by simp, fun p hp => by simp [hp], rfl⟩

/-- A failed `WriteFile` leaves the file system as it was. -/
theorem WriteFile_failed (fs : FS) (name data : Str)
    (h : (ioutil.WriteFile fs name data).2 ≠ none) : (ioutil.WriteFile fs name data).1 = fs := by
  unfold ioutil.WriteFile at h ⊢
  by_cases hc : name = [] ∨ fs.locked name = true ∨ fs.node name = some Node.dir
  · rw [if_pos hc]
  · rw [if_neg hc] at h
    exact absurd rfl h

theorem ReadFile_congr (fs1 fs2 : FS) (name : Str) (h : fs1.node name = fs2.node name) :
    ioutil.ReadFile fs1 name = ioutil.ReadFile fs2 name := by
  unfold ioutil.ReadFile
  rw [h]

theorem ReadFile_file (fs : FS) (name data : Str) (h : fs.node name = some (Node.file data)) :
    ioutil.ReadFile fs name = (data, none) := by
  unfold ioutil.ReadFile
  rw [h]

/-- The call `ReadFile` succeeds exactly on a file. -/
theorem ReadFile_ok_iff (fs : FS) (name : Str) :
    (ioutil.ReadFile fs name).2 = none ↔ ∃ data, fs.node name = some (Node.file data) := by
  unfold ioutil.ReadFile
  cases h : fs.node name with
  | none => simp
  | some nd =>
    cases nd with
    | file data => simp
    | dir => simp

/-- The result of `Read` depends on what the data name and the metadata name
hold. -/
theorem Read_congr (d : diskBackend) (fs1 fs2 : FS) (key : Str)
    (hD : fs1.node (path.Join [d.folder, d.pfx ++ key])
      = fs2.node (path.Join [d.folder, d.pfx ++ key]))
    (hM : fs1.node (path.Join [d.folder, metadataPrefix ++ d.pfx ++ key])
      = fs2.node (path.Join [d.folder, metadataPrefix ++ d.pfx ++ key])) :
    d.Read fs1 key = d.Read fs2 key := by
  unfold diskBackend.Read
  rw [ReadFile_congr fs1 fs2 _ hD, ReadFile_congr fs1 fs2 _ hM]

/-- The result of `Read` from what the two names hold. -/
theorem Read_files (d : diskBackend) (fs : FS) (key data metadata : Str)
    (hD : fs.node (path.Join [d.folder, d.pfx ++ key]) = some (Node.file data))
    (hM : fs.node (path.Join [d.folder, metadataPrefix ++ d.pfx ++ key])
      = some (Node.file metadata)) :
    d.Read fs key = (data, metadata, none) := by
  unfold diskBackend.Read
  rw [ReadFile_file fs _ data hD, ReadFile_file fs _ metadata hM]

/-- A successful `Save` changes at most the data name of the key. -/
theorem Save_ok (d : diskBackend) (fs : FS) (key data : Str)
    (h : (d.Save fs key data).2 = none) :
    ∀ p, p ≠ path.Join [d.folder, d.pfx ++ key] → (d.Save fs key data).1.node p = fs.node p := by
  unfold diskBackend.Save at h ⊢
  by_cases he : d.saveEnabled = false
  · rw [if_pos he]
    intro p _
    rfl
  · rw [if_neg he] at h ⊢
    exact (WriteFile_ok fs _ data h).2.1

/-- A successful `SaveWithMetadata`: what the two names hold afterwards, and
that no other name has changed. -/
theorem SaveWithMetadata_ok (d : diskBackend) (fs : FS) (key data metadata : Str)
    (h : (d.SaveWithMetadata fs key data metadata).2 = none) :
    (d.SaveWithMetadata fs key data metadata).1.node
        (path.Join [d.folder, metadataPrefix ++ d.pfx ++ key]) = some (Node.file metadata)
    ∧ (path.Join [d.folder, d.pfx ++ key]
          ≠ path.Join [d.folder, metadataPrefix ++ d.pfx ++ key] →
        (d.SaveWithMetadata fs key data metadata).1.node (path.Join [d.folder, d.pfx ++ key])
          = some (Node.file data))
    ∧ (∀ p, p ≠ path.Join [d.folder, d.pfx ++ key] →
        p ≠ path.Join [d.folder, metadataPrefix ++ d.pfx ++ key] →
        (d.SaveWithMetadata fs key data metadata).1.node p = fs.node p) := by
  unfold diskBackend.SaveWithMetadata at h ⊢
  rcases hw : ioutil.WriteFile fs (path.Join [d.folder, d.pfx ++ key]) data with ⟨fs1, e1⟩
  rw [hw] at h
  cases e1 with
  | some e => cases h
  | none =>
    simp only at h ⊢
    have h1 := WriteFile_ok fs _ data (by rw [hw])
    rw [hw] at h1
    have h2 := WriteFile_ok fs1 _ metadata h
    refine ⟨h2.1, fun hne => ?_, fun p hp1 hp2 => ?_⟩
    · rw [h2.2.1 _ hne]
      exact h1.1
    · rw [h2.2.1 p hp2]
      exact h1.2.1 p hp1

/-- The result of `Read` right after a successful `SaveWithMetadata`. -/
theorem SaveWithMetadata_then_Read (d : diskBackend) (fs : FS) (key data metadata : Str)
    (h : (d.SaveWithMetadata fs key data metadata).2 = none) :
    d.Read (d.SaveWithMetadata fs key data metadata).1 key
      = if path.Join [d.folder, d.pfx ++ key]
            = path.Join [d.folder, metadataPrefix ++ d.pfx ++ key] then
          (metadata, metadata, none)
        else (data, metadata, none) := by
  obtain ⟨h1, h2, _⟩ := SaveWithMetadata_ok d fs key data metadata h
  by_cases he : path.Join [d.folder, d.pfx ++ key]
      = path.Join [d.folder, metadataPrefix ++ d.pfx ++ key]
  · rw [if_pos he]
    exact Read_files d _ key metadata metadata (by rw [he]; exact h1) h1
  · rw [if_neg he]
    exact Read_files d _ key data metadata (h2 he) h1

/-- The method `Delete` on a key whose data name cannot be read. -/
theorem Delete_missing (d : diskBackend) (fs : FS) (key : Str)
    (h : (ioutil.ReadFile fs (path.Join [d.folder, d.pfx ++ key])).2 ≠ none) :
    (d.Delete fs key).1 = fs ∧ (d.Delete fs key).2 ≠ none := by
  unfold diskBackend.Delete
  rcases hr : ioutil.ReadFile fs (path.Join [d.folder, d.pfx ++ key]) with ⟨x, e⟩
  rw [hr] at h
  cases e with
  | none => exact absurd rfl h
  | some e => exact ⟨rfl, by simp⟩

theorem Remove_ok (fs : FS) (name : Str) (hn : fs.node name ≠ none)
    (hl : fs.locked name = false) :
    (os.Remove fs name).2 = none ∧ (os.Remove fs name).1.node name = none
    ∧ (∀ p, p ≠ name → (os.Remove fs name).1.node p = fs.node p)
    ∧ (os.Remove fs name).1.locked = fs.locked := by
  unfold os.Remove
  rw [if_neg (by rintro (h | h); exact hn h; rw [hl] at h; cases h)]
  exact ⟨rfl, by simp, fun p hp => by simp [hp], rfl⟩

/-- The call `os.Remove` never makes a name hold something. -/
theorem Remove_node (fs : FS) (name : Str) :
    (∀ p, (os.Remove fs name).1.node p = fs.node p ∨ (os.Remove fs name).1.node p = none)
    ∧ (os.Remove fs name).1.locked = fs.locked
    ∧ (fs.locked name = false → (os.Remove fs name).1.node name = none) := by
  unfold os.Remove
  by_cases hc : fs.node name = none ∨ fs.locked name = true
  · rw [if_pos hc]
    refine ⟨fun p => Or.inl rfl, rfl, fun hl => ?_⟩
    rcases hc with h | h
    · exact h
    · rw [hl] at h; cases h
  · rw [if_neg hc]
    refine ⟨fun p => ?_, rfl, fun _ => by simp⟩
    by_cases hp : p = name
    · right; simp [hp]
    · left; simp [hp]

/-- The call `os.Remove` leaves the other names as they were. -/
theorem Remove_other (fs : FS) (name p : Str) (hp : p ≠ name) :
    (os.Remove fs name).1.node p = fs.node p := by
  unfold os.Remove
  by_cases hc : fs.node name = none ∨ fs.locked name = true
  · rw [if_pos hc]
  · rw [if_neg hc]
    simp [hp]

/-- The method `Delete` on a key whose data name holds a file, when the system
does not refuse to remove the two names. -/
theorem Delete_existing (d : diskBackend) (fs : FS) (key data : Str)
    (hD : fs.node (path.Join [d.folder, d.pfx ++ key]) = some (Node.file data))
    (hl1 : fs.locked (path.Join [d.folder, d.pfx ++ key]) = false)
    (hl2 : fs.locked (path.Join [d.folder, metadataPrefix ++ d.pfx ++ key]) = false) :
    (d.Delete fs key).2 = none
    ∧ (d.Delete fs key).1.node (path.Join [d.folder, d.pfx ++ key]) = none
    ∧ (d.Delete fs key).1.node (path.Join [d.folder, metadataPrefix ++ d.pfx ++ key]) = none
    ∧ (∀ p, p ≠ path.Join [d.folder, d.pfx ++ key] →
        p ≠ path.Join [d.folder, metadataPrefix ++ d.pfx ++ key] →
        (d.Delete fs key).1.node p = fs.node p) := by
  obtain ⟨r1, r2, r3, r4⟩ := Remove_ok fs _ (by rw [hD]; simp) hl1
  obtain ⟨s1, s2, s3⟩ := Remove_node (os.Remove fs (path.Join [d.folder, d.pfx ++ key])).1
    (path.Join [d.folder, metadataPrefix ++ d.pfx ++ key])
  unfold diskBackend.Delete
  rw [ReadFile_file fs _ data hD]
  simp only
  refine ⟨r1, ?_, s3 (by rw [r4]; exact hl2), fun p hp1 hp2 => ?_⟩
  · rcases s1 (path.Join [d.folder, d.pfx ++ key]) with h | h
    · rw [h]; exact r2
    · exact h
  · rw [Remove_other _ _ p hp2]
    exact r3 p hp1

/-- The method `Delete` on a key whose data name holds a file that the system
refuses to remove: the error is returned and the file stays. -/
theorem Delete_refused (d : diskBackend) (fs : FS) (key data : Str)
    (hD : fs.node (path.Join [d.folder, d.pfx ++ key]) = some (Node.file data))
    (hl1 : fs.locked (path.Join [d.folder, d.pfx ++ key]) = true) :
    (d.Delete fs key).2 ≠ none := by
  unfold diskBackend.Delete
  rw [ReadFile_file fs _ data hD]
  simp only
  unfold os.Remove
  rw [if_pos (Or.inr hl1)]
  simp

/-- The error of `Read` is that of reading the data name, and comes with empty
data and metadata. -/
theorem Read_error_iff (d : diskBackend) (fs : FS) (key : Str) :
    ((d.Read fs key).2.2 ≠ none
      ↔ (ioutil.ReadFile fs (path.Join [d.folder, d.pfx ++ key])).2 ≠ none)
    ∧ ((d.Read fs key).2.2 ≠ none → (d.Read fs key).1 = [] ∧ (d.Read fs key).2.1 = []) := by
  unfold diskBackend.Read
  rcases hr : ioutil.ReadFile fs (path.Join [d.folder, d.pfx ++ key]) with ⟨x, e⟩
  cases e with
  | some e => simp
  | none =>
    simp only
    rcases hm : ioutil.ReadFile fs (path.Join [d.folder, metadataPrefix ++ d.pfx ++ key])
      with ⟨y, e2⟩
    cases e2 with
    | some e => simp
    | none => simp

/-- The result of `Read` when the data name holds a file and the metadata name
cannot be read. -/
theorem Read_without_metadata (d : diskBackend) (fs : FS) (key data : Str)
    (hD : fs.node (path.Join [d.folder, d.pfx ++ key]) = some (Node.file data))
    (hM : (ioutil.ReadFile fs (path.Join [d.folder, metadataPrefix ++ d.pfx ++ key])).2 ≠ none) :
    d.Read fs key = (data, [], none) := by
  unfold diskBackend.Read
  rw [ReadFile_file fs _ data hD]
  simp only
  rcases hm : ioutil.ReadFile fs (path.Join [d.folder, metadataPrefix ++ d.pfx ++ key])
    with ⟨y, e2⟩
  rw [hm] at hM
  cases e2 with
  | some e => rfl
  | none => exact absurd rfl hM

/-- A successful `Save` of one key leaves `Read` of another key as it was when
the name written is neither of the two names read. -/
theorem Save_frame (d : diskBackend) (fs : FS) (k1 k2 data : Str)
    (hok : (d.Save fs k1 data).2 = none)
    (h1 : path.Join [d.folder, d.pfx ++ k2] ≠ path.Join [d.folder, d.pfx ++ k1])
    (h2 : path.Join [d.folder, metadataPrefix ++ d.pfx ++ k2]
      ≠ path.Join [d.folder, d.pfx ++ k1]) :
    d.Read (d.Save fs k1 data).1 k2 = d.Read fs k2 :=
  Read_congr d _ _ k2 (Save_ok d fs k1 data hok _ h1) (Save_ok d fs k1 data hok _ h2)

/-- A successful `SaveWithMetadata` of one key leaves `Read` of another key as
it was when the two names written are neither of the two names read. -/
theorem SaveWithMetadata_frame (d : diskBackend) (fs : FS) (k1 k2 data metadata : Str)
    (hok : (d.SaveWithMetadata fs k1 data metadata).2 = none)
    (h1 : path.Join [d.folder, d.pfx ++ k2] ≠ path.Join [d.folder, d.pfx ++ k1])
    (h2 : path.Join [d.folder, metadataPrefix ++ d.pfx ++ k2]
      ≠ path.Join [d.folder, d.pfx ++ k1])
    (h3 : path.Join [d.folder, d.pfx ++ k2]
      ≠ path.Join [d.folder, metadataPrefix ++ d.pfx ++ k1])
    (h4 : path.Join [d.folder, metadataPrefix ++ d.pfx ++ k2]
      ≠ path.Join [d.folder, metadataPrefix ++ d.pfx ++ k1]) :
    d.Read (d.SaveWithMetadata fs k1 data metadata).1 k2 = d.Read fs k2 :=
  Read_congr d _ _ k2
    ((SaveWithMetadata_ok d fs k1 data metadata hok).2.2 _ h1 h3)
    ((SaveWithMetadata_ok d fs k1 data metadata hok).2.2 _ h2 h4)

/-- Plain file names that differ are put at different places in the folder. -/
theorem Join_plain_ne (folder n m : Str) (hn : plainName n) (hm : plainName m) (h : n ≠ m) :
    path.Join [folder, n] ≠ path.Join [folder, m] :=
  fun e => h (Join_plain_inj folder n m hn hm e)

/-- A file name that starts with another byte than `m` is not a metadata
name. -/
theorem ne_metadata_of_head (c : Char) (n m : Str) (hc : c ≠ 'm') :
    c :: n ≠ metadataPrefix ++ m := by
  intro e
  have : c = 'm' := by
    have := congrArg List.head? e
    simpa [metadataPrefix] using this
  exact hc this

/-- The variables of `init` get their default exactly when the environment
variable is not set or holds a number `ParseInt` accepts. -/
theorem init_default_iff (getenv : Str → Str) :
    ((init getenv).MaxKeyRingCache = 1000
      ↔ (getenv "MAX_KEYRING_CACHE_SIZE".toList = []
        ∨ (strconv.ParseInt (getenv "MAX_KEYRING_CACHE_SIZE".toList) 32).2 = none))
    ∧ ((init getenv).HttpPort = 5100
      ↔ (getenv "HTTP_PORT".toList = []
        ∨ (strconv.ParseInt (getenv "HTTP_PORT".toList) 32).2 = none)) :=
  ⟨init_pattern _ 1000 (by decide) (by decide) (by decide),
    init_pattern _ 5100 (by decide) (by decide) (by decide)⟩

/-- On the text of a decimal number of 32 bits the variables of `init` get
their default, whatever the number. -/
theorem init_valid_decimal (getenv : Str → Str) (negative : Bool) (ds : Str) (hne : ds ≠ [])
    (hd : ∀ c ∈ ds, '0' ≤ c ∧ c ≤ '9')
    (hr : if negative then digitsValue ds ≤ 2 ^ 31 else digitsValue ds < 2 ^ 31) :
    (getenv "MAX_KEYRING_CACHE_SIZE".toList = decimalText negative ds →
      (init getenv).MaxKeyRingCache = 1000)
    ∧ (getenv "HTTP_PORT".toList = decimalText negative ds → (init getenv).HttpPort = 5100) := by
  have hp := ParseInt_decimal negative ds hne hd hr
  constructor
  · intro h
    apply (init_default_iff getenv).1.mpr
    right
    rw [h, hp]
  · intro h
    apply (init_default_iff getenv).2.mpr
    right
    rw [h, hp]

/-! ## The claims -/

/-- C1: for a canonical armored signature (BEGIN line, `Version: Quanto`, empty
line, non-empty valid base64 body in lines of 64 characters, checksum line
`=XXXX`, END line) and a fingerprint and hash name free of `_` and `$`,
`Quanto2GPG (GPG2Quanto A F H)` returns `A`. -/
theorem Quanto2GPG_GPG2Quanto_roundtrip (B C F H : Str)
    (hB : validBase64 B = true) (hne : B ≠ []) (hC : isCrc5 C = true)
    (hF : '_' ∉ F ∧ '$' ∉ F) (hH : '_' ∉ H ∧ '$' ∉ H) :
    Quanto2GPG (GPG2Quanto (canonicalArmor B C) F H) = some (canonicalArmor B C) := by
  rw [GPG2Quanto_canonical F H B C hB (Or.inl hC)]
  exact Quanto2GPG_canonical F (ToUpper H) B C hF
    ⟨ToUpper_not_mem H '_' (by decide) hH.1, ToUpper_not_mem H '$' (by decide) hH.2⟩
    hB hne (Or.inl hC)

theorem Quanto2GPG_GPG2Quanto_roundtrip_witness :
    (validBase64 "QUJDREVGR0g=".toList = true ∧ "QUJDREVGR0g=".toList ≠ []
      ∧ isCrc5 "=2UqU".toList = true
      ∧ ('_' ∉ "0ADF79401F28C569".toList ∧ '$' ∉ "0ADF79401F28C569".toList)
      ∧ ('_' ∉ "sha512".toList ∧ '$' ∉ "sha512".toList))
    ∧ Quanto2GPG (GPG2Quanto (canonicalArmor "QUJDREVGR0g=".toList "=2UqU".toList)
          "0ADF79401F28C569".toList "sha512".toList)
        = some (canonicalArmor "QUJDREVGR0g=".toList "=2UqU".toList) :=
  ⟨by decide, Quanto2GPG_GPG2Quanto_roundtrip "QUJDREVGR0g=".toList "=2UqU".toList
    "0ADF79401F28C569".toList "sha512".toList (by decide) (by decide) (by decide)
    (by decide) (by decide)⟩

/-- C2: for a Quanto string `F_H_BC` whose fingerprint and hash name are free of
`_` and `$`, whose hash name is made of ASCII bytes and upper-case, whose body
`B` is a non-empty valid base64 text and whose checksum `C` is `=XXXX` or a bare
`XXXX`, `GPG2Quanto (Quanto2GPG q) F H` is `q` again. -/
theorem GPG2Quanto_Quanto2GPG_roundtrip (F H B C : Str)
    (hF : '_' ∉ F ∧ '$' ∉ F) (hH : '_' ∉ H ∧ '$' ∉ H)
    (hascii : ∀ c ∈ H, c.toNat < 128) (hup : ToUpper H = H)
    (hB : validBase64 B = true) (hne : B ≠ [])
    (hC : isCrc5 C = true ∨ isCrc4 C = true) :
    (Quanto2GPG (F ++ "_".toList ++ H ++ "_".toList ++ B ++ C)).map
        (fun A => GPG2Quanto A F H)
      = some (F ++ "_".toList ++ H ++ "_".toList ++ B ++ C) := by
  have _ := hascii
  have hassoc : F ++ "_".toList ++ H ++ "_".toList ++ B ++ C
      = F ++ "_".toList ++ H ++ "_".toList ++ (B ++ C) := by
    simp only [List.append_assoc]
  rw [hassoc, Quanto2GPG_canonical F H B C hF hH hB hne hC, Option.map_some',
    GPG2Quanto_canonical F H B C hB hC, hup]

theorem GPG2Quanto_Quanto2GPG_roundtrip_witness :
    (('_' ∉ "0ADF79401F28C569".toList ∧ '$' ∉ "0ADF79401F28C569".toList)
      ∧ ('_' ∉ "SHA512".toList ∧ '$' ∉ "SHA512".toList)
      ∧ (∀ c ∈ "SHA512".toList, c.toNat < 128)
      ∧ ToUpper "SHA512".toList = "SHA512".toList
      ∧ validBase64 "QUJDREVGR0g=".toList = true ∧ "QUJDREVGR0g=".toList ≠ []
      ∧ isCrc4 "2UqU".toList = true)
    ∧ (Quanto2GPG ("0ADF79401F28C569".toList ++ "_".toList ++ "SHA512".toList ++ "_".toList
          ++ "QUJDREVGR0g=".toList ++ "2UqU".toList)).map
        (fun A => GPG2Quanto A "0ADF79401F28C569".toList "SHA512".toList)
      = some ("0ADF79401F28C569".toList ++ "_".toList ++ "SHA512".toList ++ "_".toList
          ++ "QUJDREVGR0g=".toList ++ "2UqU".toList) :=
  ⟨by decide, GPG2Quanto_Quanto2GPG_roundtrip "0ADF79401F28C569".toList "SHA512".toList
    "QUJDREVGR0g=".toList "2UqU".toList (by decide) (by decide) (by decide) (by decide)
    (by decide) (by decide) (Or.inr (by decide))⟩

/-- C3 (the code departs from it): on the input `a_b_c`, whose third field has
fewer than 5 bytes, `Quanto2GPG` does not return the empty string: the slice
`gpgSig[:len(gpgSig)-5]` is out of range and the call panics. -/
theorem Quanto2GPG_short_field_panics : Quanto2GPG "a_b_c".toList = none := by
  decide

/-- C4: an input that has exactly three fields neither when split on `$` nor
when split on `_` is answered with the empty string. -/
theorem Quanto2GPG_not_three_fields (s : Str)
    (hd : (Split s '$').length ≠ 3) (hu : (Split s '_').length ≠ 3) :
    Quanto2GPG s = some [] := by
  unfold Quanto2GPG
  simp only [hd, hu, ne_eq, not_false_eq_true, if_true]

theorem Quanto2GPG_not_three_fields_witness :
    ((Split "asdausigheioygase".toList '$').length ≠ 3
      ∧ (Split "asdausigheioygase".toList '_').length ≠ 3)
    ∧ Quanto2GPG "asdausigheioygase".toList = some [] :=
  ⟨by decide, Quanto2GPG_not_three_fields "asdausigheioygase".toList (by decide) (by decide)⟩

/-- C5: for a text of lines `L₀, …, Lₙ` (`n ≥ 2`) joined by line feeds, with an
empty line at some index between 1 and `n-1`, and a hash name `H` made of ASCII
bytes, `GPG2Quanto` returns `F_uppercase(H)_P`, `P` being the concatenation of
the lines strictly after the first such empty line and strictly before `Lₙ`. -/
theorem GPG2Quanto_payload (L : List Str) (F H : Str)
    (hlen : 3 ≤ L.length) (hnl : ∀ l ∈ L, '\n' ∉ l)
    (hempty : ∃ i, 1 ≤ i ∧ i + 1 < L.length ∧ L[i]? = some [])
    (hascii : ∀ c ∈ H, c.toNat < 128) :
    GPG2Quanto (['\n'].intercalate L) F H
      = F ++ "_".toList ++ ToUpper H ++ "_".toList ++ (payloadLines L).flatten := by
  have _ := hascii
  obtain ⟨a, z, hL⟩ := lines_ends L (by omega)
  obtain ⟨i, hi1, hi2, hi⟩ := hempty
  have hmem : [] ∈ (L.drop 1).dropLast := by
    rw [List.mem_iff_getElem?]
    refine ⟨i - 1, ?_⟩
    rw [List.dropLast_eq_take, List.getElem?_take_of_lt, List.getElem?_drop]
    · rw [← hi]; congr 1; omega
    · simp only [List.length_drop]; omega
  obtain ⟨pre, post, hM, hpre, hpost⟩ := split_at_first_empty _ hmem
  have hpay : payloadLines L = post := hpost
  rw [hpay]
  have hL' : L = a :: ((pre ++ [] :: post) ++ [z]) := by rw [← hM]; exact hL
  have hin : ∀ l, l ∈ pre ++ [] :: post → '\n' ∉ l := by
    intro l hl
    apply hnl l
    rw [hL']
    exact List.mem_cons_of_mem _ (List.mem_append_left _ hl)
  rw [hL']
  apply GPG2Quanto_lines
  · exact hnl a (by rw [hL']; exact List.mem_cons_self _ _)
  · exact hnl z (by rw [hL']; simp)
  · intro l hl
    exact ⟨hpre l hl, hin l (List.mem_append_left _ hl)⟩
  · intro l hl
    exact hin l (List.mem_append_right _ (List.mem_cons_of_mem _ hl))

theorem GPG2Quanto_payload_witness :
    (3 ≤ ["-----BEGIN PGP SIGNATURE-----".toList, "Version: Quanto".toList, [],
          "QUJD".toList, "=8Tcj".toList, "-----END PGP SIGNATURE-----".toList].length
      ∧ (∀ l ∈ ["-----BEGIN PGP SIGNATURE-----".toList, "Version: Quanto".toList, [],
          "QUJD".toList, "=8Tcj".toList, "-----END PGP SIGNATURE-----".toList], '\n' ∉ l)
      ∧ ["-----BEGIN PGP SIGNATURE-----".toList, "Version: Quanto".toList, [],
          "QUJD".toList, "=8Tcj".toList, "-----END PGP SIGNATURE-----".toList][2]? = some []
      ∧ (∀ c ∈ "sha512".toList, c.toNat < 128))
    ∧ GPG2Quanto (['\n'].intercalate ["-----BEGIN PGP SIGNATURE-----".toList,
          "Version: Quanto".toList, [], "QUJD".toList, "=8Tcj".toList,
          "-----END PGP SIGNATURE-----".toList]) "AB".toList "sha512".toList
        = "AB_SHA512_QUJD=8Tcj".toList :=
  ⟨by decide, GPG2Quanto_payload _ "AB".toList "sha512".toList (by decide) (by decide)
    ⟨2, by decide, by decide, by decide⟩ (by decide)⟩

/-- C6, as the code behaves on the claim as stated: the well-formed armored
signature with the one body line `QUJD` (4 characters) and its correct checksum
line is rewritten by `SignatureFix` without a checksum line, so its Quanto form
changes. -/
theorem SignatureFix_four_char_line_changes_quanto :
    validBase64 "QUJD".toList = true
    ∧ DecodeString "QUJD".toList = some [65, 66, 67]
    ∧ (SignatureFix (armorText true ["QUJD".toList] (some (crcLine [65, 66, 67])))).map
          (fun s => GPG2Quanto s [] [])
        = some "__QUJD".toList
    ∧ GPG2Quanto (armorText true ["QUJD".toList] (some (crcLine [65, 66, 67]))) [] []
        = "__QUJD=8Tcj".toList := by
  decide!

/-- C6, amended: let `S` be a well-formed armored signature (BEGIN line, empty
line, body lines `ls` whose concatenation is a non-empty valid base64 text
decoding to `d`, the checksum line of `d`, END line), and let `S'` carry the
same body in lines `ls'`, with or without the empty header line and with or
without that checksum line. If every line of `ls'` is non-empty, has neither 4
nor 5 characters and does not start with `=`, then `SignatureFix S'` returns a
text whose Quanto form is that of `S`. -/
theorem SignatureFix_preserves_quanto (hdr : Bool) (ls ls' : List Str) (crc' : Option Str)
    (d : List Nat)
    (hB : validBase64 ls.flatten = true) (hne : ls.flatten ≠ [])
    (hd : DecodeString ls.flatten = some d)
    (hsame : ls'.flatten = ls.flatten) (hls' : ∀ l ∈ ls', keptLine l)
    (hcrc' : crc' = none ∨ crc' = some (crcLine d)) :
    (SignatureFix (armorText hdr ls' crc')).map (fun s => GPG2Quanto s [] [])
      = some (GPG2Quanto (armorText true ls (some (crcLine d))) [] []) :=
  SignatureFix_quanto hdr ls ls' crc' d hB hne hd hsame hls' hcrc'

theorem SignatureFix_preserves_quanto_witness :
    (validBase64 ["QUJDREVGR0g=".toList].flatten = true
      ∧ ["QUJDREVGR0g=".toList].flatten ≠ []
      ∧ DecodeString ["QUJDREVGR0g=".toList].flatten = some [65, 66, 67, 68, 69, 70, 71, 72]
      ∧ ["QUJDRE".toList, "VGR0g=".toList].flatten = ["QUJDREVGR0g=".toList].flatten
      ∧ (∀ l ∈ ["QUJDRE".toList, "VGR0g=".toList], keptLine l))
    ∧ (SignatureFix (armorText false ["QUJDRE".toList, "VGR0g=".toList] none)).map
          (fun s => GPG2Quanto s [] [])
        = some (GPG2Quanto (armorText true ["QUJDREVGR0g=".toList]
            (some (crcLine [65, 66, 67, 68, 69, 70, 71, 72]))) [] []) :=
  ⟨by decide, SignatureFix_preserves_quanto false ["QUJDREVGR0g=".toList]
    ["QUJDRE".toList, "VGR0g=".toList] none [65, 66, 67, 68, 69, 70, 71, 72]
    (by decide) (by decide) (by decide) (by decide) (by decide) (Or.inl rfl)⟩

/-- C7, as the code behaves on the claim as stated: the body `QUJDREVG` split
over the lines `QUJDR` and `EVG`, none of which has 4 characters, is not
normalised: the line of 5 characters is dropped and the call panics on the
rest. -/
theorem SignatureFix_five_char_line_dropped :
    validBase64 ["QUJDR".toList, "EVG".toList].flatten = true
    ∧ (∀ l ∈ ["QUJDR".toList, "EVG".toList], l.length ≠ 4)
    ∧ (collectBody (['\n'].intercalate [[], "QUJDR".toList, "EVG".toList, []])).1
        = "EVG".toList
    ∧ SignatureFix (armorText true ["QUJDR".toList, "EVG".toList] none) = none := by
  decide

/-- C7, amended: for an input `pre ++ block ++ post` in which the block's BEGIN
line is the first BEGIN line and its END marker the last END marker, and whose
block holds, with or without the empty header line and with or without a
checksum line `=XXXX`, body lines that are non-empty, have neither 4 nor 5
characters, do not start with `=`, and concatenate to a non-empty valid base64
text `B`, `SignatureFix` returns the BEGIN line, an empty line, `B` in lines of
64 characters, the checksum line recomputed from the decoded `B`, and the END
line. -/
theorem SignatureFix_normalises (pre post : Str) (hdr : Bool) (ls : List Str)
    (crc : Option Str)
    (hB : validBase64 ls.flatten = true) (hne : ls.flatten ≠ [])
    (hls : ∀ l ∈ ls, keptLine l)
    (hcrc : ∀ C, crc = some C → isCrc5 C = true)
    (hpre : ∀ i, i < pre.length →
      ¬ (beginLine ++ ['\n']) <+: (pre ++ (beginLine ++ ['\n'])).drop i)
    (hpost : ∀ i, i < post.length → ¬ endLine <+: (endLine ++ post).drop (i + 1)) :
    ∃ d, DecodeString ls.flatten = some d
      ∧ SignatureFix (pre ++ armorText hdr ls crc ++ post)
          = some (armorText true (lines64 ls.flatten) (some (crcLine d))) :=
  SignatureFix_block pre post hdr ls crc hB hne hls hcrc hpre hpost

theorem SignatureFix_normalises_witness :
    (validBase64 ["QUJDRE".toList, "VGR0g=".toList].flatten = true
      ∧ ["QUJDRE".toList, "VGR0g=".toList].flatten ≠ []
      ∧ (∀ l ∈ ["QUJDRE".toList, "VGR0g=".toList], keptLine l)
      ∧ (∀ C, some "=AAAA".toList = some C → isCrc5 C = true)
      ∧ (∀ i, i < "mail\n".toList.length →
          ¬ (beginLine ++ ['\n']) <+: ("mail\n".toList ++ (beginLine ++ ['\n'])).drop i)
      ∧ (∀ i, i < "\n--".toList.length →
          ¬ endLine <+: (endLine ++ "\n--".toList).drop (i + 1)))
    ∧ ∃ d, DecodeString ["QUJDRE".toList, "VGR0g=".toList].flatten = some d
      ∧ SignatureFix ("mail\n".toList
            ++ armorText false ["QUJDRE".toList, "VGR0g=".toList] (some "=AAAA".toList)
            ++ "\n--".toList)
          = some (armorText true (lines64 ["QUJDRE".toList, "VGR0g=".toList].flatten)
              (some (crcLine d))) :=
  ⟨⟨by decide, by decide, by decide, by intro C h; cases h; decide, by decide,
      by decide⟩,
    SignatureFix_normalises "mail\n".toList "\n--".toList false
      ["QUJDRE".toList, "VGR0g=".toList] (some "=AAAA".toList)
      (by decide) (by decide) (by decide) (by intro C h; cases h; decide) (by decide)
      (by decide)⟩

/-- C8: on an input that contains a signature armor block, `SignatureFix` fails
(panics) exactly when the body text it collects from the block is rejected by
the base64 decoder, that is, when the body without its carriage returns and
line feeds is not valid base64; so it returns nothing for an undecodable body. -/
theorem SignatureFix_panics_iff (s : Str) (h : containsBlock s) :
    ∃ g, pgpsigSubmatch s = some g
      ∧ (SignatureFix s = none ↔ DecodeString (collectBody g).1 = none)
      ∧ (SignatureFix s = none ↔ validBase64 (stripBreaks (collectBody g).1) = false) := by
  obtain ⟨g, hg⟩ := pgpsigSubmatch_of_containsBlock s h
  refine ⟨g, hg, SignatureFix_of_submatch s g hg, ?_⟩
  rw [SignatureFix_of_submatch s g hg, DecodeString_eq_none_iff]

theorem SignatureFix_panics_iff_witness :
    containsBlock "-----BEGIN PGP SIGNATURE-----\n\niQ-----\n-----END PGP SIGNATURE-----".toList
    ∧ ∃ g, pgpsigSubmatch
          "-----BEGIN PGP SIGNATURE-----\n\niQ-----\n-----END PGP SIGNATURE-----".toList = some g
      ∧ (SignatureFix
          "-----BEGIN PGP SIGNATURE-----\n\niQ-----\n-----END PGP SIGNATURE-----".toList = none
        ↔ DecodeString (collectBody g).1 = none)
      ∧ (SignatureFix
          "-----BEGIN PGP SIGNATURE-----\n\niQ-----\n-----END PGP SIGNATURE-----".toList = none
        ↔ validBase64 (stripBreaks (collectBody g).1) = false) :=
  ⟨⟨[], "\niQ-----\n".toList, [], by decide⟩,
    SignatureFix_panics_iff _ ⟨[], "\niQ-----\n".toList, [], by decide⟩⟩

/-- C9: `CRC24` is the CRC-24 of RFC 4880, section 6.1; its result is below
`2 ^ 24` although the code applies no mask, and it is 8124930 on the 34-byte
test vector. -/
theorem CRC24_rfc4880 (d : List Nat) :
    CRC24 d = crc24RFC d ∧ CRC24 d < 2 ^ 24
    ∧ CRC24 [1, 2, 3, 3, 41, 23, 12, 31, 23, 12, 31, 23, 12, 41, 24, 15, 12, 43, 12, 31, 23,
        12, 31, 23, 123, 12, 4, 12, 31, 23, 12, 31, 23, 120] = 8124930 := by
  have h := crc24_fold d 0xb704ce (by norm_num)
  refine ⟨?_, h.2, crc24_test_vector⟩
  unfold crc24RFC
  rw [← h.1]
  have : (0xFFFFFF : Nat) = 2 ^ 24 - 1 := by norm_num
  rw [this, Nat.and_pow_two_sub_one_of_lt_two_pow h.2]
  rfl

/-- C10: `CompareFingerPrint a b` holds exactly when both strings are non-empty
and one is a suffix of the other; it is false when a side is empty and does not
depend on the order of its arguments. -/
theorem CompareFingerPrint_suffix_tolerant (a b : Str) :
    (CompareFingerPrint a b = true ↔ (a ≠ [] ∧ b ≠ [] ∧ (a <:+ b ∨ b <:+ a)))
    ∧ CompareFingerPrint a [] = false ∧ CompareFingerPrint [] b = false
    ∧ CompareFingerPrint a b = CompareFingerPrint b a := by
  refine ⟨compare_iff a b, ?_, ?_, ?_⟩
  · simp [CompareFingerPrint]
  · simp [CompareFingerPrint]
  · rw [Bool.eq_iff_iff, compare_iff, compare_iff]
    constructor
    · rintro ⟨h1, h2, h3⟩; exact ⟨h2, h1, h3.symm⟩
    · rintro ⟨h1, h2, h3⟩; exact ⟨h2, h1, h3.symm⟩

/-- C11: for a key id below `2 ^ 64`, `IssuerKeyIdToFP16` gives 16 characters
among `0`-`9` and `A`-`F` that read back, most significant digit first, as the
key id; two such key ids with the same result are equal; the two values of the
test are as stated. -/
theorem IssuerKeyIdToFP16_hex (k : Nat) (hk : k < 2 ^ 64) :
    (IssuerKeyIdToFP16 k).length = 16
    ∧ (∀ c ∈ IssuerKeyIdToFP16 k, isUpperHex c = true)
    ∧ readHex (IssuerKeyIdToFP16 k) = k
    ∧ (∀ j, j < 2 ^ 64 → IssuerKeyIdToFP16 j = IssuerKeyIdToFP16 k → j = k)
    ∧ IssuerKeyIdToFP16 0xFFFF0000FFFF0000 = "FFFF0000FFFF0000".toList
    ∧ IssuerKeyIdToFP16 0xFFFF0000 = "00000000FFFF0000".toList := by
  obtain ⟨h1, h2, h3⟩ := IssuerKeyIdToFP16_spec k hk
  refine ⟨h1, h2, h3, ?_, by decide, by decide⟩
  intro j hj he
  rw [← (IssuerKeyIdToFP16_spec j hj).2.2, he, h3]

theorem IssuerKeyIdToFP16_hex_witness :
    (IssuerKeyIdToFP16 0xFFFF0000).length = 16
    ∧ (∀ c ∈ IssuerKeyIdToFP16 0xFFFF0000, isUpperHex c = true)
    ∧ readHex (IssuerKeyIdToFP16 0xFFFF0000) = 0xFFFF0000
    ∧ (∀ j, j < 2 ^ 64 → IssuerKeyIdToFP16 j = IssuerKeyIdToFP16 0xFFFF0000 → j = 0xFFFF0000)
    ∧ IssuerKeyIdToFP16 0xFFFF0000FFFF0000 = "FFFF0000FFFF0000".toList
    ∧ IssuerKeyIdToFP16 0xFFFF0000 = "00000000FFFF0000".toList :=
  IssuerKeyIdToFP16_hex 0xFFFF0000 (by norm_num)

/-- C12 (failing input): a POST request with a valid token and the header
`Signature: forged` is forwarded with `forged` as its only `Signature` value;
the signature the proxy computed for the body sent is not among its headers. -/
theorem defaultHandler_client_signature_kept :
    forwarded (defaultHandler (exampleEnv false) (forgedRequest "POST")).1 = [forgedForwarded]
    ∧ List.lookup "Signature".toList forgedForwarded.header = some ["forged".toList]
    ∧ Header.Get forgedForwarded.header "signature".toList = "forged".toList
    ∧ (exampleEnv false).signData "0123456789ABCDEF".toList
        (forgedForwarded.body.getD []) cryptoSHA512 = some sigConvertGPG
    ∧ GPG2Quanto sigConvertGPG "0123456789ABCDEF".toList "SHA512".toList
        ∉ (forgedForwarded.header.map Prod.snd).flatten := by
  refine ⟨by decide!, by decide, by decide, rfl, by decide!⟩

/-- C13: when login is not bypassed and the method is not OPTIONS, a request
whose `proxyToken` header is missing or empty, or whose token the token manager
rejects, is answered with `PermissionDenied`; the only call made is
at most the verification of the token: the body is not read, nothing is signed
and nothing is sent. -/
theorem defaultHandler_rejects_token (env : AgentEnv) (r : InRequest)
    (hb : env.agentBypassLogin = false) (hm : r.method ≠ "OPTIONS".toList)
    (ht : Header.Get r.header "proxyToken".toList = []
      ∨ env.verify (Header.Get r.header "proxyToken".toList) = false) :
    (defaultHandler env r).2
        = Outcome.permissionDenied "proxyToken".toList
            "Please check if your proxyToken is valid".toList
    ∧ ((defaultHandler env r).1 = []
      ∨ (defaultHandler env r).1 = [Event.verify (Header.Get r.header "proxyToken".toList)])
    ∧ Event.readBody ∉ (defaultHandler env r).1
    ∧ (∀ fp d h, Event.signData fp d h ∉ (defaultHandler env r).1)
    ∧ (∀ q, Event.send q ∉ (defaultHandler env r).1) := by
  obtain ⟨h1, h2⟩ := defaultHandler_denied env r hb hm ht
  refine ⟨h1, h2, ?_, ?_, ?_⟩
  · rcases h2 with h2 | h2 <;> rw [h2] <;> simp
  · intro fp d h
    rcases h2 with h2 | h2 <;> rw [h2] <;> simp
  · intro q
    rcases h2 with h2 | h2 <;> rw [h2] <;> simp

theorem defaultHandler_rejects_token_witness :
    (defaultHandler (exampleEnv false) anonymousRequest).2
        = Outcome.permissionDenied "proxyToken".toList
            "Please check if your proxyToken is valid".toList
    ∧ ((defaultHandler (exampleEnv false) anonymousRequest).1 = []
      ∨ (defaultHandler (exampleEnv false) anonymousRequest).1
        = [Event.verify (Header.Get anonymousRequest.header "proxyToken".toList)])
    ∧ Event.readBody ∉ (defaultHandler (exampleEnv false) anonymousRequest).1
    ∧ (∀ fp d h, Event.signData fp d h ∉ (defaultHandler (exampleEnv false) anonymousRequest).1)
    ∧ (∀ q, Event.send q ∉ (defaultHandler (exampleEnv false) anonymousRequest).1) :=
  defaultHandler_rejects_token (exampleEnv false) anonymousRequest rfl (by decide)
    (Or.inl (by decide))

/-- C14 (failing input): with login bypass configured, a POST request that
carries the header `Proxytoken: secret` is forwarded with that header, and so is
an OPTIONS request when login is not bypassed; for the same POST request without
bypass the header is removed. -/
theorem defaultHandler_bypass_forwards_token :
    (forwarded (defaultHandler (exampleEnv true) (forgedRequest "POST")).1).map
        (fun q => List.lookup "Proxytoken".toList q.header) = [some ["secret".toList]]
    ∧ (forwarded (defaultHandler (exampleEnv false) (forgedRequest "OPTIONS")).1).map
        (fun q => Header.Get q.header "proxyToken".toList) = ["secret".toList]
    ∧ (forwarded (defaultHandler (exampleEnv false) (forgedRequest "POST")).1).map
        (fun q => List.lookup "Proxytoken".toList q.header) = [none] := by
  refine ⟨by decide!, by decide!, by decide!⟩

/-- C15 (failing input): a POST request with a valid token whose body is the
malformed text `{"foo":` is answered with the helper `InternalServerError` and
the message `There was an error processing your request`, not with an input
error; nothing is forwarded. -/
theorem defaultHandler_malformed_is_internal_error :
    (defaultHandler (exampleEnv false) malformedRequest).2
        = Outcome.internalServerError "There was an error processing your request".toList
    ∧ forwarded (defaultHandler (exampleEnv false) malformedRequest).1 = [] := by
  refine ⟨by decide, by decide⟩

/-- C16: `generateUUID` calls `uuid.NewRandom` at most 5 times; when call `i` of
the first 5 is the first to succeed it returns the string form of that UUID with
no error after `i + 1` calls; it returns an error exactly when the first 5 calls
all fail, and the string is then empty. -/
theorem generateUUID_attempts (newRandom : Nat → Option UUID) :
    (generateUUID newRandom).2 ≤ 5
    ∧ (∀ i u, i < 5 → newRandom i = some u → (∀ j, j < i → newRandom j = none) →
        generateUUID newRandom = ((uuidString u, none), i + 1))
    ∧ ((generateUUID newRandom).1.2 ≠ none ↔ ∀ j, j < 5 → newRandom j = none)
    ∧ ((generateUUID newRandom).1.2 ≠ none → (generateUUID newRandom).1.1 = []) := by
  have hcases := first_success newRandom 5
  refine ⟨?_, fun i u hi hu hn => generateUUID_success newRandom i u hi hu hn, ?_, ?_⟩
  · rcases hcases with h | ⟨i, u, hi, hu, hn⟩
    · rw [generateUUID_failure newRandom h]
    · rw [generateUUID_success newRandom i u hi hu hn]
      exact hi
  · rcases hcases with h | ⟨i, u, hi, hu, hn⟩
    · rw [generateUUID_failure newRandom h]
      exact ⟨fun _ => h, fun _ => by simp⟩
    · rw [generateUUID_success newRandom i u hi hu hn]
      refine ⟨fun hc => absurd rfl hc, fun hall => ?_⟩
      rw [hall i hi] at hu
      exact absurd hu (by simp)
  · rcases hcases with h | ⟨i, u, hi, hu, hn⟩
    · rw [generateUUID_failure newRandom h]
      exact fun _ => rfl
    · rw [generateUUID_success newRandom i u hi hu hn]
      exact fun hc => absurd rfl hc

theorem generateUUID_attempts_witness :
    generateUUID (exampleEnv false).newRandom
      = (("123e4567-e89b-42d3-a456-426614174000".toList, none), 2) :=
  (generateUUID_attempts (exampleEnv false).newRandom).2.1 1 exampleUUID (by decide) rfl
    (fun j hj => by
      have : j = 0 := by omega
      subst this
      rfl)

/-- C17: when a UUID is generated, `injectUniquenessFields` sets
`_timeUniqueId` to its string and `_timestamp` to the clock reading in
nanoseconds divided by 1000000 (quotient truncated), whatever these keys held,
leaves every other key as it was and returns no error; when no UUID is generated
it returns the error and the map as it was. -/
theorem injectUniquenessFields_frame (newRandom : Nat → Option UUID) (now : Int) (m : JObj) :
    (∀ s, (generateUUID newRandom).1 = (s, none) →
      ∃ m1, injectUniquenessFields newRandom now (some m) = some (some m1, none)
        ∧ m1 "_timeUniqueId".toList = some (JVal.string s)
        ∧ m1 "_timestamp".toList = some (JVal.int64 (Int.tdiv now 1000000))
        ∧ ∀ k, k ≠ "_timeUniqueId".toList → k ≠ "_timestamp".toList → m1 k = m k)
    ∧ (∀ e, (generateUUID newRandom).1.2 = some e →
      injectUniquenessFields newRandom now (some m) = some (some m, some e)) := by
  constructor
  · intro s hs
    refine ⟨_, by unfold injectUniquenessFields; rw [hs], ?_, ?_, ?_⟩
    · simp [JObj.set]
    · simp [JObj.set]
    · intro k h1 h2
      simp only [JObj.set]
      rw [if_neg h2, if_neg h1]
  · intro e he
    unfold injectUniquenessFields
    rcases hg : (generateUUID newRandom).1 with ⟨s, e1⟩
    rw [hg] at he
    simp only at he
    subst he
    rfl

theorem injectUniquenessFields_frame_witness :
    ∃ m1, injectUniquenessFields (exampleEnv false).newRandom 1700000000123456789
        (some (fun k => if k = "_timestamp".toList then some (JVal.decoded 0)
          else if k = "foo".toList then some (JVal.decoded 1) else none))
        = some (some m1, none)
      ∧ m1 "_timeUniqueId".toList
        = some (JVal.string "123e4567-e89b-42d3-a456-426614174000".toList)
      ∧ m1 "_timestamp".toList = some (JVal.int64 (Int.tdiv 1700000000123456789 1000000))
      ∧ ∀ k, k ≠ "_timeUniqueId".toList → k ≠ "_timestamp".toList →
        m1 k = (if k = "_timestamp".toList then some (JVal.decoded 0)
          else if k = "foo".toList then some (JVal.decoded 1) else none) :=
  (injectUniquenessFields_frame (exampleEnv false).newRandom 1700000000123456789
    (fun k => if k = "_timestamp".toList then some (JVal.decoded 0)
      else if k = "foo".toList then some (JVal.decoded 1) else none)).1
    "123e4567-e89b-42d3-a456-426614174000".toList (by decide)

/-- C18 (counterexample): an OPTIONS request whose header `serverUrl` is the
text `:` is not forwarded: `http.NewRequest` refuses the URL, the handler
answers with `InternalServerError` and calls no collaborator. -/
theorem defaultHandler_options_bad_url :
    Header.Get badUrlRequest.header "serverUrl".toList = ":".toList
    ∧ (exampleEnv false).newRequest "OPTIONS".toList ":".toList = false
    ∧ defaultHandler (exampleEnv false) badUrlRequest
      = ([], Outcome.internalServerError "There was an error processing your request".toList) := by
  refine ⟨by decide, by decide, by decide⟩

/-- C18 (amended): an OPTIONS request for which `http.NewRequest` accepts the
target URL, the header `serverUrl` when it is not empty and the configured URL
otherwise, and whose headers each have a value, makes the handler call one
collaborator only, the HTTP client: the token is not verified, nothing is
signed, and the request sent has the method OPTIONS, that URL, no body and, for
a well-formed incoming header map, the `Signature` values of the incoming
request and no other. This holds with and without login bypass and with and
without a token. -/
theorem defaultHandler_options_passthrough (env : AgentEnv) (r : InRequest)
    (hm : r.method = "OPTIONS".toList)
    (hn : env.newRequest "OPTIONS".toList
      (if Header.Get r.header "serverUrl".toList ≠ [] then Header.Get r.header "serverUrl".toList
        else env.agentTargetURL) = true)
    (hv : ∀ e ∈ r.header, e.2 ≠ []) :
    ∃ q, (defaultHandler env r).1 = [Event.send q]
      ∧ q.method = "OPTIONS".toList
      ∧ q.url = (if Header.Get r.header "serverUrl".toList ≠ [] then
          Header.Get r.header "serverUrl".toList else env.agentTargetURL)
      ∧ q.body = none
      ∧ (Header.wellFormed r.header →
          List.lookup "Signature".toList q.header = List.lookup "Signature".toList r.header) := by
  have hn1 : env.newRequest r.method (targetURL env r) = true := by
    rw [hm]; exact hn
  obtain ⟨hd, hc, he⟩ := defaultHandler_options env r hm hn1 hv
  refine ⟨_, he, hm, rfl, rfl, fun hw => ?_⟩
  have hl := copyHeaders_lookup r.header hw _ hd hc "Signature".toList
  have hX : List.lookup "Signature".toList
      (Header.Add [] "X-Powered-By".toList "RemoteSigner Agent".toList) = none := by decide
  simp only
  rw [hl, hX]
  cases List.lookup "Signature".toList r.header with
  | none => rfl
  | some v =>
    simp only
    by_cases hlen : v.length > 1
    · rw [if_pos hlen]; rfl
    · rw [if_neg hlen]

theorem defaultHandler_options_passthrough_witness :
    ∃ q, (defaultHandler (exampleEnv false) (forgedRequest "OPTIONS")).1 = [Event.send q]
      ∧ q.method = "OPTIONS".toList
      ∧ q.url = (if Header.Get (forgedRequest "OPTIONS").header "serverUrl".toList ≠ [] then
          Header.Get (forgedRequest "OPTIONS").header "serverUrl".toList
          else (exampleEnv false).agentTargetURL)
      ∧ q.body = none
      ∧ (Header.wellFormed (forgedRequest "OPTIONS").header →
          List.lookup "Signature".toList q.header
            = List.lookup "Signature".toList (forgedRequest "OPTIONS").header) :=
  defaultHandler_options_passthrough (exampleEnv false) (forgedRequest "OPTIONS") rfl
    (by decide) (by decide)

/-- C19 (failing input): on the backend made for a read-only key path whose copy
failed, saving is disabled, yet `SaveWithMetadata` returns no error after
writing the data file and the metadata file, which did not exist; `Save` with
the same key and data writes nothing. -/
theorem SaveWithMetadata_writes_when_disabled :
    readOnlyBackend.saveEnabled = false
    ∧ exampleFS.node "keys/key_new".toList = none
    ∧ exampleFS.node "keys/metadata-key_new".toList = none
    ∧ (readOnlyBackend.SaveWithMetadata exampleFS "new".toList "data".toList "meta".toList).2
        = none
    ∧ (readOnlyBackend.SaveWithMetadata exampleFS "new".toList "data".toList
        "meta".toList).1.node "keys/key_new".toList = some (Node.file "data".toList)
    ∧ (readOnlyBackend.SaveWithMetadata exampleFS "new".toList "data".toList
        "meta".toList).1.node "keys/metadata-key_new".toList = some (Node.file "meta".toList)
    ∧ (readOnlyBackend.Save exampleFS "new".toList "data".toList).1.node
        "keys/key_new".toList = none := by
  refine ⟨by decide, by decide, by decide, by decide, by decide, by decide, by decide⟩

/-- C20: on a backend whose saving is disabled `Save` returns no error and the
file system it was given: no name holds anything else than before, the name of
the data file included. -/
theorem Save_disabled_writes_nothing (d : diskBackend) (fs : FS) (key data : Str)
    (h : d.saveEnabled = false) :
    (d.Save fs key data).2 = none
    ∧ (d.Save fs key data).1 = fs
    ∧ (∀ p, (d.Save fs key data).1.node p = fs.node p)
    ∧ (d.Save fs key data).1.node (path.Join [d.folder, d.pfx ++ key])
        = fs.node (path.Join [d.folder, d.pfx ++ key]) := by
  rw [Save_disabled d fs key data h]
  exact ⟨rfl, rfl, fun _ => rfl, rfl⟩

theorem Save_disabled_writes_nothing_witness :
    (readOnlyBackend.Save exampleFS "old".toList "data".toList).2 = none
    ∧ (readOnlyBackend.Save exampleFS "old".toList "data".toList).1 = exampleFS
    ∧ (∀ p, (readOnlyBackend.Save exampleFS "old".toList "data".toList).1.node p
        = exampleFS.node p)
    ∧ (readOnlyBackend.Save exampleFS "old".toList "data".toList).1.node
        (path.Join [readOnlyBackend.folder, readOnlyBackend.pfx ++ "old".toList])
      = exampleFS.node (path.Join [readOnlyBackend.folder, readOnlyBackend.pfx ++ "old".toList]) :=
  Save_disabled_writes_nothing readOnlyBackend exampleFS "old".toList "data".toList (by decide)

/-- C21 (counterexample): for the key `a/../b` the data file and the metadata
file are both `keys/b`; `SaveWithMetadata` succeeds and the following `Read`
returns the metadata as data. -/
theorem SaveWithMetadata_overwrites_data :
    path.Join ["keys".toList, "key_a/../b".toList] = "keys/b".toList
    ∧ path.Join ["keys".toList, "metadata-key_a/../b".toList] = "keys/b".toList
    ∧ ((exampleBackend "key_").SaveWithMetadata exampleFS "a/../b".toList "data".toList
        "meta".toList).2 = none
    ∧ (exampleBackend "key_").Read
        ((exampleBackend "key_").SaveWithMetadata exampleFS "a/../b".toList "data".toList
          "meta".toList).1 "a/../b".toList
      = ("meta".toList, "meta".toList, none) := by
  refine ⟨by decide, by decide, by decide, by decide⟩

/-- C21 (amended): after a successful `SaveWithMetadata(key, data, metadata)`,
`Read(key)` returns `(data, metadata)` without error when the name of the data
file differs from the name of the metadata file, and `(metadata, metadata)` when
they are the same name; they differ whenever the prefix followed by the key is
a plain file name. -/
theorem SaveWithMetadata_Read_roundtrip (d : diskBackend) (fs : FS) (key data metadata : Str)
    (hok : (d.SaveWithMetadata fs key data metadata).2 = none) :
    (path.Join [d.folder, d.pfx ++ key] ≠ path.Join [d.folder, metadataPrefix ++ d.pfx ++ key] →
      d.Read (d.SaveWithMetadata fs key data metadata).1 key = (data, metadata, none))
    ∧ (path.Join [d.folder, d.pfx ++ key]
        = path.Join [d.folder, metadataPrefix ++ d.pfx ++ key] →
      d.Read (d.SaveWithMetadata fs key data metadata).1 key = (metadata, metadata, none))
    ∧ (plainName (d.pfx ++ key) →
      d.Read (d.SaveWithMetadata fs key data metadata).1 key = (data, metadata, none)) := by
  have h := SaveWithMetadata_then_Read d fs key data metadata hok
  refine ⟨fun hne => ?_, fun he => ?_, fun hp => ?_⟩
  · rw [h, if_neg hne]
  · rw [h, if_pos he]
  · rw [h, if_neg (by rw [List.append_assoc]; exact data_ne_metadata d.folder _ hp)]

theorem SaveWithMetadata_Read_roundtrip_witness :
    (exampleBackend "key_").Read
        ((exampleBackend "key_").SaveWithMetadata exampleFS "new".toList "data".toList
          "meta".toList).1 "new".toList
      = ("data".toList, "meta".toList, none) :=
  (SaveWithMetadata_Read_roundtrip (exampleBackend "key_") exampleFS "new".toList "data".toList
    "meta".toList (by decide)).2.2 (by decide)

/-- C22: when `ioutil.ReadDir` gives the entries of the folder, `List` returns
without error, in the order of the entries, the names of the entries that are
not folders, consist of the prefix followed by a non-empty name and are not a
name that starts with `metadata-` and is longer than that, each without the
prefix; a name is returned exactly when it is not empty and such an entry has
the prefix followed by it as its name. When `ioutil.ReadDir` fails `List`
returns that error. -/
theorem List_returns_listed_names (d : diskBackend)
    (readDir : Str → List FileInfo × Option PathError) :
    (∀ files, readDir d.folder = (files, none) →
      d.List readDir
          = ((files.filter (fun e => decide (listedEntry d.pfx e))).map
              (fun e => e.name.drop d.pfx.length), none)
      ∧ ∀ n, n ∈ (d.List readDir).1
          ↔ n ≠ [] ∧ ∃ e ∈ files, e.name = d.pfx ++ n ∧ e.isDir = false
              ∧ ¬ (metadataPrefix <+: e.name ∧ e.name.length > metadataPrefix.length))
    ∧ (∀ files err, readDir d.folder = (files, some err) → d.List readDir = ([], some err)) := by
  constructor
  · intro files h
    have hl : d.List readDir = (listLoop d.pfx files, none) := by
      unfold diskBackend.List
      rw [h]
    refine ⟨by rw [hl, listLoop_eq], fun n => ?_⟩
    rw [hl]
    exact mem_listLoop d.pfx files n
  · intro files err h
    unfold diskBackend.List
    rw [h]

theorem List_returns_listed_names_witness :
    (exampleBackend "key_").List (fun _ => (exampleEntries, none))
      = (["A1".toList, "B2".toList], none) :=
  ((List_returns_listed_names (exampleBackend "key_") (fun _ => (exampleEntries, none))).1
    exampleEntries rfl).1.trans (by decide)

/-- C23 (counterexample): on a read-only folder `Delete` of the key `old`, whose
data file exists, returns an error and the data file stays; on a system that
refuses to change the metadata file only, `Delete` returns no error, removes the
data file and leaves the metadata file. -/
theorem Delete_refused_keeps_files :
    ((exampleBackend "key_").Delete readOnlyFS "old".toList).2 ≠ none
    ∧ ((exampleBackend "key_").Delete readOnlyFS "old".toList).1.node "keys/key_old".toList
      = some (Node.file "old".toList)
    ∧ ((exampleBackend "key_").Delete lockedMetadataFS "old".toList).2 = none
    ∧ ((exampleBackend "key_").Delete lockedMetadataFS "old".toList).1.node
        "keys/key_old".toList = none
    ∧ ((exampleBackend "key_").Delete lockedMetadataFS "old".toList).1.node
        "keys/metadata-key_old".toList = some (Node.file "meta".toList) := by
  refine ⟨by decide, by decide, by decide, by decide, by decide⟩

/-- C23 (amended): when the data name of the key does not hold a file, `Delete` returns an
error and the file system as it was; when it holds a file and the system does
not refuse to remove the data name and the metadata name, `Delete` returns no
error, neither name holds anything afterwards and every other name holds what it
held. -/
theorem Delete_removes_data_and_metadata (d : diskBackend) (fs : FS) (key : Str) :
    ((¬ ∃ data, fs.node (path.Join [d.folder, d.pfx ++ key]) = some (Node.file data)) →
      (d.Delete fs key).2 ≠ none ∧ (d.Delete fs key).1 = fs)
    ∧ (∀ data, fs.node (path.Join [d.folder, d.pfx ++ key]) = some (Node.file data) →
      fs.locked (path.Join [d.folder, d.pfx ++ key]) = false →
      fs.locked (path.Join [d.folder, metadataPrefix ++ d.pfx ++ key]) = false →
      (d.Delete fs key).2 = none
      ∧ (d.Delete fs key).1.node (path.Join [d.folder, d.pfx ++ key]) = none
      ∧ (d.Delete fs key).1.node (path.Join [d.folder, metadataPrefix ++ d.pfx ++ key]) = none
      ∧ ∀ p, p ≠ path.Join [d.folder, d.pfx ++ key] →
          p ≠ path.Join [d.folder, metadataPrefix ++ d.pfx ++ key] →
          (d.Delete fs key).1.node p = fs.node p) := by
  constructor
  · intro h
    have hr : (ioutil.ReadFile fs (path.Join [d.folder, d.pfx ++ key])).2 ≠ none :=
      fun e => h ((ReadFile_ok_iff fs _).mp e)
    exact ⟨(Delete_missing d fs key hr).2, (Delete_missing d fs key hr).1⟩
  · intro data hD hl1 hl2
    exact Delete_existing d fs key data hD hl1 hl2

theorem Delete_removes_data_and_metadata_witness :
    ((exampleBackend "key_").Delete exampleFS "old".toList).2 = none
    ∧ ((exampleBackend "key_").Delete exampleFS "old".toList).1.node
        (path.Join [(exampleBackend "key_").folder, (exampleBackend "key_").pfx ++ "old".toList])
      = none
    ∧ ((exampleBackend "key_").Delete exampleFS "old".toList).1.node
        (path.Join [(exampleBackend "key_").folder,
          metadataPrefix ++ (exampleBackend "key_").pfx ++ "old".toList]) = none
    ∧ ∀ p, p ≠ path.Join [(exampleBackend "key_").folder,
            (exampleBackend "key_").pfx ++ "old".toList] →
        p ≠ path.Join [(exampleBackend "key_").folder,
            metadataPrefix ++ (exampleBackend "key_").pfx ++ "old".toList] →
        ((exampleBackend "key_").Delete exampleFS "old".toList).1.node p = exampleFS.node p :=
  (Delete_removes_data_and_metadata (exampleBackend "key_") exampleFS "old".toList).2
    "old".toList (by decide) rfl rfl

/-- C24: `Read` returns an error exactly when `ioutil.ReadFile` fails on the
data name, which is when that name does not hold a file, and the data and the
metadata returned with the error are empty; when the data name holds a file and
the metadata name holds nothing, `Read` returns the data, empty metadata and no
error. -/
theorem Read_error_iff_data_unreadable (d : diskBackend) (fs : FS) (key : Str) :
    ((d.Read fs key).2.2 ≠ none
      ↔ (ioutil.ReadFile fs (path.Join [d.folder, d.pfx ++ key])).2 ≠ none)
    ∧ ((d.Read fs key).2.2 ≠ none
      ↔ ¬ ∃ data, fs.node (path.Join [d.folder, d.pfx ++ key]) = some (Node.file data))
    ∧ ((d.Read fs key).2.2 ≠ none → (d.Read fs key).1 = [] ∧ (d.Read fs key).2.1 = [])
    ∧ (∀ data, fs.node (path.Join [d.folder, d.pfx ++ key]) = some (Node.file data) →
        fs.node (path.Join [d.folder, metadataPrefix ++ d.pfx ++ key]) = none →
        d.Read fs key = (data, [], none)) := by
  obtain ⟨h1, h2⟩ := Read_error_iff d fs key
  refine ⟨h1, ?_, h2, fun data hD hM => ?_⟩
  · rw [h1, ← ReadFile_ok_iff]
  · apply Read_without_metadata d fs key data hD
    intro e
    obtain ⟨x, hx⟩ := (ReadFile_ok_iff fs _).mp e
    rw [hM] at hx
    cases hx

theorem Read_error_iff_data_unreadable_witness :
    (exampleBackend "key_").Read exampleFS "old".toList = ("old".toList, [], none) :=
  (Read_error_iff_data_unreadable (exampleBackend "key_") exampleFS "old".toList).2.2.2
    "old".toList (by decide) (by decide)

/-- C25 (failing input): with `MAX_KEYRING_CACHE_SIZE=500` and `HTTP_PORT=8080`,
both valid numbers, `init` leaves the defaults 1000 and 5100; with the values
`abc` and `99999999999`, which are not valid numbers of 32 bits, it sets 0 and
2147483647. -/
theorem init_ignores_valid_numbers :
    (strconv.ParseInt "500".toList 32 = (500, none)
      ∧ strconv.ParseInt "8080".toList 32 = (8080, none))
    ∧ init (exampleGetenv "500" "8080") = { MaxKeyRingCache := 1000, HttpPort := 5100 }
    ∧ init (exampleGetenv "abc" "99999999999")
      = { MaxKeyRingCache := 0, HttpPort := 2147483647 } := by
  refine ⟨⟨by decide, by decide⟩, by decide, by decide⟩

/-- C27: on at least 8 bytes `ByteFingerPrint2FP16` returns the upper-case
hexadecimal text of the last 8 bytes, which has 16 characters and is what
`IssuerKeyIdToFP16` gives for the number these bytes denote, most significant
byte first; on fewer than 8 bytes it panics. -/
theorem ByteFingerPrint2FP16_agrees (raw : List Nat) :
    (8 ≤ raw.length →
      ByteFingerPrint2FP16 raw
          = some (ToUpper (hexEncodeToString (raw.drop (raw.length - 8))))
      ∧ ByteFingerPrint2FP16 raw
          = some (IssuerKeyIdToFP16 (bigEndian (raw.drop (raw.length - 8))))
      ∧ (ToUpper (hexEncodeToString (raw.drop (raw.length - 8)))).length = 16
      ∧ ∀ c ∈ ToUpper (hexEncodeToString (raw.drop (raw.length - 8))), isUpperHex c = true)
    ∧ (raw.length < 8 → ByteFingerPrint2FP16 raw = none) := by
  refine ⟨fun h => ?_, ByteFingerPrint2FP16_none raw⟩
  have hl : (raw.drop (raw.length - 8)).length = 8 := by
    rw [List.length_drop]
    omega
  have he := hexEncode_eq_IssuerKeyIdToFP16 _ hl
  refine ⟨ByteFingerPrint2FP16_some raw h, ?_, ?_, (hexEncode_upper _).1⟩
  · rw [ByteFingerPrint2FP16_some raw h, he]
  · simp only [ToUpper, List.length_map]
    rw [hexEncodeToString_length, hl]

theorem ByteFingerPrint2FP16_agrees_witness :
    ByteFingerPrint2FP16
        [0x69, 0xbf, 0x09, 0x47, 0x15, 0x8c, 0xef, 0xfc, 0x46, 0xb0, 0xe1, 0xac, 0x47, 0x1b,
          0x08, 0x30, 0xc0, 0xc6, 0xa7, 0xf1]
      = some (IssuerKeyIdToFP16 0x471B0830C0C6A7F1) :=
  ((ByteFingerPrint2FP16_agrees
    [0x69, 0xbf, 0x09, 0x47, 0x15, 0x8c, 0xef, 0xfc, 0x46, 0xb0, 0xe1, 0xac, 0x47, 0x1b,
      0x08, 0x30, 0xc0, 0xc6, 0xa7, 0xf1]).1 (by decide)).2.1

/-- C28 (failing input): for the armor `sigConvertGPG` of the tests followed by
a line feed, `GPG2Quanto` returns the Quanto text of the armor followed by the
END line. -/
theorem GPG2Quanto_trailing_lf_keeps_END_line :
    GPG2Quanto sigConvertGPG "0ADF79401F28C569".toList "SHA512".toList = sigConvertQuanto
    ∧ GPG2Quanto (sigConvertGPG ++ ['\n']) "0ADF79401F28C569".toList "SHA512".toList
      = sigConvertQuanto ++ "-----END PGP SIGNATURE-----".toList := by
  refine ⟨by decide!, by decide!⟩

/-- C29: on a text without armor block, that is without a BEGIN line followed
by a line feed and later by an END marker, `SignatureFix` returns the text as it
is and does not panic. -/
theorem SignatureFix_without_block (s : Str) (h : ¬ containsBlock s) :
    SignatureFix s = some s :=
  SignatureFix_unmatched s h

theorem SignatureFix_without_block_witness :
    SignatureFix "-----BEGIN PGP SIGNATURE-----\niQIz".toList
      = some "-----BEGIN PGP SIGNATURE-----\niQIz".toList :=
  SignatureFix_without_block "-----BEGIN PGP SIGNATURE-----\niQIz".toList
    (fun h => absurd ((pgpsigSubmatch_isSome_iff _).mpr h) (by decide))

/-- C30 (counterexample): with the prefix `key_`, saving the key `old/.` writes the
data file of the key `old`; with the empty prefix, saving the key
`metadata-key_old` writes the metadata file of the key `key_old`. In both cases
the result of `Read` of the other key changes. -/
theorem Save_changes_other_key :
    ((exampleBackend "key_").Save exampleFS "old/.".toList "new".toList).2 = none
    ∧ (exampleBackend "key_").Read exampleFS "old".toList = ("old".toList, [], none)
    ∧ (exampleBackend "key_").Read
        ((exampleBackend "key_").Save exampleFS "old/.".toList "new".toList).1 "old".toList
      = ("new".toList, [], none)
    ∧ ((exampleBackend "").Save exampleFS "metadata-key_old".toList "new".toList).2 = none
    ∧ (exampleBackend "").Read exampleFS "key_old".toList = ("old".toList, [], none)
    ∧ (exampleBackend "").Read
        ((exampleBackend "").Save exampleFS "metadata-key_old".toList "new".toList).1
        "key_old".toList
      = ("old".toList, "new".toList, none) := by
  refine ⟨by decide, by decide, by decide, by decide, by decide, by decide⟩

/-- C30 (amended): for two different keys whose file names, the prefix followed
by the key, are plain, a successful `Save` of the first leaves `Read` of the
second as it was when the file name of the first is not `metadata-` followed by
the file name of the second; a successful `SaveWithMetadata` does so when, in
addition, the file name of the second is not `metadata-` followed by the file
name of the first. Both conditions hold when the prefix starts with another
byte than `m`. -/
theorem Save_leaves_other_keys (d : diskBackend) (fs : FS) (k1 k2 data metadata : Str)
    (hp1 : plainName (d.pfx ++ k1)) (hp2 : plainName (d.pfx ++ k2)) (hne : k1 ≠ k2)
    (hx : d.pfx ++ k1 ≠ metadataPrefix ++ d.pfx ++ k2) :
    ((d.Save fs k1 data).2 = none → d.Read (d.Save fs k1 data).1 k2 = d.Read fs k2)
    ∧ (d.pfx ++ k2 ≠ metadataPrefix ++ d.pfx ++ k1 →
        (d.SaveWithMetadata fs k1 data metadata).2 = none →
        d.Read (d.SaveWithMetadata fs k1 data metadata).1 k2 = d.Read fs k2)
    ∧ (∀ c rest, d.pfx = c :: rest → c ≠ 'm' →
        d.pfx ++ k1 ≠ metadataPrefix ++ d.pfx ++ k2
        ∧ d.pfx ++ k2 ≠ metadataPrefix ++ d.pfx ++ k1) := by
  have hm1 : plainName (metadataPrefix ++ d.pfx ++ k1) := by
    rw [List.append_assoc]; exact plainName_metadata _ hp1.2.2.2
  have hm2 : plainName (metadataPrefix ++ d.pfx ++ k2) := by
    rw [List.append_assoc]; exact plainName_metadata _ hp2.2.2.2
  have hk : d.pfx ++ k2 ≠ d.pfx ++ k1 := fun e => hne (List.append_cancel_left e).symm
  have hkm : metadataPrefix ++ d.pfx ++ k2 ≠ metadataPrefix ++ d.pfx ++ k1 := by
    intro e
    rw [List.append_assoc, List.append_assoc] at e
    exact hk (List.append_cancel_left e)
  refine ⟨fun hok => ?_, fun hy hok => ?_, fun c rest hc hcm => ?_⟩
  · exact Save_frame d fs k1 k2 data hok (Join_plain_ne _ _ _ hp2 hp1 hk)
      (Join_plain_ne _ _ _ hm2 hp1 (fun e => hx e.symm))
  · exact SaveWithMetadata_frame d fs k1 k2 data metadata hok
      (Join_plain_ne _ _ _ hp2 hp1 hk) (Join_plain_ne _ _ _ hm2 hp1 (fun e => hx e.symm))
      (Join_plain_ne _ _ _ hp2 hm1 hy) (Join_plain_ne _ _ _ hm2 hm1 hkm)
  · rw [hc, List.append_assoc, List.append_assoc]
    exact ⟨ne_metadata_of_head c _ _ hcm, ne_metadata_of_head c _ _ hcm⟩

theorem Save_leaves_other_keys_witness :
    (exampleBackend "key_").Read
        ((exampleBackend "key_").Save exampleFS "new".toList "data".toList).1 "old".toList
      = (exampleBackend "key_").Read exampleFS "old".toList :=
  (Save_leaves_other_keys (exampleBackend "key_") exampleFS "new".toList "old".toList
    "data".toList "meta".toList (by decide) (by decide) (by decide) (by decide)).1 (by decide)

end Chevron
